import Mathlib

/-!
# UNIX-Filesystem: a verification development for `src/filesystem.c`

The C program keeps a tree of directories in linked lists
(`src/file-system-internals.h`) together with a pointer to the current
directory.  The embedding below is shallow:

* a `char *` name is a `String` (a C string ends at the character of code
  0, so a `String` that holds that character stands for no argument);
  `strcmp` is modelled on the characters of the two strings and is used
  wherever the source calls it;
* the linked list of `File` nodes is the `List` of their names, in list
  order; the linked list of `Sub_directory` cells is the `List` of the
  directories they point to;
* the `parent_dir` back pointers and the `curr_dir` pointer are represented
  positionally: a `Filesystem` holds the current directory and the chain of
  its ancestors (nearest first), each ancestor with the hole where the
  directory below it sits.  The parent of a member of `sub_dir_list` is the
  directory whose list it is in; the root's parent is the root itself;
* in that representation a pointer cannot dangle, so the operations are
  translated a second time with the memory made explicit (`Memory`, and the
  definitions named `..._mem`): directories lie at addresses, the pointers
  are addresses, and `free` empties an address.  The claim about the
  validity of `curr_dir` is stated there;
* `int` results are `Int`; the output of a listing is the list of its
  entries, one for each call of `printf`, in print order; the characters
  written to standard output and the lines they form are `stdout_text` and
  `output_lines` of that list (a name may hold a line break, so an entry
  need not be one line);
* `malloc` is assumed to succeed (the source exits the process otherwise)
  and the `Filesystem *` / `char *` arguments are assumed non-`NULL`.
-/

namespace UnixFS

/-! ## Names and `strcmp` -/

/-- Character-wise comparison behind `strcmp`: negative, zero or positive as
the first sequence is smaller than, equal to or greater than the second. -/
def strcmpAux : List Char → List Char → Int
  | [], [] => 0
  | [], _ :: _ => -1
  | _ :: _, [] => 1
  | a :: as, b :: bs =>
    if a.toNat < b.toNat then -1
    else if b.toNat < a.toNat then 1
    else strcmpAux as bs

/-- The libc function `strcmp` on two names (only the sign of the result is
meaningful, as in C).  C compares the bytes of the two strings as unsigned
values; on ASCII and UTF-8 text that is the order of the characters, which
is what is compared here. -/
def strcmp (a b : String) : Int := strcmpAux a.data b.data

/-! ## Data model (`file-system-internals.h`) -/

/-- The struct `Directory`: its name, the list of its files (a `File` node
holds a name only) and the list of its sub directories. -/
inductive Directory where
  | mk (dir_name : String) (file_list : List String)
      (sub_dir_list : List Directory) : Directory

/-- Field `dir_name`. -/
def Directory.dir_name : Directory → String
  | .mk n _ _ => n

/-- Field `file_list`. -/
def Directory.file_list : Directory → List String
  | .mk _ f _ => f

/-- Field `sub_dir_list`. -/
def Directory.sub_dir_list : Directory → List Directory
  | .mk _ _ s => s

/-- One link of the `parent_dir` chain: a directory with one of its sub
directories taken out, `before` and `after` being the sub directories in
front of and behind the missing one. -/
structure Parent where
  dir_name : String
  file_list : List String
  before : List Directory
  after : List Directory

/-- The struct `Filesystem`: the current directory and its `parent_dir`
chain, nearest ancestor first.  The chain is empty exactly when the current
directory is the root. -/
structure Filesystem where
  curr_dir : Directory
  parents : List Parent

/-- The directory a `Parent` link stands for, once the directory below it is
put back in its place. -/
def Parent.rebuild (p : Parent) (d : Directory) : Directory :=
  .mk p.dir_name p.file_list (p.before ++ d :: p.after)

/-- The assignment `curr_dir = curr_dir->parent_dir`; the root is its own
parent. -/
def Filesystem.up : Filesystem → Filesystem
  | ⟨d, []⟩ => ⟨d, []⟩
  | ⟨d, p :: ps⟩ => ⟨p.rebuild d, ps⟩

/-- The root directory seen from a directory and its ancestor chain. -/
def toRoot : Directory → List Parent → Directory
  | d, [] => d
  | d, p :: ps => toRoot (p.rebuild d) ps

/-- The pointer `files->root`. -/
def Filesystem.root (files : Filesystem) : Directory :=
  toRoot files.curr_dir files.parents

/-- The directory `curr_dir->parent_dir`. -/
def Filesystem.parent_dir (files : Filesystem) : Directory :=
  files.up.curr_dir

/-- Names of the sub directories of a directory, in list order. -/
def Directory.sub_dir_names (d : Directory) : List String :=
  d.sub_dir_list.map Directory.dir_name

/-- Names of all children of a directory: files first, then sub
directories, each in list order. -/
def Directory.child_names (d : Directory) : List String :=
  d.file_list ++ d.sub_dir_names

/-! ## Operations (`filesystem.c`) -/

/-- The function `mkfs`: a root named `/` without children, which is also the
current directory. -/
def mkfs : Filesystem :=
  ⟨.mk "/" [] [], []⟩

/-- The test `strcmp(arg, ".") == 0 || strcmp(arg, "..") == 0 ||
strcmp(arg, "/") == 0`. -/
def is_special (arg : String) : Bool :=
  strcmp arg "." = 0 || strcmp arg ".." = 0 || strcmp arg "/" = 0

/-- The loop over `file_list` that stops at the first file whose name
compares equal to `arg`. -/
def file_exists (arg : String) : List String → Bool
  | [] => false
  | f :: rest => if strcmp arg f = 0 then true else file_exists arg rest

/-- The loop over `sub_dir_list` that stops at the first sub directory whose
name compares equal to `arg`. -/
def sub_dir_exists (arg : String) : List Directory → Bool
  | [] => false
  | d :: rest =>
    if strcmp arg d.dir_name = 0 then true else sub_dir_exists arg rest

/-- Linking `new_file` behind the last node of the file list. -/
def append_file (new_file : String) : List String → List String
  | [] => [new_file]
  | f :: rest => f :: append_file new_file rest

/-- Linking `new_s_dir` behind the last cell of the sub directory list. -/
def append_sub_dir (new_dir : Directory) : List Directory → List Directory
  | [] => [new_dir]
  | d :: rest => d :: append_sub_dir new_dir rest

/-- The function `touch`. -/
def touch (files : Filesystem) (arg : String) : Int × Filesystem :=
  if arg = "" then (-1, files)
  else if is_special arg then (0, files)
  else if file_exists arg files.curr_dir.file_list then (0, files)
  else if sub_dir_exists arg files.curr_dir.sub_dir_list then (0, files)
  else
    (0, ⟨.mk files.curr_dir.dir_name
            (append_file arg files.curr_dir.file_list)
            files.curr_dir.sub_dir_list,
         files.parents⟩)

/-- The function `mkdir`. -/
def mkdir (files : Filesystem) (arg : String) : Int × Filesystem :=
  if arg = "" then (-1, files)
  else if is_special arg then (-2, files)
  else if file_exists arg files.curr_dir.file_list then (-2, files)
  else if sub_dir_exists arg files.curr_dir.sub_dir_list then (-2, files)
  else
    (0, ⟨.mk files.curr_dir.dir_name
            files.curr_dir.file_list
            (append_sub_dir (.mk arg [] []) files.curr_dir.sub_dir_list),
         files.parents⟩)

/-- The loop of `cd` that sets `exist_file_or_dir`; it has no `break` and
visits every cell. -/
def cd_scan (arg : String) : List Directory → Bool → Bool
  | [], exist_file_or_dir => exist_file_or_dir
  | d :: rest, exist_file_or_dir =>
    cd_scan arg rest
      (if strcmp arg d.dir_name = 0 then true else exist_file_or_dir)

/-- The loop of `cd` that looks for the directory to enter, starting at
cell `d` with `rest` behind it: it advances while there is a next cell and
the name differs.  The result is the cell it stops at, with the cells in
front of and behind it. -/
def cd_find (arg : String) (before : List Directory) :
    Directory → List Directory → List Directory × Directory × List Directory
  | d, [] => (before, d, [])
  | d, d' :: rest =>
    if strcmp arg d.dir_name ≠ 0 then cd_find arg (before ++ [d]) d' rest
    else (before, d, d' :: rest)

/-- The function `cd`. -/
def cd (files : Filesystem) (arg : String) : Int × Filesystem :=
  if strcmp arg "/" = 0 then (0, ⟨files.root, []⟩)
  else if strcmp arg "." = 0 ∨ arg = "" then (0, files)
  else if strcmp arg ".." = 0 then
    if strcmp files.curr_dir.dir_name "/" = 0 then (0, files)
    else (0, files.up)
  else if file_exists arg files.curr_dir.file_list then (-2, files)
  else if !cd_scan arg files.curr_dir.sub_dir_list false then (-1, files)
  else
    match files.curr_dir.sub_dir_list with
    | [] => (-1, files)
    | d :: rest =>
      let r := cd_find arg [] d rest
      (0, ⟨r.2.1,
           ⟨files.curr_dir.dir_name, files.curr_dir.file_list, r.1, r.2.2⟩
             :: files.parents⟩)

/-- The function `is_dir`: whether some sub directory of `dir` is named
`str`. -/
def is_dir (dir : Directory) (str : String) : Bool :=
  sub_dir_exists str dir.sub_dir_list

/-- The inner `for` loop of the bubble sort, with `j` comparisons still to
do and the not yet visited part of the array as a list: neighbours in the
wrong order are swapped. -/
def bubble : Nat → List String → List String
  | 0, s => s
  | _ + 1, [] => []
  | _ + 1, [x] => [x]
  | j + 1, x :: y :: rest =>
    if 0 < strcmp x y then y :: bubble j (x :: rest)
    else x :: bubble j (y :: rest)

/-- The outer `while (j > 0)` loop of the bubble sort. -/
def bubble_sort : Nat → List String → List String
  | 0, s => s
  | j + 1, s => bubble_sort j (bubble (j + 1) s)

/-- The function `sort_and_print`: the entries printed, one for each call of
`printf` in the last loop, in print order.  An entry is the text printed in
front of the line break of the format: the name, or the name and `/`. -/
def sort_and_print (dir : Directory) : List String :=
  let s_arr := dir.file_list ++ dir.sub_dir_list.map Directory.dir_name
  let elements := s_arr.length
  (bubble_sort (elements - 1) s_arr).map
    (fun s => if is_dir dir s then s ++ "/" else s)

/-- The loop of `ls` over the files, leaving `curr_file` at the first match. -/
def find_file (arg : String) : List String → Option String
  | [] => none
  | f :: rest => if strcmp arg f = 0 then some f else find_file arg rest

/-- The loop of `ls` over the sub directories, leaving `curr_s_dir` at the
first match. -/
def find_sub_dir (arg : String) : List Directory → Option Directory
  | [] => none
  | d :: rest =>
    if strcmp arg d.dir_name = 0 then some d else find_sub_dir arg rest

/-- The function `ls`: the result and the entries printed, one for each call
of `printf`, each without the line break of the format. -/
def ls (files : Filesystem) (arg : String) : Int × List String :=
  if strcmp arg "." = 0 ∨ arg = "" then (0, sort_and_print files.curr_dir)
  else if strcmp arg "/" = 0 then (0, sort_and_print files.root)
  else if strcmp arg ".." = 0 then
    if strcmp "/" files.curr_dir.dir_name = 0 then
      (0, sort_and_print files.root)
    else (0, sort_and_print files.parent_dir)
  else
    match find_file arg files.curr_dir.file_list with
    | some f => (0, [f])
    | none =>
      match find_sub_dir arg files.curr_dir.sub_dir_list with
      | none => (-1, [])
      | some d => (0, sort_and_print d)

/-- The line break character (code 10) that ends the formats of `printf`
in `ls` and `sort_and_print`. -/
def line_break : Char := Char.ofNat 10

/-- The characters that the calls of `printf` of a listing write to standard
output: each entry followed by the line break of the format. -/
def stdout_text : List String → List Char
  | [] => []
  | e :: rest => e.data ++ line_break :: stdout_text rest

/-- The character `c` put in front of the first line of a text; it is a
line of its own when there is no line yet. -/
def push_char (c : Char) : List (List Char) → List (List Char)
  | [] => [[c]]
  | l :: ls => (c :: l) :: ls

/-- The lines of a text: the runs of characters between line breaks, each
line ended by a line break (characters behind the last line break form a
last line). -/
def text_lines : List Char → List (List Char)
  | [] => []
  | c :: rest =>
    if c = line_break then [] :: text_lines rest
    else push_char c (text_lines rest)

/-- The lines that a listing shows on standard output, given its entries. -/
def output_lines (entries : List String) : List String :=
  (text_lines (stdout_text entries)).map String.mk

/-- The counting loop of `pwd`, standing at a directory named `n` with the
ancestors `ps`: the number of directories passed before one named `/` is
met.  The value `none` stands for a loop that does not end: it has come to a
root that is not named `/`, and the parent of the root is the root. -/
def pwd_count : String → List Parent → Option Nat
  | n, [] => if strcmp "/" n ≠ 0 then none else some 0
  | n, p :: ps =>
    if strcmp "/" n ≠ 0 then (pwd_count p.dir_name ps).map (· + 1)
    else some 0

/-- The loop of `pwd` that fills the array `path`: the names of the first
`directories` directories of the parent chain, the current one first. -/
def pwd_fill : Nat → String → List Parent → List String
  | 0, _, _ => []
  | k + 1, n, [] => n :: pwd_fill k n []
  | k + 1, n, p :: ps => n :: pwd_fill k p.dir_name ps

/-- The printing loop of `pwd`: it runs from the last cell of `path` down
to cell 0 and prints `/` and the name for each. -/
def pwd_print : List String → String
  | [] => ""
  | n :: rest => pwd_print rest ++ "/" ++ n

/-- The function `pwd`: the text printed in front of the final line break,
or `none` when the counting loop does not end. -/
def pwd (files : Filesystem) : Option String :=
  if strcmp files.curr_dir.dir_name "/" = 0 then some "/"
  else
    match pwd_count files.curr_dir.dir_name files.parents with
    | none => none
    | some directories =>
      some (pwd_print
        (pwd_fill directories files.curr_dir.dir_name files.parents))

/-- Unlinking the first file named `arg` from the file list. -/
def unlink_file (arg : String) : List String → List String
  | [] => []
  | f :: rest => if strcmp arg f = 0 then rest else f :: unlink_file arg rest

/-- Unlinking the first sub directory named `arg` from the sub directory
list (its contents go with it). -/
def unlink_sub_dir (arg : String) : List Directory → List Directory
  | [] => []
  | d :: rest =>
    if strcmp arg d.dir_name = 0 then rest else d :: unlink_sub_dir arg rest

/-- The function `rm`. -/
def rm (files : Filesystem) (arg : String) : Int × Filesystem :=
  if arg = "" then (-3, files)
  else if is_special arg then (-2, files)
  else
    let exist_file := file_exists arg files.curr_dir.file_list
    let exist_dir := sub_dir_exists arg files.curr_dir.sub_dir_list
    if !exist_dir && !exist_file then (-1, files)
    else if exist_file then
      (0, ⟨.mk files.curr_dir.dir_name
              (unlink_file arg files.curr_dir.file_list)
              files.curr_dir.sub_dir_list,
           files.parents⟩)
    else
      (0, ⟨.mk files.curr_dir.dir_name
              files.curr_dir.file_list
              (unlink_sub_dir arg files.curr_dir.sub_dir_list),
           files.parents⟩)

/-- The first loop of `re_name`: it stops (`break`) at the first file named
`arg1` and, on the files in front of it, records in `exist_arg2` whether one
is named `arg2`.  The result is `(exist_file, exist_arg2)`. -/
def re_name_scan_files (arg1 arg2 : String) :
    List String → Bool → Bool × Bool
  | [], exist_arg2 => (false, exist_arg2)
  | f :: rest, exist_arg2 =>
    if strcmp arg1 f = 0 then (true, exist_arg2)
    else
      re_name_scan_files arg1 arg2 rest
        (if strcmp arg2 f = 0 then true else exist_arg2)

/-- The second loop of `re_name`, over the sub directories; the result is
`(exist_dir, exist_arg2)`. -/
def re_name_scan_dirs (arg1 arg2 : String) :
    List Directory → Bool → Bool × Bool
  | [], exist_arg2 => (false, exist_arg2)
  | d :: rest, exist_arg2 =>
    if strcmp arg1 d.dir_name = 0 then (true, exist_arg2)
    else
      re_name_scan_dirs arg1 arg2 rest
        (if strcmp arg2 d.dir_name = 0 then true else exist_arg2)

/-- Overwriting `file_name` of the node `curr_file` stopped at: the first
file named `arg1`. -/
def set_file_name (arg1 arg2 : String) : List String → List String
  | [] => []
  | f :: rest =>
    if strcmp arg1 f = 0 then arg2 :: rest
    else f :: set_file_name arg1 arg2 rest

/-- Overwriting `dir_name` of the directory `curr_s_d` stopped at: the first
sub directory named `arg1`. -/
def set_dir_name (arg1 arg2 : String) : List Directory → List Directory
  | [] => []
  | d :: rest =>
    if strcmp arg1 d.dir_name = 0 then
      .mk arg2 d.file_list d.sub_dir_list :: rest
    else d :: set_dir_name arg1 arg2 rest

/-- The function `re_name`. -/
def re_name (files : Filesystem) (arg1 arg2 : String) : Int × Filesystem :=
  if arg1 = "" ∨ arg2 = "" then (-2, files)
  else if is_special arg1 || is_special arg2 then (-3, files)
  else
    let s1 := re_name_scan_files arg1 arg2 files.curr_dir.file_list false
    let exist_file := s1.1
    let s2 := re_name_scan_dirs arg1 arg2 files.curr_dir.sub_dir_list s1.2
    let exist_dir := s2.1
    let exist_arg2 := s2.2
    if exist_arg2 ∧ strcmp arg1 arg2 ≠ 0 then (-3, files)
    else if !exist_dir && !exist_file then (-1, files)
    else if (exist_file || exist_dir) ∧ strcmp arg1 arg2 = 0 then (-4, files)
    else if exist_file then
      (0, ⟨.mk files.curr_dir.dir_name
              (set_file_name arg1 arg2 files.curr_dir.file_list)
              files.curr_dir.sub_dir_list,
           files.parents⟩)
    else
      (0, ⟨.mk files.curr_dir.dir_name
              files.curr_dir.file_list
              (set_dir_name arg1 arg2 files.curr_dir.sub_dir_list),
           files.parents⟩)

/-- The value of `exist_arg2` after both loops of `re_name`. -/
def exist_arg2_of (files : Filesystem) (arg1 arg2 : String) : Bool :=
  (re_name_scan_dirs arg1 arg2 files.curr_dir.sub_dir_list
    (re_name_scan_files arg1 arg2 files.curr_dir.file_list false).2).2

/-- What `remove_contents` frees, one entry for each node, in the order of
the calls of `free`: a `File` node with its name, or a `Directory` with its
name (and the cell that pointed to it).  A directory is told from the others
by its place, which stands for the address of the node: the indices of the
cells that lead to it from the directory given to `remove_contents`. -/
inductive Freed where
  | file (file_name : String)
  | dir (place : List Nat) (dir_name : String)
  deriving DecidableEq

/-- The pointers `travel_sub_dir` and `prev_sub_dir` of `remove_contents`:
the cell `travel_sub_dir` points to, given by the directory in it
(`curr_sub`), by the directory `owner` whose list the cell is in, with the
cells in front of it (the last of them, or the owner, holds the link
`*prev_sub_dir`) and the cells behind it (`next`), and by the chain `above`
of the ancestors of the owner, up to the directory given to
`remove_contents`. -/
structure Travel where
  curr_sub : Directory
  owner : Parent
  above : List Parent

/-- The indices of the cells that lead from the directory given to
`remove_contents` down a chain of ancestors, outermost first. -/
def places (above : List Parent) : List Nat :=
  above.reverse.map (fun p => p.before.length)

/-- The assignments `travel_sub_dir = dir->sub_dir_list` and
`prev_sub_dir = &dir->sub_dir_list`; no cell when the list is empty. -/
def travel_start (dir : Directory) : Option Travel :=
  match dir.sub_dir_list with
  | [] => none
  | c :: cs => some ⟨c, ⟨dir.dir_name, dir.file_list, [], cs⟩, []⟩

/-- The inner loop `while (travel_sub_dir->next != NULL)`: from the cell
with directory `c`, the cells `before` in front of it and the cells behind
it, to the last cell of the list and the cells in front of that one. -/
def walk_to_last :
    Directory → List Directory → List Directory → Directory × List Directory
  | c, before, [] => (c, before)
  | c, before, nx :: after => walk_to_last nx (before ++ [c]) after

/-- The loop that frees the `File` nodes of a directory, first to last. -/
def free_files : List String → List Freed
  | [] => []
  | f :: rest => Freed.file f :: free_files rest

/-- The outer loop `while (dir->sub_dir_list != NULL)` of `remove_contents`,
run for at most `fuel` passes; `none` when the passes do not suffice.  The
state is the directory `dir` as it is now, the pointers, and what has been
freed so far.  A pass walks to the last cell of the list; when the
directory there has sub directories it goes down to the first of them, and
otherwise it frees that directory with its files, cuts the cell off
(`*prev_sub_dir = NULL`) and starts again from `dir->sub_dir_list`. -/
def remove_contents_loop :
    Nat → Directory → Option Travel → List Freed →
      Option (Directory × List Freed)
  | 0, dir, _, freed =>
    match dir.sub_dir_list with
    | [] => some (dir, freed)
    | _ :: _ => none
  | fuel + 1, dir, travel, freed =>
    match dir.sub_dir_list with
    | [] => some (dir, freed)
    | _ :: _ =>
      match travel with
      | none => none
      | some t =>
        let w := walk_to_last t.curr_sub t.owner.before t.owner.after
        match w.1.sub_dir_list with
        | c :: cs =>
          remove_contents_loop fuel dir
            (some ⟨c, ⟨w.1.dir_name, w.1.file_list, [], cs⟩,
              ⟨t.owner.dir_name, t.owner.file_list, w.2, []⟩ :: t.above⟩)
            freed
        | [] =>
          let dir' :=
            toRoot (.mk t.owner.dir_name t.owner.file_list w.2) t.above
          remove_contents_loop fuel dir' (travel_start dir')
            (freed ++ (free_files w.1.file_list ++
              [Freed.dir (places t.above ++ [w.2.length]) w.1.dir_name]))

/-- The function `remove_contents`, with at most `fuel` passes of its outer
loop: what it frees, in order; the files and the directory given to it come
last. -/
def remove_contents (fuel : Nat) (dir : Directory) : Option (List Freed) :=
  match remove_contents_loop fuel dir (travel_start dir) [] with
  | none => none
  | some r =>
    some (r.2 ++ (free_files r.1.file_list ++ [Freed.dir [] r.1.dir_name]))

/-- The function `rmfs`. -/
def rmfs (fuel : Nat) (files : Filesystem) : Option (List Freed) :=
  remove_contents fuel files.root

/-! ## Command sequences -/

/-- A call of one of the five operations that take a `Filesystem *`. -/
inductive Cmd where
  | touch (arg : String)
  | mkdir (arg : String)
  | cd (arg : String)
  | rm (arg : String)
  | re_name (arg1 arg2 : String)

/-- Running a call: its result and the file system afterwards. -/
def Cmd.run : Cmd → Filesystem → Int × Filesystem
  | .touch arg, files => UnixFS.touch files arg
  | .mkdir arg, files => UnixFS.mkdir files arg
  | .cd arg, files => UnixFS.cd files arg
  | .rm arg, files => UnixFS.rm files arg
  | .re_name arg1 arg2, files => UnixFS.re_name files arg1 arg2

/-- The file systems obtained from `mkfs` by finitely many calls. -/
inductive Reachable : Filesystem → Prop
  | mkfs : Reachable UnixFS.mkfs
  | step (c : Cmd) {files : Filesystem} :
      Reachable files → Reachable (c.run files).2

/-! ## The operations on pointers

The definitions above hold the tree by value, so that a pointer into the
tree cannot dangle.  For the claims about the validity of `curr_dir` the
operations are translated once more, this time with the memory made
explicit: a `Directory` lies at an address, `sub_dir_list` is the list of
the addresses its cells point to (`curr_sub`), `parent_dir`, `root` and
`curr_dir` are addresses, and `free` empties an address.  Address 0 is
`NULL`. -/

/-- The struct `Directory` as it lies in memory. -/
structure Node where
  dir_name : String
  file_list : List String
  sub_dir_list : List Nat
  parent_dir : Nat
  deriving DecidableEq

/-- The memory of the directories and the struct `Filesystem`: what is
allocated at each address (`none` for an address that holds nothing, never
allocated or freed), the address the next `malloc` of a `Directory` gives,
and the pointers `root` and `curr_dir`. -/
structure Memory where
  node : Nat → Option Node
  next : Nat
  root : Nat
  curr_dir : Nat

/-- Reading through a pointer.  Reading an address that holds nothing is
undefined in C; here it gives a directory without a name and without
children. -/
def Memory.read (m : Memory) (a : Nat) : Node :=
  (m.node a).getD ⟨"", [], [], 0⟩

/-- Writing the fields of the directory at an address. -/
def Memory.write (m : Memory) (a : Nat) (n : Node) : Memory :=
  ⟨Function.update m.node a (some n), m.next, m.root, m.curr_dir⟩

/-- The call `free` on the directory at an address. -/
def Memory.free (m : Memory) (a : Nat) : Memory :=
  ⟨Function.update m.node a none, m.next, m.root, m.curr_dir⟩

/-- The assignment to `files->curr_dir`. -/
def Memory.move (m : Memory) (a : Nat) : Memory :=
  ⟨m.node, m.next, m.root, a⟩

/-- The function `mkfs` on pointers: the root is allocated at address 1, it
is its own parent and the current directory. -/
def mkfs_mem : Memory :=
  ⟨Function.update (fun _ => none) 1 (some ⟨"/", [], [], 1⟩), 2, 1, 1⟩

/-- The loop over `sub_dir_list` that stops at the first cell whose
directory is named `arg`: the address of that directory (`curr_sub` of the
cell the loop stops at), or `none` when the loop runs to the end. -/
def find_cell (m : Memory) (arg : String) : List Nat → Option Nat
  | [] => none
  | d :: rest =>
    if strcmp arg (m.read d).dir_name = 0 then some d
    else find_cell m arg rest

/-- The function `touch` on pointers. -/
def touch_mem (m : Memory) (arg : String) : Int × Memory :=
  if arg = "" then (-1, m)
  else if is_special arg then (0, m)
  else if file_exists arg (m.read m.curr_dir).file_list then (0, m)
  else if (find_cell m arg (m.read m.curr_dir).sub_dir_list).isSome then
    (0, m)
  else
    (0, m.write m.curr_dir
      ⟨(m.read m.curr_dir).dir_name,
        append_file arg (m.read m.curr_dir).file_list,
        (m.read m.curr_dir).sub_dir_list,
        (m.read m.curr_dir).parent_dir⟩)

/-- The function `mkdir` on pointers: the new directory is allocated at
`next`, its `parent_dir` is `curr_dir`, and a cell that points to it is
linked behind the last cell of the list of the current directory. -/
def mkdir_mem (m : Memory) (arg : String) : Int × Memory :=
  if arg = "" then (-1, m)
  else if is_special arg then (-2, m)
  else if file_exists arg (m.read m.curr_dir).file_list then (-2, m)
  else if (find_cell m arg (m.read m.curr_dir).sub_dir_list).isSome then
    (-2, m)
  else
    (0, ⟨Function.update
          (Function.update m.node m.next (some ⟨arg, [], [], m.curr_dir⟩))
          m.curr_dir
          (some ⟨(m.read m.curr_dir).dir_name,
            (m.read m.curr_dir).file_list,
            (m.read m.curr_dir).sub_dir_list ++ [m.next],
            (m.read m.curr_dir).parent_dir⟩),
        m.next + 1, m.root, m.curr_dir⟩)

/-- The loop of `cd` that sets `exist_file_or_dir`, on pointers. -/
def cd_scan_mem (m : Memory) (arg : String) : List Nat → Bool → Bool
  | [], exist_file_or_dir => exist_file_or_dir
  | d :: rest, exist_file_or_dir =>
    cd_scan_mem m arg rest
      (if strcmp arg (m.read d).dir_name = 0 then true
        else exist_file_or_dir)

/-- The loop of `cd` that looks for the directory to enter, on pointers:
from the cell that points to `d`, with the cells `rest` behind it, it
advances while there is a next cell and the name differs; the result is
`curr_sub` of the cell it stops at. -/
def cd_find_mem (m : Memory) (arg : String) : Nat → List Nat → Nat
  | d, [] => d
  | d, d' :: rest =>
    if strcmp arg (m.read d).dir_name ≠ 0 then cd_find_mem m arg d' rest
    else d

/-- The function `cd` on pointers. -/
def cd_mem (m : Memory) (arg : String) : Int × Memory :=
  if strcmp arg "/" = 0 then (0, m.move m.root)
  else if strcmp arg "." = 0 ∨ arg = "" then (0, m)
  else if strcmp arg ".." = 0 then
    if strcmp (m.read m.curr_dir).dir_name "/" = 0 then (0, m)
    else (0, m.move (m.read m.curr_dir).parent_dir)
  else if file_exists arg (m.read m.curr_dir).file_list then (-2, m)
  else if !cd_scan_mem m arg (m.read m.curr_dir).sub_dir_list false then
    (-1, m)
  else
    match (m.read m.curr_dir).sub_dir_list with
    | [] => (-1, m)
    | d :: rest => (0, m.move (cd_find_mem m arg d rest))

/-- Unlinking the first cell whose directory is named `arg`, on pointers. -/
def unlink_cell (m : Memory) (arg : String) : List Nat → List Nat
  | [] => []
  | d :: rest =>
    if strcmp arg (m.read d).dir_name = 0 then rest
    else d :: unlink_cell m arg rest

/-- The outer loop of `remove_contents` on pointers, run for at most `fuel`
passes; `none` when the passes do not suffice.  The pointers
`travel_sub_dir` and `prev_sub_dir` are given by the address `owner` of the
directory in whose list they point: at the start of a pass
`travel_sub_dir` is the first cell of that list.  A pass walks to the last
cell; when the directory there (`x`) has sub directories the pointers go to
its list, and otherwise that directory is freed, the last cell is cut off
the list of the owner (`*prev_sub_dir = NULL`) and the pointers go back to
the list of `dir`. -/
def remove_contents_mem_loop : Nat → Memory → Nat → Nat → Option Memory
  | 0, m, dir, _ =>
    match (m.read dir).sub_dir_list with
    | [] => some m
    | _ :: _ => none
  | fuel + 1, m, dir, owner =>
    match (m.read dir).sub_dir_list with
    | [] => some m
    | _ :: _ =>
      match (m.read owner).sub_dir_list.getLast? with
      | none => none
      | some x =>
        match (m.read x).sub_dir_list with
        | _ :: _ => remove_contents_mem_loop fuel m dir x
        | [] =>
          remove_contents_mem_loop fuel
            ((m.free x).write owner
              ⟨(m.read owner).dir_name, (m.read owner).file_list,
                (m.read owner).sub_dir_list.dropLast,
                (m.read owner).parent_dir⟩)
            dir dir

/-- The function `remove_contents` on pointers, with at most `fuel` passes
of its outer loop: after the loop the directory `dir` itself is freed. -/
def remove_contents_mem (fuel : Nat) (m : Memory) (dir : Nat) :
    Option Memory :=
  match remove_contents_mem_loop fuel m dir dir with
  | none => none
  | some m' => some (m'.free dir)

/-- The function `rm` on pointers, with at most `fuel` passes of the outer
loop of `remove_contents`. -/
def rm_mem (fuel : Nat) (m : Memory) (arg : String) :
    Option (Int × Memory) :=
  if arg = "" then some (-3, m)
  else if is_special arg then some (-2, m)
  else
    let exist_file := file_exists arg (m.read m.curr_dir).file_list
    let curr_s_d := find_cell m arg (m.read m.curr_dir).sub_dir_list
    if !curr_s_d.isSome && !exist_file then some (-1, m)
    else if exist_file then
      some (0, m.write m.curr_dir
        ⟨(m.read m.curr_dir).dir_name,
          unlink_file arg (m.read m.curr_dir).file_list,
          (m.read m.curr_dir).sub_dir_list,
          (m.read m.curr_dir).parent_dir⟩)
    else
      match curr_s_d with
      | none => some (-1, m)
      | some tmp =>
        match remove_contents_mem fuel
            (m.write m.curr_dir
              ⟨(m.read m.curr_dir).dir_name, (m.read m.curr_dir).file_list,
                unlink_cell m arg (m.read m.curr_dir).sub_dir_list,
                (m.read m.curr_dir).parent_dir⟩)
            tmp with
        | none => none
        | some m' => some (0, m')

/-- The second loop of `re_name` on pointers; the result is
`(exist_dir, exist_arg2)`. -/
def re_name_scan_cells (m : Memory) (arg1 arg2 : String) :
    List Nat → Bool → Bool × Bool
  | [], exist_arg2 => (false, exist_arg2)
  | d :: rest, exist_arg2 =>
    if strcmp arg1 (m.read d).dir_name = 0 then (true, exist_arg2)
    else
      re_name_scan_cells m arg1 arg2 rest
        (if strcmp arg2 (m.read d).dir_name = 0 then true else exist_arg2)

/-- The function `re_name` on pointers. -/
def re_name_mem (m : Memory) (arg1 arg2 : String) : Int × Memory :=
  if arg1 = "" ∨ arg2 = "" then (-2, m)
  else if is_special arg1 || is_special arg2 then (-3, m)
  else
    let s1 := re_name_scan_files arg1 arg2 (m.read m.curr_dir).file_list false
    let exist_file := s1.1
    let s2 :=
      re_name_scan_cells m arg1 arg2 (m.read m.curr_dir).sub_dir_list s1.2
    let exist_dir := s2.1
    let exist_arg2 := s2.2
    if exist_arg2 ∧ strcmp arg1 arg2 ≠ 0 then (-3, m)
    else if !exist_dir && !exist_file then (-1, m)
    else if (exist_file || exist_dir) ∧ strcmp arg1 arg2 = 0 then (-4, m)
    else if exist_file then
      (0, m.write m.curr_dir
        ⟨(m.read m.curr_dir).dir_name,
          set_file_name arg1 arg2 (m.read m.curr_dir).file_list,
          (m.read m.curr_dir).sub_dir_list,
          (m.read m.curr_dir).parent_dir⟩)
    else
      match find_cell m arg1 (m.read m.curr_dir).sub_dir_list with
      | none => (-1, m)
      | some curr_sub =>
        (0, m.write curr_sub
          ⟨arg2, (m.read curr_sub).file_list, (m.read curr_sub).sub_dir_list,
            (m.read curr_sub).parent_dir⟩)

/-- Running a call on pointers, `rm` with at most `fuel` passes of the loop
of `remove_contents`: the result and the memory afterwards, `none` when the
passes do not suffice. -/
def Cmd.run_mem (fuel : Nat) : Cmd → Memory → Option (Int × Memory)
  | .touch arg, m => some (touch_mem m arg)
  | .mkdir arg, m => some (mkdir_mem m arg)
  | .cd arg, m => some (cd_mem m arg)
  | .rm arg, m => rm_mem fuel m arg
  | .re_name arg1 arg2, m => some (re_name_mem m arg1 arg2)

/-- The memories obtained from `mkfs` by finitely many calls that
return. -/
inductive MReachable : Memory → Prop
  | mkfs : MReachable mkfs_mem
  | step (c : Cmd) (fuel : Nat) {m : Memory} (r : Int × Memory) :
      MReachable m → c.run_mem fuel m = some r → MReachable r.2

/-- The directory at `b` is the one at `a` or is reached from it through
sub directory links: each step goes from an allocated directory to the
directory one of its cells points to. -/
inductive Linked (m : Memory) : Nat → Nat → Prop
  | refl (a : Nat) : Linked m a a
  | tail {a b c : Nat} :
      Linked m a b → c ∈ (m.read b).sub_dir_list → Linked m a c

/-- The shape of the memory that the operations keep, with a depth for each
address: every directory reached from the root is allocated, no two cells
of its list point to the same directory, and each directory its cells point
to is one level deeper and has it as `parent_dir`; the current directory is
reached from the root; the root is its own parent; and nothing is allocated
at or above `next`. -/
structure TreeInv (m : Memory) (depth : Nat → Nat) : Prop where
  nodes : ∀ a, Linked m m.root a →
    ∃ n, m.node a = some n ∧ n.sub_dir_list.Nodup ∧
      ∀ c ∈ n.sub_dir_list,
        depth c = depth a + 1 ∧ (m.read c).parent_dir = a
  cursor : Linked m m.root m.curr_dir
  root_parent : (m.read m.root).parent_dir = m.root
  fresh : ∀ a n, m.node a = some n → a < m.next

/-- A memory after `rm` of a directory with a sub directory: from `mkfs`,
`mkdir a`, `cd a`, `mkdir b`, `cd b`, `mkdir d`, `cd ..` and then `rm b`
inside `/a`, with two passes of the loop allowed. -/
def example_mem : Memory :=
  ((rm_mem 2
    (cd_mem (mkdir_mem (cd_mem (mkdir_mem (cd_mem (mkdir_mem mkfs_mem "a").2
      "a").2 "b").2 "b").2 "d").2 "..").2 "b").getD (0, mkfs_mem)).2

/-! ## Well-formedness of names -/

/-- An ordinary name: not empty and none of `.`, `..`, `/`. -/
def ok_name (n : String) : Prop :=
  n ≠ "" ∧ n ≠ "." ∧ n ≠ ".." ∧ n ≠ "/"

/-- Every file and every directory below the given directory (the directory
itself left aside) has an ordinary name. -/
inductive NamesOK : Directory → Prop
  | mk (n : String) (f : List String) (s : List Directory) :
      (∀ x ∈ f, ok_name x) → (∀ d ∈ s, ok_name d.dir_name) →
      (∀ d ∈ s, NamesOK d) → NamesOK (.mk n f s)

/-- Names along the `parent_dir` chain, for a directory named `n` with the
ancestors `ps`: the root, at the end of the chain, is named `/`; every
directory with a parent has an ordinary name, and so has everything that
hangs off its ancestors. -/
def ChainOK : String → List Parent → Prop
  | n, [] => n = "/"
  | n, p :: ps =>
    ok_name n ∧ (∀ x ∈ p.file_list, ok_name x) ∧
      (∀ d ∈ p.before ++ p.after, ok_name d.dir_name ∧ NamesOK d) ∧
      ChainOK p.dir_name ps

/-- The naming invariant of a file system: the root is named `/`, every
other directory and every file has an ordinary name. -/
def NamesInv (files : Filesystem) : Prop :=
  NamesOK files.curr_dir ∧ ChainOK files.curr_dir.dir_name files.parents

/-! ## Files and sub directories with different names -/

/-- In the given directory and in every directory below it, no file has the
name of a sub directory of the same directory. -/
inductive NoShare : Directory → Prop
  | mk (n : String) (f : List String) (s : List Directory) :
      (∀ x ∈ f, x ∉ s.map Directory.dir_name) →
      (∀ d ∈ s, NoShare d) → NoShare (.mk n f s)

/-- The same along the `parent_dir` chain of a directory named `n`: in no
ancestor has a file the name of a sub directory, the one on the chain
included. -/
def ChainNoShare : String → List Parent → Prop
  | _, [] => True
  | n, p :: ps =>
    (∀ x ∈ p.file_list,
        x ≠ n ∧ x ∉ (p.before ++ p.after).map Directory.dir_name) ∧
      (∀ d ∈ p.before ++ p.after, NoShare d) ∧
      ChainNoShare p.dir_name ps

/-- No directory of the file system has a file and a sub directory of the
same name. -/
def NoShareInv (files : Filesystem) : Prop :=
  NoShare files.curr_dir ∧ ChainNoShare files.curr_dir.dir_name files.parents

/-! ## Vocabulary of the claims about paths, the cursor and failures -/

/-- The directory `d` is `r` itself or is reached from `r` through sub
directory links. -/
inductive Reaches : Directory → Directory → Prop
  | refl (d : Directory) : Reaches d d
  | step {r s d : Directory} : s ∈ r.sub_dir_list → Reaches s d → Reaches r d

/-- Names of the directories on the way from the root to a directory named
`n` with the ancestors `ps`, top-down, the root left out and the directory
itself last; empty for the root. -/
def chain_names : String → List Parent → List String
  | _, [] => []
  | n, p :: ps => chain_names p.dir_name ps ++ [n]

/-- The names on the way from the root to the current directory. -/
def Filesystem.path_names (files : Filesystem) : List String :=
  chain_names files.curr_dir.dir_name files.parents

/-- The text `/` + name + `/` + name + ... for a list of names. -/
def render_path : List String → String
  | [] => ""
  | n :: rest => "/" ++ n ++ render_path rest

/-- The entry `sort_and_print` is to print for a child named `n` of `dir`
when names are distinct: the name followed by `/` for a sub directory, the
bare name otherwise. -/
def render_child (dir : Directory) (n : String) : String :=
  if n ∈ dir.sub_dir_names then n ++ "/" else n

/-- The failure kinds of rename named in the specification. -/
inductive RenameFailure where
  | InvalidName
  | ProtectedName
  | NameCollision
  | NoSuchEntry
  | NoOpRename
  deriving DecidableEq

/-- The failure kind that section 4.10 of the specification gives to a call
of rename, `none` when the call is to succeed.  This definition follows the
wording of the specification, not the source; it is what `re_name` is
compared with. -/
def rename_failure_kind (files : Filesystem) (old_name new_name : String) :
    Option RenameFailure :=
  if old_name = "" ∨ new_name = "" then some .InvalidName
  else if (old_name = "." ∨ old_name = ".." ∨ old_name = "/") ∨
      (new_name = "." ∨ new_name = ".." ∨ new_name = "/") then
    some .ProtectedName
  else if new_name ∈ files.curr_dir.child_names ∧ new_name ≠ old_name then
    some .NameCollision
  else if old_name ∉ files.curr_dir.child_names then some .NoSuchEntry
  else if old_name = new_name then some .NoOpRename
  else none

/-- The result `re_name` returns for a failure kind. -/
def RenameFailure.code : RenameFailure → Int
  | .InvalidName => -2
  | .ProtectedName => -3
  | .NameCollision => -3
  | .NoSuchEntry => -1
  | .NoOpRename => -4

/-! ## Vocabulary of the claims about `remove_contents` -/

mutual
/-- The bottom-up order of destruction for the directory at `place`: its sub
directories from the last to the first, each with everything below it, then
one `Freed.file` for each cell of its own file list, first to last, then the
directory itself.  This definition follows the wording of the claim, not the
source; it is what `remove_contents` is compared with. -/
def destroy_order : List Nat → Directory → List Freed
  | place, .mk n f s =>
    destroy_order_list place 0 s ++ (f.map Freed.file ++ [Freed.dir place n])
/-- The bottom-up order of destruction for the cells of a list, the first
of which has index `i` in the list of the directory at `place`. -/
def destroy_order_list : List Nat → Nat → List Directory → List Freed
  | _, _, [] => []
  | place, i, c :: cs =>
    destroy_order_list place (i + 1) cs ++ destroy_order (place ++ [i]) c
end

mutual
/-- The sum of the depths of a directory at depth `a` and of all
directories below it. -/
def depth_sum : Nat → Directory → Nat
  | a, .mk _ _ s => depth_sum_list (a + 1) s + a
/-- The sum of `depth_sum` over a list of directories at depth `a`. -/
def depth_sum_list : Nat → List Directory → Nat
  | _, [] => 0
  | a, c :: cs => depth_sum_list a cs + depth_sum a c
end

/-- A number of passes that suffices for `remove_contents`: the sum of the
depths of the directories below `dir`, its sub directories having depth 1. -/
def passes_bound (dir : Directory) : Nat :=
  depth_sum_list 1 dir.sub_dir_list

/-- The directory at a place below `dir`, if there is one. -/
def Directory.at_place : Directory → List Nat → Option Directory
  | d, [] => some d
  | d, i :: rest =>
    match d.sub_dir_list[i]? with
    | none => none
    | some c => c.at_place rest

/-- The places of the directories freed, in order. -/
def freed_dirs : List Freed → List (List Nat)
  | [] => []
  | Freed.file _ :: rest => freed_dirs rest
  | Freed.dir place _ :: rest => place :: freed_dirs rest

/-- What is to be freed for the directory at a place below `dir`: one
`Freed.file` for each cell of its file list, first to last, then the
directory. -/
def freed_block (dir : Directory) (place : List Nat) : List Freed :=
  match dir.at_place place with
  | none => []
  | some d => d.file_list.map Freed.file ++ [Freed.dir place d.dir_name]

/-- The names of the `File` nodes freed, in order. -/
def freed_files : List Freed → List String
  | [] => []
  | Freed.file f :: rest => f :: freed_files rest
  | Freed.dir _ _ :: rest => freed_files rest

/-- The file list of the directory at a place below `dir`. -/
def files_at (dir : Directory) (place : List Nat) : List String :=
  match dir.at_place place with
  | none => []
  | some d => d.file_list

/-! ## Facts about `strcmp` -/

theorem char_lt_iff_toNat (a b : Char) : a < b ↔ a.toNat < b.toNat :=
  Iff.rfl

theorem char_eq_of_toNat (a b : Char) (h1 : ¬ a.toNat < b.toNat)
    (h2 : ¬ b.toNat < a.toNat) : a = b := by
  have h : a.toNat = b.toNat := by omega
  exact Char.ext (UInt32.ext (by simpa [Char.toNat] using h))

theorem strcmpAux_eq_zero_iff :
    ∀ (a b : List Char), strcmpAux a b = 0 ↔ a = b
  | [], [] => by simp [strcmpAux]
  | [], _ :: _ => by simp [strcmpAux]
  | _ :: _, [] => by simp [strcmpAux]
  | a :: as, b :: bs => by
    unfold strcmpAux
    split_ifs with h1 h2
    · constructor
      · intro h; exact absurd h (by decide)
      · intro h; rw [(List.cons.inj h).1] at h1; omega
    · constructor
      · intro h; exact absurd h (by decide)
      · intro h; rw [(List.cons.inj h).1] at h2; omega
    · have hab := char_eq_of_toNat a b h1 h2
      subst hab
      simp [strcmpAux_eq_zero_iff as bs]

/-- `strcmp` returns zero exactly on equal strings. -/
theorem strcmp_eq_zero_iff (a b : String) : strcmp a b = 0 ↔ a = b := by
  unfold strcmp
  rw [strcmpAux_eq_zero_iff]
  exact String.toList_inj

theorem strcmpAux_pos_iff : ∀ (a b : List Char), 0 < strcmpAux a b ↔ b < a
  | [], [] => by simp [strcmpAux]
  | [], _ :: _ => by
    simp only [strcmpAux]
    constructor
    · intro h; omega
    · intro h; exact absurd h (List.Lex.not_nil_right _ _)
  | _ :: _, [] => by
    simp only [strcmpAux]
    constructor
    · intro _; exact List.Lex.nil
    · intro _; omega
  | a :: as, b :: bs => by
    unfold strcmpAux
    split_ifs with h1 h2
    · constructor
      · intro h; omega
      · intro h
        cases h with
        | cons h => omega
        | rel h => exact absurd ((char_lt_iff_toNat _ _).1 h) (by omega)
    · constructor
      · intro _; exact List.Lex.rel ((char_lt_iff_toNat _ _).2 h2)
      · intro _; omega
    · have hab := char_eq_of_toNat a b h1 h2
      subst hab
      rw [strcmpAux_pos_iff as bs]
      exact (List.Lex.cons_iff).symm

/-- `strcmp` is positive exactly when its first argument comes after its
second in the lexicographic order of strings. -/
theorem strcmp_pos_iff (a b : String) : 0 < strcmp a b ↔ b < a := by
  unfold strcmp
  rw [strcmpAux_pos_iff, String.lt_iff_toList_lt]
  rfl

/-! ## Facts about the data model and the loops -/

@[simp] theorem dir_name_mk (n : String) (f : List String)
    (s : List Directory) : (Directory.mk n f s).dir_name = n := rfl

@[simp] theorem file_list_mk (n : String) (f : List String)
    (s : List Directory) : (Directory.mk n f s).file_list = f := rfl

@[simp] theorem sub_dir_list_mk (n : String) (f : List String)
    (s : List Directory) : (Directory.mk n f s).sub_dir_list = s := rfl

@[simp] theorem sub_dir_names_mk (n : String) (f : List String)
    (s : List Directory) :
    (Directory.mk n f s).sub_dir_names = s.map Directory.dir_name := rfl

theorem directory_mk_eta (d : Directory) :
    Directory.mk d.dir_name d.file_list d.sub_dir_list = d := by
  cases d; rfl

theorem filesystem_mk_eta (files : Filesystem) :
    (⟨.mk files.curr_dir.dir_name files.curr_dir.file_list
        files.curr_dir.sub_dir_list, files.parents⟩ : Filesystem) = files := by
  cases files; simp [directory_mk_eta]

theorem mem_child_names (d : Directory) (n : String) :
    n ∈ d.child_names ↔ n ∈ d.file_list ∨ n ∈ d.sub_dir_names := by
  simp [Directory.child_names]

theorem is_special_iff (arg : String) :
    is_special arg = true ↔ arg = "." ∨ arg = ".." ∨ arg = "/" := by
  simp [is_special, strcmp_eq_zero_iff, or_assoc]

theorem is_special_eq_false_iff (arg : String) :
    is_special arg = false ↔ arg ≠ "." ∧ arg ≠ ".." ∧ arg ≠ "/" := by
  rw [← Bool.not_eq_true, is_special_iff]
  simp [not_or]

theorem file_exists_iff (arg : String) (l : List String) :
    file_exists arg l = true ↔ arg ∈ l := by
  induction l with
  | nil => simp [file_exists]
  | cons f rest ih =>
    unfold file_exists
    by_cases h : strcmp arg f = 0
    · have e := (strcmp_eq_zero_iff arg f).1 h
      simp only [h, if_true, true_iff]
      rw [e]; exact List.mem_cons_self _ _
    · have hne : arg ≠ f := fun e => h ((strcmp_eq_zero_iff arg f).2 e)
      simp [h, ih, hne]

theorem sub_dir_exists_iff (arg : String) (l : List Directory) :
    sub_dir_exists arg l = true ↔ arg ∈ l.map Directory.dir_name := by
  induction l with
  | nil => simp [sub_dir_exists]
  | cons d rest ih =>
    unfold sub_dir_exists
    by_cases h : strcmp arg d.dir_name = 0
    · have e := (strcmp_eq_zero_iff arg d.dir_name).1 h
      simp only [h, if_true, true_iff, List.map_cons]
      rw [e]; exact List.mem_cons_self _ _
    · have hne : arg ≠ d.dir_name :=
        fun e => h ((strcmp_eq_zero_iff arg d.dir_name).2 e)
      simp only [h, if_false, ih, List.map_cons, List.mem_cons, hne, false_or]

theorem file_exists_eq_false_iff (arg : String) (l : List String) :
    file_exists arg l = false ↔ arg ∉ l := by
  rw [← Bool.not_eq_true, file_exists_iff]

theorem sub_dir_exists_eq_false_iff (arg : String) (l : List Directory) :
    sub_dir_exists arg l = false ↔ arg ∉ l.map Directory.dir_name := by
  rw [← Bool.not_eq_true, sub_dir_exists_iff]

theorem append_file_eq (n : String) (l : List String) :
    append_file n l = l ++ [n] := by
  induction l with
  | nil => rfl
  | cons f rest ih => simp [append_file, ih]

theorem append_sub_dir_eq (d : Directory) (l : List Directory) :
    append_sub_dir d l = l ++ [d] := by
  induction l with
  | nil => rfl
  | cons f rest ih => simp [append_sub_dir, ih]

/-- Closed form of `touch`. -/
theorem touch_eq (files : Filesystem) (n : String) :
    touch files n =
      if n = "" then (-1, files)
      else if (n = "." ∨ n = ".." ∨ n = "/") ∨ n ∈ files.curr_dir.child_names
      then (0, files)
      else
        (0, ⟨.mk files.curr_dir.dir_name (files.curr_dir.file_list ++ [n])
              files.curr_dir.sub_dir_list, files.parents⟩) := by
  unfold touch
  by_cases h0 : n = ""
  · simp [h0]
  · simp only [h0, if_false]
    by_cases h1 : is_special n = true
    · simp [h1, (is_special_iff n).1 h1]
    · have h1' := (is_special_iff n).not.1 h1
      by_cases h2 : file_exists n files.curr_dir.file_list = true
      · simp [h1, h2, mem_child_names, (file_exists_iff _ _).1 h2]
      · have h2' := (file_exists_iff _ _).not.1 h2
        by_cases h3 : sub_dir_exists n files.curr_dir.sub_dir_list = true
        · have h3' := (sub_dir_exists_iff _ _).1 h3
          simp [h1, h2, h3, mem_child_names, Directory.sub_dir_names, h3']
        · have h3' := (sub_dir_exists_iff _ _).not.1 h3
          have hc : ¬ ((n = "." ∨ n = ".." ∨ n = "/") ∨
              n ∈ files.curr_dir.child_names) := by
            rw [mem_child_names]
            rintro (h | h | h)
            · exact h1' h
            · exact h2' h
            · exact h3' h
          simp only [h1, h2, h3, hc, if_false, append_file_eq]
          simp

/-- Closed form of `mkdir`. -/
theorem mkdir_eq (files : Filesystem) (n : String) :
    mkdir files n =
      if n = "" then (-1, files)
      else if (n = "." ∨ n = ".." ∨ n = "/") ∨ n ∈ files.curr_dir.child_names
      then (-2, files)
      else
        (0, ⟨.mk files.curr_dir.dir_name files.curr_dir.file_list
              (files.curr_dir.sub_dir_list ++ [.mk n [] []]),
            files.parents⟩) := by
  unfold mkdir
  by_cases h0 : n = ""
  · simp [h0]
  · simp only [h0, if_false]
    by_cases h1 : is_special n = true
    · simp [h1, (is_special_iff n).1 h1]
    · have h1' := (is_special_iff n).not.1 h1
      by_cases h2 : file_exists n files.curr_dir.file_list = true
      · simp [h1, h2, mem_child_names, (file_exists_iff _ _).1 h2]
      · have h2' := (file_exists_iff _ _).not.1 h2
        by_cases h3 : sub_dir_exists n files.curr_dir.sub_dir_list = true
        · have h3' := (sub_dir_exists_iff _ _).1 h3
          simp [h1, h2, h3, mem_child_names, Directory.sub_dir_names, h3']
        · have h3' := (sub_dir_exists_iff _ _).not.1 h3
          have hc : ¬ ((n = "." ∨ n = ".." ∨ n = "/") ∨
              n ∈ files.curr_dir.child_names) := by
            rw [mem_child_names]
            rintro (h | h | h)
            · exact h1' h
            · exact h2' h
            · exact h3' h
          simp only [h1, h2, h3, hc, if_false, append_sub_dir_eq]
          simp

/-! ## Facts about `cd` -/

theorem cd_scan_eq (arg : String) (l : List Directory) (e : Bool) :
    cd_scan arg l e = (e || sub_dir_exists arg l) := by
  induction l generalizing e with
  | nil => simp [cd_scan, sub_dir_exists]
  | cons d rest ih =>
    unfold cd_scan sub_dir_exists
    rw [ih]
    by_cases h : strcmp arg d.dir_name = 0 <;> simp [h]

/-- Where the search loop of `cd` stops when some cell carries the name: at
the first such cell. -/
theorem cd_find_spec (arg : String) :
    ∀ (rest : List Directory) (before : List Directory) (d : Directory),
      arg ∈ (d :: rest).map Directory.dir_name →
      ∃ pre t post, d :: rest = pre ++ t :: post ∧ t.dir_name = arg ∧
        (∀ x ∈ pre, x.dir_name ≠ arg) ∧
        cd_find arg before d rest = (before ++ pre, t, post)
  | [], before, d, h => by
    refine ⟨[], d, [], rfl, ?_, by simp, by simp [cd_find]⟩
    simp only [List.map_cons, List.map_nil, List.mem_singleton] at h
    exact h.symm
  | d' :: r, before, d, h => by
    by_cases hd : strcmp arg d.dir_name = 0
    · refine ⟨[], d, d' :: r, rfl, ((strcmp_eq_zero_iff _ _).1 hd).symm,
        by simp, ?_⟩
      simp [cd_find, hd]
    · have hne : arg ≠ d.dir_name :=
        fun e => hd ((strcmp_eq_zero_iff _ _).2 e)
      have h' : arg ∈ (d' :: r).map Directory.dir_name := by
        rw [List.map_cons, List.mem_cons] at h
        exact h.resolve_left hne
      obtain ⟨pre, t, post, h1, h2, h3, h4⟩ :=
        cd_find_spec arg r (before ++ [d]) d' h'
      refine ⟨d :: pre, t, post, by rw [h1]; rfl, h2, ?_, ?_⟩
      · intro x hx
        rcases List.mem_cons.1 hx with rfl | hx
        · exact fun e => hne e.symm
        · exact h3 x hx
      · unfold cd_find
        rw [if_pos hd, h4]
        simp

/-- The search loop of `cd` never changes the list it walks. -/
theorem cd_find_append (arg : String) :
    ∀ (rest : List Directory) (before : List Directory) (d : Directory),
      (cd_find arg before d rest).1 ++ (cd_find arg before d rest).2.1 ::
        (cd_find arg before d rest).2.2 = before ++ d :: rest
  | [], before, d => by simp [cd_find]
  | d' :: r, before, d => by
    unfold cd_find
    by_cases hd : strcmp arg d.dir_name = 0
    · simp [hd]
    · rw [if_pos hd, cd_find_append arg r (before ++ [d]) d']
      simp

theorem cd_slash (files : Filesystem) :
    cd files "/" = (0, ⟨files.root, []⟩) := by
  simp [cd, strcmp_eq_zero_iff]

theorem cd_dot (files : Filesystem) : cd files "." = (0, files) := by
  simp [cd, strcmp_eq_zero_iff]

theorem cd_empty (files : Filesystem) : cd files "" = (0, files) := by
  simp [cd, strcmp_eq_zero_iff]

theorem cd_dotdot (files : Filesystem) :
    cd files ".." =
      if files.curr_dir.dir_name = "/" then (0, files) else (0, files.up) := by
  simp [cd, strcmp_eq_zero_iff]

theorem cd_file (files : Filesystem) (n : String) (h1 : n ≠ "/")
    (h2 : n ≠ ".") (h3 : n ≠ "") (h4 : n ≠ "..")
    (hf : n ∈ files.curr_dir.file_list) : cd files n = (-2, files) := by
  simp [cd, strcmp_eq_zero_iff, h1, h2, h3, h4, (file_exists_iff _ _).2 hf]

theorem cd_absent (files : Filesystem) (n : String) (h1 : n ≠ "/")
    (h2 : n ≠ ".") (h3 : n ≠ "") (h4 : n ≠ "..")
    (hf : n ∉ files.curr_dir.file_list)
    (hd : n ∉ files.curr_dir.sub_dir_list.map Directory.dir_name) :
    cd files n = (-1, files) := by
  have hf' := (file_exists_eq_false_iff _ _).2 hf
  have hd' := (sub_dir_exists_eq_false_iff _ _).2 hd
  simp [cd, strcmp_eq_zero_iff, h1, h2, h3, h4, hf', cd_scan_eq, hd']

theorem cd_sub_dir (files : Filesystem) (n : String) (h1 : n ≠ "/")
    (h2 : n ≠ ".") (h3 : n ≠ "") (h4 : n ≠ "..")
    (hf : n ∉ files.curr_dir.file_list)
    (hd : n ∈ files.curr_dir.sub_dir_list.map Directory.dir_name) :
    ∃ pre t post, files.curr_dir.sub_dir_list = pre ++ t :: post ∧
      t.dir_name = n ∧ (∀ x ∈ pre, x.dir_name ≠ n) ∧
      cd files n =
        (0, ⟨t, ⟨files.curr_dir.dir_name, files.curr_dir.file_list, pre, post⟩
                :: files.parents⟩) := by
  have hf' := (file_exists_eq_false_iff _ _).2 hf
  have hd' := (sub_dir_exists_iff _ _).2 hd
  cases hs : files.curr_dir.sub_dir_list with
  | nil => rw [hs] at hd; simp at hd
  | cons d rest =>
    rw [hs] at hd hd'
    obtain ⟨pre, t, post, e1, e2, e3, e4⟩ := cd_find_spec n rest [] d hd
    refine ⟨pre, t, post, e1, e2, e3, ?_⟩
    simp only [cd, strcmp_eq_zero_iff, h1, h2, h3, h4, hf', cd_scan_eq, hd',
      hs, e4]
    simp

/-! ## The naming invariant holds in every reachable file system -/

theorem namesOK_iff (d : Directory) :
    NamesOK d ↔ (∀ x ∈ d.file_list, ok_name x) ∧
      (∀ s ∈ d.sub_dir_list, ok_name s.dir_name) ∧
      (∀ s ∈ d.sub_dir_list, NamesOK s) := by
  constructor
  · intro h
    cases h with
    | mk n f s h1 h2 h3 => exact ⟨h1, h2, h3⟩
  · intro h
    cases d with
    | mk n f s => exact NamesOK.mk n f s h.1 h.2.1 h.2.2

theorem ok_name_of_not_special {n : String} (h0 : n ≠ "")
    (h1 : is_special n = false) : ok_name n := by
  have h := (is_special_eq_false_iff n).1 h1
  exact ⟨h0, h.1, h.2.1, h.2.2⟩

theorem mem_unlink_file (arg : String) (l : List String) (x : String)
    (h : x ∈ unlink_file arg l) : x ∈ l := by
  induction l with
  | nil => simp [unlink_file] at h
  | cons f rest ih =>
    unfold unlink_file at h
    split_ifs at h
    · exact List.mem_cons_of_mem _ h
    · rcases List.mem_cons.1 h with e | h
      · rw [e]; exact List.mem_cons_self _ _
      · exact List.mem_cons_of_mem _ (ih h)

theorem mem_unlink_sub_dir (arg : String) (l : List Directory)
    (x : Directory) (h : x ∈ unlink_sub_dir arg l) : x ∈ l := by
  induction l with
  | nil => simp [unlink_sub_dir] at h
  | cons f rest ih =>
    unfold unlink_sub_dir at h
    split_ifs at h
    · exact List.mem_cons_of_mem _ h
    · rcases List.mem_cons.1 h with e | h
      · rw [e]; exact List.mem_cons_self _ _
      · exact List.mem_cons_of_mem _ (ih h)

theorem mem_set_file_name (arg1 arg2 : String) (l : List String)
    (x : String) (h : x ∈ set_file_name arg1 arg2 l) : x = arg2 ∨ x ∈ l := by
  induction l with
  | nil => simp [set_file_name] at h
  | cons f rest ih =>
    unfold set_file_name at h
    split_ifs at h
    · rcases List.mem_cons.1 h with e | h
      · exact Or.inl e
      · exact Or.inr (List.mem_cons_of_mem _ h)
    · rcases List.mem_cons.1 h with e | h
      · rw [e]; exact Or.inr (List.mem_cons_self _ _)
      · exact (ih h).imp id (List.mem_cons_of_mem _)

theorem mem_set_dir_name (arg1 arg2 : String) (l : List Directory)
    (x : Directory) (h : x ∈ set_dir_name arg1 arg2 l) :
    x ∈ l ∨ ∃ d ∈ l, x = .mk arg2 d.file_list d.sub_dir_list := by
  induction l with
  | nil => simp [set_dir_name] at h
  | cons f rest ih =>
    unfold set_dir_name at h
    split_ifs at h
    · rcases List.mem_cons.1 h with e | h
      · exact Or.inr ⟨f, List.mem_cons_self _ _, e⟩
      · exact Or.inl (List.mem_cons_of_mem _ h)
    · rcases List.mem_cons.1 h with e | h
      · rw [e]; exact Or.inl (List.mem_cons_self _ _)
      · rcases ih h with h | ⟨d, hd, e⟩
        · exact Or.inl (List.mem_cons_of_mem _ h)
        · exact Or.inr ⟨d, List.mem_cons_of_mem _ hd, e⟩

theorem namesInv_mkfs : NamesInv mkfs := by
  refine ⟨NamesOK.mk _ _ _ ?_ ?_ ?_, rfl⟩ <;> simp

/-- Replacing the children of the current directory by ordinary-named ones
keeps the invariant. -/
theorem namesInv_children (files : Filesystem) (f : List String)
    (s : List Directory) (h : NamesInv files) (hf : ∀ x ∈ f, ok_name x)
    (hs1 : ∀ d ∈ s, ok_name d.dir_name) (hs2 : ∀ d ∈ s, NamesOK d) :
    NamesInv ⟨.mk files.curr_dir.dir_name f s, files.parents⟩ :=
  ⟨NamesOK.mk _ _ _ hf hs1 hs2, h.2⟩

theorem namesInv_touch (files : Filesystem) (arg : String)
    (h : NamesInv files) : NamesInv (touch files arg).2 := by
  have hk := (namesOK_iff _).1 h.1
  unfold touch
  split_ifs with h0 h1 h2 h3
  · exact h
  · exact h
  · exact h
  · exact h
  · refine namesInv_children files _ _ h ?_ hk.2.1 hk.2.2
    intro x hx
    rw [append_file_eq] at hx
    rcases List.mem_append.1 hx with hx | hx
    · exact hk.1 x hx
    · rw [List.mem_singleton.1 hx]
      exact ok_name_of_not_special h0 (by simpa using h1)

theorem namesInv_mkdir (files : Filesystem) (arg : String)
    (h : NamesInv files) : NamesInv (mkdir files arg).2 := by
  have hk := (namesOK_iff _).1 h.1
  unfold mkdir
  split_ifs with h0 h1 h2 h3
  · exact h
  · exact h
  · exact h
  · exact h
  · refine namesInv_children files _ _ h hk.1 ?_ ?_
    · intro x hx
      rw [append_sub_dir_eq] at hx
      rcases List.mem_append.1 hx with hx | hx
      · exact hk.2.1 x hx
      · rw [List.mem_singleton.1 hx]
        exact ok_name_of_not_special h0 (by simpa using h1)
    · intro x hx
      rw [append_sub_dir_eq] at hx
      rcases List.mem_append.1 hx with hx | hx
      · exact hk.2.2 x hx
      · rw [List.mem_singleton.1 hx]
        exact NamesOK.mk _ _ _ (by simp) (by simp) (by simp)

theorem namesInv_rm (files : Filesystem) (arg : String)
    (h : NamesInv files) : NamesInv (rm files arg).2 := by
  have hk := (namesOK_iff _).1 h.1
  unfold rm
  split_ifs with h0 h1
  · exact h
  · exact h
  · simp only
    split_ifs
    · exact h
    · exact namesInv_children files _ _ h
        (fun x hx => hk.1 x (mem_unlink_file _ _ _ hx)) hk.2.1 hk.2.2
    · exact namesInv_children files _ _ h hk.1
        (fun x hx => hk.2.1 x (mem_unlink_sub_dir _ _ _ hx))
        (fun x hx => hk.2.2 x (mem_unlink_sub_dir _ _ _ hx))

theorem namesInv_re_name (files : Filesystem) (arg1 arg2 : String)
    (h : NamesInv files) : NamesInv (re_name files arg1 arg2).2 := by
  have hk := (namesOK_iff _).1 h.1
  unfold re_name
  split_ifs with h0 h1
  · exact h
  · exact h
  · have hok : ok_name arg2 := by
      simp only [not_or] at h0
      simp only [Bool.or_eq_true, not_or, Bool.not_eq_true] at h1
      exact ok_name_of_not_special h0.2 h1.2
    simp only
    split_ifs
    · exact h
    · exact h
    · exact h
    · refine namesInv_children files _ _ h ?_ hk.2.1 hk.2.2
      intro x hx
      rcases mem_set_file_name _ _ _ _ hx with e | hx
      · rw [e]; exact hok
      · exact hk.1 x hx
    · refine namesInv_children files _ _ h hk.1 ?_ ?_
      · intro x hx
        rcases mem_set_dir_name _ _ _ _ hx with hx | ⟨d, _, e⟩
        · exact hk.2.1 x hx
        · rw [e]; exact hok
      · intro x hx
        rcases mem_set_dir_name _ _ _ _ hx with hx | ⟨d, hd, e⟩
        · exact hk.2.2 x hx
        · have hd' := (namesOK_iff _).1 (hk.2.2 d hd)
          rw [e]
          exact NamesOK.mk _ _ _ hd'.1 hd'.2.1 hd'.2.2

theorem namesInv_up (files : Filesystem) (h : NamesInv files) :
    NamesInv files.up := by
  obtain ⟨d, ps⟩ := files
  cases ps with
  | nil => exact h
  | cons p ps =>
    obtain ⟨hd, hn, hf, hsib, hc⟩ := h
    refine ⟨NamesOK.mk _ _ _ hf ?_ ?_, hc⟩
    · intro x hx
      rcases List.mem_append.1 hx with hx | hx
      · exact (hsib x (List.mem_append_left _ hx)).1
      · rcases List.mem_cons.1 hx with e | hx
        · rw [e]; exact hn
        · exact (hsib x (List.mem_append_right _ hx)).1
    · intro x hx
      rcases List.mem_append.1 hx with hx | hx
      · exact (hsib x (List.mem_append_left _ hx)).2
      · rcases List.mem_cons.1 hx with e | hx
        · rw [e]; exact hd
        · exact (hsib x (List.mem_append_right _ hx)).2

theorem namesInv_toRoot :
    ∀ (ps : List Parent) (d : Directory), NamesInv ⟨d, ps⟩ →
      NamesInv ⟨toRoot d ps, []⟩
  | [], _, h => h
  | p :: ps, d, h => namesInv_toRoot ps (p.rebuild d) (namesInv_up ⟨d, p :: ps⟩ h)

theorem namesInv_cd (files : Filesystem) (arg : String)
    (h : NamesInv files) : NamesInv (cd files arg).2 := by
  have hk := (namesOK_iff _).1 h.1
  unfold cd
  split_ifs
  · exact namesInv_toRoot files.parents files.curr_dir h
  · exact h
  · exact h
  · exact namesInv_up files h
  · exact h
  · exact h
  · cases hs : files.curr_dir.sub_dir_list with
    | nil => exact h
    | cons d rest =>
      have hap := cd_find_append arg rest [] d
      rw [List.nil_append, ← hs] at hap
      have hmem : ∀ x, x ∈ (cd_find arg [] d rest).1 ++ (cd_find arg [] d rest).2.2
          → x ∈ files.curr_dir.sub_dir_list := by
        intro x hx
        rw [← hap]
        rcases List.mem_append.1 hx with hx | hx
        · exact List.mem_append_left _ hx
        · exact List.mem_append_right _ (List.mem_cons_of_mem _ hx)
      have ht : (cd_find arg [] d rest).2.1 ∈ files.curr_dir.sub_dir_list := by
        rw [← hap]
        exact List.mem_append_right _ (List.mem_cons_self _ _)
      exact ⟨hk.2.2 _ ht, hk.2.1 _ ht, hk.1,
        fun x hx => ⟨hk.2.1 x (hmem x hx), hk.2.2 x (hmem x hx)⟩, h.2⟩

/-- The naming invariant holds in every reachable file system. -/
theorem namesInv_of_reachable (files : Filesystem) (h : Reachable files) :
    NamesInv files := by
  induction h with
  | mkfs => exact namesInv_mkfs
  | step c _ ih =>
    cases c with
    | touch arg => exact namesInv_touch _ _ ih
    | mkdir arg => exact namesInv_mkdir _ _ ih
    | cd arg => exact namesInv_cd _ _ ih
    | rm arg => exact namesInv_rm _ _ ih
    | re_name arg1 arg2 => exact namesInv_re_name _ _ _ ih

/-- In a reachable file system the test `strcmp(curr_dir->dir_name, "/") == 0`
holds exactly when the current directory is the root. -/
theorem root_test_sound (files : Filesystem) (h : Reachable files) :
    files.curr_dir.dir_name = "/" ↔ files.parents = [] := by
  have hi := (namesInv_of_reachable files h).2
  cases hp : files.parents with
  | nil => rw [hp] at hi; simpa using hi
  | cons p ps =>
    rw [hp] at hi
    simp only [reduceCtorEq, iff_false]
    exact hi.1.2.2.2

/-! ## More facts about `cd`: the tree and freshly made directories -/

theorem root_up (files : Filesystem) : files.up.root = files.root := by
  obtain ⟨d, ps⟩ := files
  cases ps <;> rfl

theorem toRoot_root :
    ∀ (ps : List Parent) (d : Directory),
      (⟨toRoot d ps, []⟩ : Filesystem).root = (⟨d, ps⟩ : Filesystem).root
  | [], _ => rfl
  | _ :: _, _ => rfl

/-- The tree is the same after `cd`, whatever the argument. -/
theorem cd_root (files : Filesystem) (arg : String) :
    (cd files arg).2.root = files.root := by
  unfold cd
  split_ifs
  · exact toRoot_root files.parents files.curr_dir
  · rfl
  · rfl
  · exact root_up files
  · rfl
  · rfl
  · cases hs : files.curr_dir.sub_dir_list with
    | nil => rfl
    | cons d rest =>
      have hap := cd_find_append arg rest [] d
      rw [List.nil_append, ← hs] at hap
      show toRoot (Directory.mk files.curr_dir.dir_name files.curr_dir.file_list
        ((cd_find arg [] d rest).1 ++ (cd_find arg [] d rest).2.1 ::
          (cd_find arg [] d rest).2.2)) files.parents = files.root
      rw [hap, directory_mk_eta]
      rfl

/-- A list that ends with the first element satisfying `P` splits around
that element in one way only. -/
theorem split_last_unique {α : Type} (P : α → Prop) :
    ∀ (l pre : List α) (a t : α) (post : List α),
      l ++ [a] = pre ++ t :: post → (∀ x ∈ l, ¬ P x) → P t →
      pre = l ∧ t = a ∧ post = []
  | [], [], a, t, post, h, _, _ => by
    simp only [List.nil_append, List.cons.injEq] at h
    exact ⟨rfl, h.1.symm, h.2.symm⟩
  | [], _ :: pre, a, t, post, h, _, _ => by
    simp only [List.nil_append, List.cons_append, List.cons.injEq] at h
    exact absurd h.2.symm (by simp)
  | x :: l, [], a, t, post, h, hl, ht => by
    simp only [List.cons_append, List.nil_append, List.cons.injEq] at h
    exact absurd (h.1 ▸ ht) (hl x (List.mem_cons_self _ _))
  | x :: l, y :: pre, a, t, post, h, hl, ht => by
    simp only [List.cons_append, List.cons.injEq] at h
    obtain ⟨e1, e2, e3⟩ := split_last_unique P l pre a t post h.2
      (fun z hz => hl z (List.mem_cons_of_mem _ hz)) ht
    exact ⟨by rw [h.1, e1], e2, e3⟩

/-- Entering a directory that `mkdir` has just made: `cd` lands on it, with
the directory it was made in as first link of the parent chain. -/
theorem cd_into_new (files : Filesystem) (n : String) (h0 : n ≠ "")
    (h1 : n ≠ ".") (h2 : n ≠ "..") (h3 : n ≠ "/")
    (hf : n ∉ files.curr_dir.file_list)
    (hd : n ∉ files.curr_dir.sub_dir_list.map Directory.dir_name) :
    cd ⟨.mk files.curr_dir.dir_name files.curr_dir.file_list
          (files.curr_dir.sub_dir_list ++ [.mk n [] []]), files.parents⟩ n =
      (0, ⟨.mk n [] [],
           ⟨files.curr_dir.dir_name, files.curr_dir.file_list,
             files.curr_dir.sub_dir_list, []⟩ :: files.parents⟩) := by
  obtain ⟨pre, t, post, e1, e2, e3, e4⟩ :=
    cd_sub_dir ⟨.mk files.curr_dir.dir_name files.curr_dir.file_list
          (files.curr_dir.sub_dir_list ++ [.mk n [] []]), files.parents⟩ n
      h3 h1 h0 h2 hf (by simp)
  simp only [sub_dir_list_mk] at e1
  obtain ⟨u1, u2, u3⟩ := split_last_unique (fun d => d.dir_name = n)
    files.curr_dir.sub_dir_list pre (.mk n [] []) t post e1
    (fun x hx e => hd (List.mem_map.2 ⟨x, hx, e⟩)) e2
  rw [e4, u1, u2, u3]
  rfl

/-- What a successful `mkdir` tells about its argument and its effect. -/
theorem mkdir_success (files : Filesystem) (n : String)
    (h : (mkdir files n).1 = 0) :
    (n ≠ "" ∧ n ≠ "." ∧ n ≠ ".." ∧ n ≠ "/" ∧
      n ∉ files.curr_dir.file_list ∧
      n ∉ files.curr_dir.sub_dir_list.map Directory.dir_name) ∧
    mkdir files n =
      (0, ⟨.mk files.curr_dir.dir_name files.curr_dir.file_list
            (files.curr_dir.sub_dir_list ++ [.mk n [] []]),
          files.parents⟩) := by
  rw [mkdir_eq] at h ⊢
  by_cases h0 : n = ""
  · simp [h0] at h
  · by_cases hc : (n = "." ∨ n = ".." ∨ n = "/") ∨
        n ∈ files.curr_dir.child_names
    · simp [h0, hc] at h
    · simp only [h0, hc, if_false, and_true]
      rw [mem_child_names] at hc
      simp only [not_or, Directory.sub_dir_names] at hc
      exact ⟨h0, hc.1.1, hc.1.2.1, hc.1.2.2, hc.2.1, hc.2.2⟩

/-! ## Claims about `re_name` collisions, failure and creation -/

/-- C1 (defect in the code): with files created in the order `a`, `b`, the
call `re_name("a", "b")` is not rejected although a file named `b` exists:
the scan stops at `a` before it has seen `b`, the call returns 0 and the
current directory ends with two files named `b`.  With the files created in
the order `b`, `a` the same call is rejected with -3 and changes nothing. -/
theorem re_name_misses_later_collision :
    re_name (touch (touch mkfs "a").2 "b").2 "a" "b"
        = (0, ⟨.mk "/" ["b", "b"] [], []⟩) ∧
      re_name (touch (touch mkfs "b").2 "a").2 "a" "b"
        = (-3, ⟨.mk "/" ["b", "a"] [], []⟩) :=
  ⟨rfl, rfl⟩

/-- C2 (defect in the code): name uniqueness is not an invariant of the
reachable states; `touch a`, `touch b`, `re_name a b` from `mkfs` reaches a
file system whose current directory has two children with the same name. -/
theorem reachable_duplicate_child_names :
    ∃ files : Filesystem, Reachable files ∧ ¬ files.curr_dir.child_names.Nodup :=
  ⟨((Cmd.re_name "a" "b").run
      ((Cmd.touch "b").run ((Cmd.touch "a").run mkfs).2).2).2,
    Reachable.step _ (Reachable.step _ (Reachable.step _ Reachable.mkfs)),
    by
      show ¬ (["b", "b"] : List String).Nodup
      decide⟩

/-- C3: failure is atomic.  Whenever one of `touch`, `mkdir`, `cd`, `rm`,
`re_name` returns a non-zero result, the file system after the call (the
whole tree and the current directory) is the one before the call. -/
theorem failure_atomic (c : Cmd) (files : Filesystem)
    (h : (c.run files).1 ≠ 0) : (c.run files).2 = files := by
  cases c with
  | touch arg =>
    simp only [Cmd.run, touch] at h ⊢
    split_ifs at h ⊢ <;> simp_all
  | mkdir arg =>
    simp only [Cmd.run, mkdir] at h ⊢
    split_ifs at h ⊢ <;> simp_all
  | cd arg =>
    simp only [Cmd.run, cd] at h ⊢
    split_ifs at h ⊢ <;> first
      | rfl
      | exact absurd rfl h
      | (cases hs : files.curr_dir.sub_dir_list with
          | nil => rfl
          | cons d rest => simp [hs] at h)
  | rm arg =>
    simp only [Cmd.run, rm] at h ⊢
    split_ifs at h ⊢ <;> simp_all
  | re_name arg1 arg2 =>
    simp only [Cmd.run, re_name] at h ⊢
    split_ifs at h ⊢ <;> simp_all

/-- Witness of C3: `mkdir f` after `touch f` fails and changes nothing. -/
theorem failure_atomic_witness :
    ((Cmd.mkdir "f").run (touch mkfs "f").2).1 ≠ 0 ∧
      ((Cmd.mkdir "f").run (touch mkfs "f").2).2 = (touch mkfs "f").2 :=
  ⟨by decide, failure_atomic (Cmd.mkdir "f") (touch mkfs "f").2 (by decide)⟩

/-- C4: `touch` is idempotent.  For a non-empty name the second of two
calls returns 0 and leaves the file system as the first call left it; when
the name was free and is none of `.`, `..`, `/`, the file list then holds
exactly one file of that name. -/
theorem touch_idempotent (files : Filesystem) (n : String) (hn : n ≠ "") :
    touch (touch files n).2 n = (0, (touch files n).2) ∧
      (n ≠ "." → n ≠ ".." → n ≠ "/" → n ∉ files.curr_dir.child_names →
        (touch (touch files n).2 n).2.curr_dir.file_list.count n = 1) := by
  by_cases hc : (n = "." ∨ n = ".." ∨ n = "/") ∨ n ∈ files.curr_dir.child_names
  · have h1 : touch files n = (0, files) := by
      rw [touch_eq]; simp only [hn, hc, if_false, if_true]
    refine ⟨by rw [h1]; exact h1, ?_⟩
    intro a b c d
    exact absurd hc (by simp [a, b, c, d])
  · have h1 : touch files n =
        (0, ⟨.mk files.curr_dir.dir_name (files.curr_dir.file_list ++ [n])
              files.curr_dir.sub_dir_list, files.parents⟩) := by
      rw [touch_eq]; simp only [hn, hc, if_false]
    have h2 : touch (touch files n).2 n = (0, (touch files n).2) := by
      rw [h1, touch_eq]
      simp [hn, mem_child_names]
    refine ⟨h2, ?_⟩
    intro _ _ _ d
    rw [h2, h1]
    have hf : n ∉ files.curr_dir.file_list :=
      fun hm => d ((mem_child_names _ _).2 (Or.inl hm))
    simp [List.count_append, List.count_eq_zero_of_not_mem hf]

/-- Witness of C4: `touch f` twice from `mkfs`. -/
theorem touch_idempotent_witness :
    ("f" : String) ≠ "" ∧
      touch (touch mkfs "f").2 "f" = (0, (touch mkfs "f").2) ∧
      (touch (touch mkfs "f").2 "f").2.curr_dir.file_list.count "f" = 1 :=
  ⟨by decide, (touch_idempotent mkfs "f" (by decide)).1,
    (touch_idempotent mkfs "f" (by decide)).2 (by decide) (by decide)
      (by decide) (by decide)⟩

/-- C5: the policy of `touch`.  An empty name fails with -1; one of `.`,
`..`, `/` or the name of an existing file or sub directory of the current
directory returns 0 and changes nothing; any other name returns 0 and
appends one file of that name at the tail of the file list of the current
directory, the sub directory list, the ancestors and the position of the
current directory staying as they were. -/
theorem touch_policy (files : Filesystem) (n : String) :
    touch files n =
      if n = "" then (-1, files)
      else if (n = "." ∨ n = ".." ∨ n = "/") ∨ n ∈ files.curr_dir.file_list
          ∨ n ∈ files.curr_dir.sub_dir_list.map Directory.dir_name
      then (0, files)
      else
        (0, ⟨.mk files.curr_dir.dir_name (files.curr_dir.file_list ++ [n])
              files.curr_dir.sub_dir_list, files.parents⟩) := by
  rw [touch_eq]
  simp only [mem_child_names, Directory.sub_dir_names]

/-- C6: `mkdir` rejects and creates nothing: an empty name gives -1; a
non-empty name that is `.`, `..`, `/` or the name of an existing file or sub
directory of the current directory gives -2.  Hence `mkdir` is not
idempotent: repeated after a successful `mkdir` of the same name, or after a
`touch` that created a file of that name, it returns -2 and changes
nothing. -/
theorem mkdir_rejects (files : Filesystem) (n : String) :
    (n = "" → mkdir files n = (-1, files)) ∧
    (n ≠ "" → ((n = "." ∨ n = ".." ∨ n = "/") ∨ n ∈ files.curr_dir.file_list
        ∨ n ∈ files.curr_dir.sub_dir_list.map Directory.dir_name) →
      mkdir files n = (-2, files)) ∧
    ((mkdir files n).1 = 0 →
      mkdir (mkdir files n).2 n = (-2, (mkdir files n).2)) ∧
    ((touch files n).1 = 0 → (touch files n).2 ≠ files →
      mkdir (touch files n).2 n = (-2, (touch files n).2)) := by
  refine ⟨?_, ?_, ?_, ?_⟩
  · intro h0
    rw [mkdir_eq]; simp [h0]
  · intro h0 hc
    have hc' : (n = "." ∨ n = ".." ∨ n = "/") ∨
        n ∈ files.curr_dir.child_names := by
      rw [mem_child_names]; exact hc
    rw [mkdir_eq, if_neg h0, if_pos hc']
  · intro hs
    by_cases h0 : n = ""
    · rw [mkdir_eq] at hs; simp [h0] at hs
    · by_cases hc : (n = "." ∨ n = ".." ∨ n = "/") ∨
          n ∈ files.curr_dir.child_names
      · rw [mkdir_eq] at hs; simp [h0, hc] at hs
      · have h1 : mkdir files n =
            (0, ⟨.mk files.curr_dir.dir_name files.curr_dir.file_list
                  (files.curr_dir.sub_dir_list ++ [.mk n [] []]),
                files.parents⟩) := by
          rw [mkdir_eq]; simp only [h0, hc, if_false]
        rw [h1, mkdir_eq]
        simp [h0, mem_child_names]
  · intro _ hne
    by_cases h0 : n = ""
    · exact absurd (by rw [touch_eq]; simp [h0]) hne
    · by_cases hc : (n = "." ∨ n = ".." ∨ n = "/") ∨
          n ∈ files.curr_dir.child_names
      · exact absurd (by rw [touch_eq]; simp only [h0, hc, if_false, if_true]) hne
      · have h1 : touch files n =
            (0, ⟨.mk files.curr_dir.dir_name (files.curr_dir.file_list ++ [n])
                  files.curr_dir.sub_dir_list, files.parents⟩) := by
          rw [touch_eq]; simp only [h0, hc, if_false]
        rw [h1, mkdir_eq]
        simp [h0, mem_child_names]

/-- Witness of C6: from `mkfs`, `touch f` then `mkdir f` returns -2. -/
theorem mkdir_rejects_witness :
    (touch mkfs "f").1 = 0 ∧ (touch mkfs "f").2 ≠ mkfs ∧
      mkdir (touch mkfs "f").2 "f" = (-2, (touch mkfs "f").2) :=
  have h1 : (touch mkfs "f").1 = 0 := by decide
  have h2 : (touch mkfs "f").2 ≠ mkfs := by
    intro h
    have h3 := congrArg (fun x => x.curr_dir.file_list.length) h
    exact absurd h3 (by decide)
  ⟨h1, h2, (mkdir_rejects mkfs "f").2.2.2 h1 h2⟩

/-- C7: a successful `mkdir`.  For a non-empty name that is none of `.`,
`..`, `/` and names no file and no sub directory of the current directory,
`mkdir` returns 0 and appends one directory at the tail of the sub directory
list; the new directory has that name, no files and no sub directories, and
its parent is the current directory (`cd` into it lands on it with the
current directory as `parent_dir`).  The file list, the ancestors and the
position of the current directory are as before. -/
theorem mkdir_creates (files : Filesystem) (n : String) (h0 : n ≠ "")
    (h1 : n ≠ ".") (h2 : n ≠ "..") (h3 : n ≠ "/")
    (hf : n ∉ files.curr_dir.file_list)
    (hd : n ∉ files.curr_dir.sub_dir_list.map Directory.dir_name) :
    mkdir files n =
      (0, ⟨.mk files.curr_dir.dir_name files.curr_dir.file_list
            (files.curr_dir.sub_dir_list ++ [.mk n [] []]),
          files.parents⟩) ∧
    (cd (mkdir files n).2 n).2.curr_dir = .mk n [] [] ∧
    (cd (mkdir files n).2 n).2.parent_dir = (mkdir files n).2.curr_dir := by
  have hc : ¬ ((n = "." ∨ n = ".." ∨ n = "/") ∨
      n ∈ files.curr_dir.child_names) := by
    rw [mem_child_names]
    rintro ((h | h | h) | h | h)
    · exact h1 h
    · exact h2 h
    · exact h3 h
    · exact hf h
    · exact hd h
  have hm : mkdir files n =
      (0, ⟨.mk files.curr_dir.dir_name files.curr_dir.file_list
            (files.curr_dir.sub_dir_list ++ [.mk n [] []]),
          files.parents⟩) := by
    rw [mkdir_eq]; simp only [h0, hc, if_false]
  refine ⟨hm, ?_, ?_⟩
  · rw [hm]
    show (cd _ n).2.curr_dir = _
    rw [cd_into_new files n h0 h1 h2 h3 hf hd]
  · rw [hm]
    show (cd _ n).2.parent_dir = _
    rw [cd_into_new files n h0 h1 h2 h3 hf hd]
    rfl

/-- Witness of C7: `mkdir d` in the root made by `mkfs`. -/
theorem mkdir_creates_witness :
    mkdir mkfs "d" = (0, ⟨.mk "/" [] [.mk "d" [] []], []⟩) ∧
      (cd (mkdir mkfs "d").2 "d").2.curr_dir = .mk "d" [] [] ∧
      (cd (mkdir mkfs "d").2 "d").2.parent_dir = (mkdir mkfs "d").2.curr_dir :=
  mkdir_creates mkfs "d" (by decide) (by decide) (by decide) (by decide)
    (by simp [mkfs]) (by simp [mkfs])

/-- C8: the outcomes of `cd`, in the order they are decided, in every
reachable file system.  `/` makes the root current; `.` and the empty name
change nothing; `..` changes nothing at the root and makes the parent
current elsewhere; the name of a file of the current directory gives -2;
the name of a sub directory makes the first sub directory of that name (in
list order) current; any other name gives -1.  All but the two failures
return 0, the failures leave the file system as it was, and the tree is
never changed. -/
theorem cd_outcomes (files : Filesystem) (hr : Reachable files) (n : String) :
    (n = "/" → cd files n = (0, ⟨files.root, []⟩)) ∧
    (n = "." ∨ n = "" → cd files n = (0, files)) ∧
    (n = ".." → files.parents = [] → cd files n = (0, files)) ∧
    (n = ".." → ∀ p ps, files.parents = p :: ps →
      cd files n = (0, ⟨p.rebuild files.curr_dir, ps⟩)) ∧
    (n ≠ "/" → n ≠ "." → n ≠ "" → n ≠ ".." →
      n ∈ files.curr_dir.file_list → cd files n = (-2, files)) ∧
    (n ≠ "/" → n ≠ "." → n ≠ "" → n ≠ ".." →
      n ∉ files.curr_dir.file_list →
      n ∈ files.curr_dir.sub_dir_list.map Directory.dir_name →
      ∃ pre t post, files.curr_dir.sub_dir_list = pre ++ t :: post ∧
        t.dir_name = n ∧ (∀ x ∈ pre, x.dir_name ≠ n) ∧
        cd files n =
          (0, ⟨t, ⟨files.curr_dir.dir_name, files.curr_dir.file_list,
                   pre, post⟩ :: files.parents⟩)) ∧
    (n ≠ "/" → n ≠ "." → n ≠ "" → n ≠ ".." →
      n ∉ files.curr_dir.file_list →
      n ∉ files.curr_dir.sub_dir_list.map Directory.dir_name →
      cd files n = (-1, files)) ∧
    (cd files n).2.root = files.root := by
  refine ⟨?_, ?_, ?_, ?_, cd_file files n, cd_sub_dir files n,
    cd_absent files n, cd_root files n⟩
  · intro h; rw [h]; exact cd_slash files
  · rintro (h | h) <;> rw [h]
    · exact cd_dot files
    · exact cd_empty files
  · intro h hp
    rw [h, cd_dotdot, if_pos ((root_test_sound files hr).2 hp)]
  · intro h p ps hp
    have hne : files.curr_dir.dir_name ≠ "/" := by
      intro e
      rw [(root_test_sound files hr).1 e] at hp
      exact absurd hp (by simp)
    rw [h, cd_dotdot, if_neg hne]
    obtain ⟨d, qs⟩ := files
    simp only at hp
    rw [hp]
    rfl

/-- Witness of C8: after `mkdir d` and `cd d` from `mkfs`, `cd ..` makes
the root current again. -/
theorem cd_outcomes_witness :
    Reachable (cd (mkdir mkfs "d").2 "d").2 ∧
      cd (cd (mkdir mkfs "d").2 "d").2 ".." =
        (0, ⟨.mk "/" [] [.mk "d" [] []], []⟩) :=
  have hr : Reachable (cd (mkdir mkfs "d").2 "d").2 :=
    Reachable.step (Cmd.cd "d") (Reachable.step (Cmd.mkdir "d") Reachable.mkfs)
  ⟨hr, (cd_outcomes (cd (mkdir mkfs "d").2 "d").2 hr "..").2.2.2.1 rfl
    ⟨"/", [], [], []⟩ [] rfl⟩

/-- C9: round trip of navigation.  In a reachable file system, after a
successful `mkdir n`, the calls `cd n` and `cd ..` both return 0 and leave
the file system, current directory included, as it was before `cd n`. -/
theorem cd_round_trip (files : Filesystem) (_hr : Reachable files)
    (n : String) (hm : (mkdir files n).1 = 0) :
    (cd (mkdir files n).2 n).1 = 0 ∧
    (cd (cd (mkdir files n).2 n).2 "..").1 = 0 ∧
    (cd (cd (mkdir files n).2 n).2 "..").2 = (mkdir files n).2 := by
  obtain ⟨⟨h0, h1, h2, h3, hf, hd⟩, he⟩ := mkdir_success files n hm
  have hcd := cd_into_new files n h0 h1 h2 h3 hf hd
  rw [he]
  simp only
  rw [hcd]
  simp only
  rw [cd_dotdot]
  simp only [dir_name_mk, h3, if_false]
  exact ⟨trivial, trivial, rfl⟩

/-- Witness of C9: `mkdir d`, `cd d`, `cd ..` from `mkfs`. -/
theorem cd_round_trip_witness :
    Reachable mkfs ∧ (mkdir mkfs "d").1 = 0 ∧
      (cd (mkdir mkfs "d").2 "d").1 = 0 ∧
      (cd (cd (mkdir mkfs "d").2 "d").2 "..").1 = 0 ∧
      (cd (cd (mkdir mkfs "d").2 "d").2 "..").2 = (mkdir mkfs "d").2 :=
  ⟨Reachable.mkfs, by decide,
    cd_round_trip mkfs Reachable.mkfs "d" (by decide)⟩

/-! ## The bubble sort of `sort_and_print` -/

theorem bubble_perm : ∀ (j : Nat) (s : List String), (bubble j s).Perm s
  | 0, s => List.Perm.refl s
  | _ + 1, [] => List.Perm.refl _
  | _ + 1, [x] => List.Perm.refl _
  | j + 1, x :: y :: rest => by
    unfold bubble
    split_ifs
    · exact ((bubble_perm j (x :: rest)).cons y).trans (List.Perm.swap x y rest)
    · exact (bubble_perm j (y :: rest)).cons x

/-- One pass with `j` comparisons only touches the first `j + 1` cells. -/
theorem bubble_append :
    ∀ (j : Nat) (pre suf : List String), j + 1 ≤ pre.length →
      bubble j (pre ++ suf) = bubble j pre ++ suf
  | 0, _, _, _ => rfl
  | _ + 1, [], _, h => by simp at h
  | _ + 1, [x], _, h => by simp at h
  | j + 1, x :: y :: rest, suf, h => by
    have h' : j + 1 ≤ (x :: rest).length := by
      simp only [List.length_cons] at h ⊢; omega
    have h'' : j + 1 ≤ (y :: rest).length := by
      simp only [List.length_cons] at h ⊢; omega
    have e1 := bubble_append j (x :: rest) suf h'
    have e2 := bubble_append j (y :: rest) suf h''
    simp only [List.cons_append] at e1 e2 ⊢
    unfold bubble
    split_ifs
    · rw [e1]; rfl
    · rw [e2]; rfl

/-- One pass over `j + 1` cells carries a greatest name to the last cell. -/
theorem bubble_last :
    ∀ (j : Nat) (pre : List String), pre.length = j + 1 →
      ∃ init m, bubble j pre = init ++ [m] ∧ ∀ z ∈ pre, z ≤ m
  | 0, [a], _ => ⟨[], a, rfl, by simp⟩
  | 0, [], h => by simp at h
  | 0, _ :: _ :: _, h => by simp at h
  | _ + 1, [], h => by simp at h
  | _ + 1, [x], h => by simp at h
  | j + 1, x :: y :: rest, h => by
    have hl : rest.length = j := by
      simp only [List.length_cons] at h; omega
    unfold bubble
    split_ifs with hc
    · obtain ⟨init, m, e, hm⟩ := bubble_last j (x :: rest) (by simp [hl])
      refine ⟨y :: init, m, by rw [e]; rfl, ?_⟩
      intro z hz
      have hyx : y < x := (strcmp_pos_iff x y).1 hc
      have hxm : x ≤ m := hm x (List.mem_cons_self _ _)
      rcases List.mem_cons.1 hz with rfl | hz
      · exact hxm
      · rcases List.mem_cons.1 hz with rfl | hz
        · exact le_trans (le_of_lt hyx) hxm
        · exact hm z (List.mem_cons_of_mem _ hz)
    · obtain ⟨init, m, e, hm⟩ := bubble_last j (y :: rest) (by simp [hl])
      refine ⟨x :: init, m, by rw [e]; rfl, ?_⟩
      intro z hz
      have hxy : x ≤ y := not_lt.1 (fun hlt => hc ((strcmp_pos_iff x y).2 hlt))
      have hym : y ≤ m := hm y (List.mem_cons_self _ _)
      rcases List.mem_cons.1 hz with rfl | hz
      · exact le_trans hxy hym
      · exact hm z hz

/-- The outer loop: once the cells behind the first `j + 1` hold, in order,
names that are not below any name in front, `j` more passes sort the array. -/
theorem bubble_sort_sorted :
    ∀ (j : Nat) (pre suf : List String), pre.length = j + 1 →
      suf.Sorted (· ≤ ·) → (∀ x ∈ pre, ∀ y ∈ suf, x ≤ y) →
      (bubble_sort j (pre ++ suf)).Sorted (· ≤ ·) ∧
        (bubble_sort j (pre ++ suf)).Perm (pre ++ suf)
  | 0, [a], suf, _, hs, hle => by
    refine ⟨?_, List.Perm.refl _⟩
    show List.Sorted (· ≤ ·) (a :: suf)
    exact List.sorted_cons.2 ⟨hle a (List.mem_cons_self _ _), hs⟩
  | 0, [], _, h, _, _ => by simp at h
  | 0, _ :: _ :: _, _, h, _, _ => by simp at h
  | j + 1, pre, suf, h, hs, hle => by
    obtain ⟨init, m, e, hm⟩ := bubble_last (j + 1) pre h
    have hp : (init ++ [m]).Perm pre := e ▸ bubble_perm (j + 1) pre
    have hlen : init.length = j + 1 := by
      have := hp.length_eq
      simp only [List.length_append, List.length_singleton] at this
      omega
    have hmem : m ∈ pre := hp.subset (by simp)
    have hinit : ∀ x ∈ init, x ∈ pre :=
      fun x hx => hp.subset (List.mem_append_left _ hx)
    have hstep : bubble (j + 1) (pre ++ suf) = init ++ (m :: suf) := by
      rw [bubble_append (j + 1) pre suf (by omega), e]
      simp
    have hs' : (m :: suf).Sorted (· ≤ ·) :=
      List.sorted_cons.2 ⟨fun y hy => hle m hmem y hy, hs⟩
    have hle' : ∀ x ∈ init, ∀ y ∈ m :: suf, x ≤ y := by
      intro x hx y hy
      rcases List.mem_cons.1 hy with rfl | hy
      · exact hm x (hinit x hx)
      · exact hle x (hinit x hx) y hy
    obtain ⟨r1, r2⟩ := bubble_sort_sorted j init (m :: suf) hlen hs' hle'
    show (bubble_sort j (bubble (j + 1) (pre ++ suf))).Sorted (· ≤ ·) ∧
      (bubble_sort j (bubble (j + 1) (pre ++ suf))).Perm (pre ++ suf)
    rw [hstep]
    refine ⟨r1, r2.trans ?_⟩
    have : init ++ m :: suf = (init ++ [m]) ++ suf := by simp
    rw [this]
    exact hp.append_right suf

/-- The sort of `sort_and_print`, started with `j = elements - 1`, returns
the names in ascending order. -/
theorem bubble_sort_spec (s : List String) :
    (bubble_sort (s.length - 1) s).Sorted (· ≤ ·) ∧
      (bubble_sort (s.length - 1) s).Perm s := by
  cases s with
  | nil => exact ⟨List.sorted_nil, List.Perm.refl _⟩
  | cons a rest =>
    have h := bubble_sort_sorted rest.length (a :: rest) [] (by simp)
      List.sorted_nil (by simp)
    simpa using h

theorem is_dir_iff (dir : Directory) (str : String) :
    is_dir dir str = true ↔ str ∈ dir.sub_dir_names :=
  sub_dir_exists_iff str dir.sub_dir_list

/-- C10: listing a directory.  When the names of the children of a directory
are pairwise distinct, `sort_and_print` prints one entry per child (files and
sub directories together), in ascending lexicographic order of the names;
the entry is the name followed by `/` when the child is a sub directory and
the bare name when it is a file (no file shares its name with a sub
directory). -/
theorem sort_and_print_sorted (dir : Directory)
    (h : dir.child_names.Nodup) :
    ∃ names : List String,
      names.Perm dir.child_names ∧ names.Sorted (· < ·) ∧
      sort_and_print dir =
        names.map (fun n => if n ∈ dir.sub_dir_names then n ++ "/" else n) ∧
      (∀ n ∈ dir.file_list, n ∉ dir.sub_dir_names) := by
  obtain ⟨h1, h2⟩ := bubble_sort_spec
    (dir.file_list ++ dir.sub_dir_list.map Directory.dir_name)
  refine ⟨bubble_sort
      ((dir.file_list ++ dir.sub_dir_list.map Directory.dir_name).length - 1)
      (dir.file_list ++ dir.sub_dir_list.map Directory.dir_name),
    h2, h1.lt_of_le (h2.nodup_iff.2 h), ?_, ?_⟩
  · unfold sort_and_print
    simp only
    apply List.map_congr_left
    intro n _
    by_cases hn : n ∈ dir.sub_dir_names
    · simp [hn, (is_dir_iff dir n).2 hn]
    · have : is_dir dir n = false := by
        rw [← Bool.not_eq_true, is_dir_iff]; exact hn
      simp [hn, this]
  · intro n hn hs
    exact (List.nodup_append.1 h).2.2 hn hs

/-- Witness of C10: after `mkdir z` and `mkdir a` from `mkfs` the root has
distinct child names, and `ls .` prints `a/` and then `z/`. -/
theorem sort_and_print_sorted_witness :
    (mkdir (mkdir mkfs "z").2 "a").2.curr_dir.child_names.Nodup ∧
      (∃ names : List String,
        names.Perm (mkdir (mkdir mkfs "z").2 "a").2.curr_dir.child_names ∧
        names.Sorted (· < ·) ∧
        sort_and_print (mkdir (mkdir mkfs "z").2 "a").2.curr_dir =
          names.map (fun n =>
            if n ∈ (mkdir (mkdir mkfs "z").2 "a").2.curr_dir.sub_dir_names
            then n ++ "/" else n) ∧
        (∀ n ∈ (mkdir (mkdir mkfs "z").2 "a").2.curr_dir.file_list,
          n ∉ (mkdir (mkdir mkfs "z").2 "a").2.curr_dir.sub_dir_names)) ∧
      ls (mkdir (mkdir mkfs "z").2 "a").2 "." = (0, ["a/", "z/"]) :=
  ⟨by decide,
    sort_and_print_sorted (mkdir (mkdir mkfs "z").2 "a").2.curr_dir
      (by decide),
    rfl⟩

/-! ## Facts about `ls`, `pwd` and `rm` -/

theorem find_file_eq (arg : String) (l : List String) :
    find_file arg l = if arg ∈ l then some arg else none := by
  induction l with
  | nil => simp [find_file]
  | cons f rest ih =>
    unfold find_file
    by_cases h : strcmp arg f = 0
    · have e := (strcmp_eq_zero_iff arg f).1 h
      rw [if_pos h, if_pos (by rw [e]; exact List.mem_cons_self _ _), e]
    · have hne : arg ≠ f := fun e => h ((strcmp_eq_zero_iff arg f).2 e)
      rw [if_neg h, ih]
      by_cases hm : arg ∈ rest
      · rw [if_pos hm, if_pos (List.mem_cons_of_mem _ hm)]
      · rw [if_neg hm, if_neg (by simp [hne, hm])]

theorem find_sub_dir_none (arg : String) (l : List Directory)
    (h : arg ∉ l.map Directory.dir_name) : find_sub_dir arg l = none := by
  induction l with
  | nil => rfl
  | cons d rest ih =>
    simp only [List.map_cons, List.mem_cons, not_or] at h
    unfold find_sub_dir
    rw [if_neg (fun e => h.1 ((strcmp_eq_zero_iff _ _).1 e)), ih h.2]

/-- The search loop of `ls` stops at the first sub directory of the name. -/
theorem find_sub_dir_some (arg : String) (l : List Directory)
    (h : arg ∈ l.map Directory.dir_name) :
    ∃ pre t post, l = pre ++ t :: post ∧ t.dir_name = arg ∧
      (∀ x ∈ pre, x.dir_name ≠ arg) ∧ find_sub_dir arg l = some t := by
  induction l with
  | nil => simp at h
  | cons d rest ih =>
    by_cases hd : strcmp arg d.dir_name = 0
    · exact ⟨[], d, rest, rfl, ((strcmp_eq_zero_iff _ _).1 hd).symm,
        by simp, by simp [find_sub_dir, hd]⟩
    · have hne : arg ≠ d.dir_name :=
        fun e => hd ((strcmp_eq_zero_iff _ _).2 e)
      rw [List.map_cons, List.mem_cons] at h
      obtain ⟨pre, t, post, e1, e2, e3, e4⟩ := ih (h.resolve_left hne)
      refine ⟨d :: pre, t, post, by rw [e1]; rfl, e2, ?_, ?_⟩
      · intro x hx
        rcases List.mem_cons.1 hx with rfl | hx
        · exact fun e => hne e.symm
        · exact e3 x hx
      · unfold find_sub_dir
        rw [if_neg hd, e4]

theorem parent_dir_root (files : Filesystem) (h : files.parents = []) :
    files.parent_dir = files.root := by
  obtain ⟨d, ps⟩ := files
  simp only at h
  subst h
  rfl

theorem parent_dir_cons (files : Filesystem) (p : Parent) (ps : List Parent)
    (h : files.parents = p :: ps) :
    files.parent_dir = p.rebuild files.curr_dir := by
  obtain ⟨d, qs⟩ := files
  simp only at h
  subst h
  rfl

theorem render_path_append (a b : List String) :
    render_path (a ++ b) = render_path a ++ render_path b := by
  induction a with
  | nil => simp [render_path, String.empty_append]
  | cons n rest ih =>
    show "/" ++ n ++ render_path (rest ++ b)
      = "/" ++ n ++ render_path rest ++ render_path b
    rw [ih]
    exact (String.append_assoc _ _ _).symm

theorem pwd_print_eq (l : List String) :
    pwd_print l = render_path l.reverse := by
  induction l with
  | nil => rfl
  | cons n rest ih =>
    simp only [pwd_print, List.reverse_cons, render_path_append, render_path,
      ih, String.append_assoc, String.append_empty]

theorem pwd_count_eq :
    ∀ (ps : List Parent) (n : String), ChainOK n ps →
      pwd_count n ps = some ps.length
  | [], n, h => by
    have e : n = "/" := h
    simp [pwd_count, strcmp_eq_zero_iff, e]
  | p :: ps, n, h => by
    have hne : ¬ strcmp "/" n = 0 :=
      fun e => h.1.2.2.2 ((strcmp_eq_zero_iff _ _).1 e).symm
    unfold pwd_count
    rw [if_pos hne, pwd_count_eq ps p.dir_name h.2.2.2]
    rfl

theorem pwd_fill_eq :
    ∀ (ps : List Parent) (n : String),
      pwd_fill ps.length n ps = (chain_names n ps).reverse
  | [], _ => rfl
  | p :: ps, n => by
    simp only [List.length_cons, pwd_fill, chain_names, List.reverse_append,
      List.reverse_cons, List.reverse_nil, List.nil_append,
      List.singleton_append, pwd_fill_eq ps p.dir_name]

/-- The text `pwd` prints in a file system that satisfies the naming
invariant. -/
theorem pwd_eq (files : Filesystem) (h : NamesInv files) :
    (files.parents = [] → pwd files = some "/") ∧
      (files.parents ≠ [] →
        pwd files = some (render_path files.path_names)) := by
  obtain ⟨d, ps⟩ := files
  cases ps with
  | nil =>
    have e : d.dir_name = "/" := h.2
    simp [pwd, strcmp_eq_zero_iff, e]
  | cons p ps =>
    have hne : ¬ strcmp d.dir_name "/" = 0 :=
      fun e => h.2.1.2.2.2 ((strcmp_eq_zero_iff _ _).1 e)
    refine ⟨fun e => absurd e (by simp), fun _ => ?_⟩
    unfold pwd
    simp only [hne, if_false, pwd_count_eq (p :: ps) d.dir_name h.2,
      pwd_fill_eq, pwd_print_eq, List.reverse_reverse,
      Filesystem.path_names]

theorem unlink_file_eq (arg : String) (l : List String) :
    unlink_file arg l = l.erase arg := by
  induction l with
  | nil => rfl
  | cons f rest ih =>
    unfold unlink_file
    rw [List.erase_cons]
    by_cases h : strcmp arg f = 0
    · have e := (strcmp_eq_zero_iff arg f).1 h
      rw [if_pos h, e]
      simp
    · have hne : f ≠ arg := fun e => h ((strcmp_eq_zero_iff arg f).2 e.symm)
      simp [h, hne, ih]

/-- Unlinking takes out the first sub directory of the name and nothing
else. -/
theorem unlink_sub_dir_eq (arg : String) (l : List Directory)
    (h : arg ∈ l.map Directory.dir_name) :
    ∃ pre t post, l = pre ++ t :: post ∧ t.dir_name = arg ∧
      (∀ x ∈ pre, x.dir_name ≠ arg) ∧ unlink_sub_dir arg l = pre ++ post := by
  induction l with
  | nil => simp at h
  | cons d rest ih =>
    by_cases hd : strcmp arg d.dir_name = 0
    · exact ⟨[], d, rest, rfl, ((strcmp_eq_zero_iff _ _).1 hd).symm,
        by simp, by simp [unlink_sub_dir, hd]⟩
    · have hne : arg ≠ d.dir_name :=
        fun e => hd ((strcmp_eq_zero_iff _ _).2 e)
      rw [List.map_cons, List.mem_cons] at h
      obtain ⟨pre, t, post, e1, e2, e3, e4⟩ := ih (h.resolve_left hne)
      refine ⟨d :: pre, t, post, by rw [e1]; rfl, e2, ?_, ?_⟩
      · intro x hx
        rcases List.mem_cons.1 hx with rfl | hx
        · exact fun e => hne e.symm
        · exact e3 x hx
      · unfold unlink_sub_dir
        rw [if_neg hd, e4]
        rfl

/-- Closed form of `rm`. -/
theorem rm_eq (files : Filesystem) (n : String) :
    rm files n =
      if n = "" then (-3, files)
      else if n = "." ∨ n = ".." ∨ n = "/" then (-2, files)
      else if n ∈ files.curr_dir.file_list then
        (0, ⟨.mk files.curr_dir.dir_name (files.curr_dir.file_list.erase n)
              files.curr_dir.sub_dir_list, files.parents⟩)
      else if n ∈ files.curr_dir.sub_dir_names then
        (0, ⟨.mk files.curr_dir.dir_name files.curr_dir.file_list
              (unlink_sub_dir n files.curr_dir.sub_dir_list), files.parents⟩)
      else (-1, files) := by
  unfold rm
  by_cases h0 : n = ""
  · simp [h0]
  · rw [if_neg h0, if_neg h0]
    by_cases h1 : is_special n = true
    · rw [if_pos h1, if_pos ((is_special_iff n).1 h1)]
    · rw [if_neg h1, if_neg ((is_special_iff n).not.1 h1)]
      by_cases h2 : file_exists n files.curr_dir.file_list = true
      · have h2' := (file_exists_iff _ _).1 h2
        simp [h2, h2', unlink_file_eq]
      · have h2' := (file_exists_iff _ _).not.1 h2
        by_cases h3 : sub_dir_exists n files.curr_dir.sub_dir_list = true
        · have h3' : n ∈ files.curr_dir.sub_dir_names :=
            (sub_dir_exists_iff _ _).1 h3
          simp [h2, h2', h3, h3']
        · have h3' : n ∉ files.curr_dir.sub_dir_names :=
            (sub_dir_exists_iff _ _).not.1 h3
          simp [h2, h2', h3, h3']

/-! ## Claims about `ls`, `pwd` and the results of `rm` -/

/-- C11: what `ls` lists, in every reachable file system.  `.` and the
empty name list the current directory, `/` lists the root, `..` lists the
parent of the current directory, which is the root itself when the current
directory is the root; the name of a file of the current directory prints
that one name, bare; the name of a sub directory lists the first sub
directory of that name; any other name returns -1 and prints nothing.  All
other cases return 0.  The function receives the file system by value and
only reads it: it has no file system as a result. -/
theorem ls_resolves (files : Filesystem) (hr : Reachable files) (n : String) :
    (n = "." ∨ n = "" → ls files n = (0, sort_and_print files.curr_dir)) ∧
    (n = "/" → ls files n = (0, sort_and_print files.root)) ∧
    (n = ".." → ls files n = (0, sort_and_print files.parent_dir)) ∧
    (files.parents = [] → files.parent_dir = files.root) ∧
    (∀ p ps, files.parents = p :: ps →
      files.parent_dir = p.rebuild files.curr_dir) ∧
    (n ≠ "." → n ≠ "" → n ≠ "/" → n ≠ ".." →
      n ∈ files.curr_dir.file_list → ls files n = (0, [n])) ∧
    (n ≠ "." → n ≠ "" → n ≠ "/" → n ≠ ".." →
      n ∉ files.curr_dir.file_list →
      n ∈ files.curr_dir.sub_dir_list.map Directory.dir_name →
      ∃ pre t post, files.curr_dir.sub_dir_list = pre ++ t :: post ∧
        t.dir_name = n ∧ (∀ x ∈ pre, x.dir_name ≠ n) ∧
        ls files n = (0, sort_and_print t)) ∧
    (n ≠ "." → n ≠ "" → n ≠ "/" → n ≠ ".." →
      n ∉ files.curr_dir.file_list →
      n ∉ files.curr_dir.sub_dir_list.map Directory.dir_name →
      ls files n = (-1, [])) := by
  refine ⟨?_, ?_, ?_, parent_dir_root files, parent_dir_cons files,
    ?_, ?_, ?_⟩
  · rintro (h | h) <;> simp [ls, h, strcmp_eq_zero_iff]
  · intro h; simp [ls, h, strcmp_eq_zero_iff]
  · intro h
    by_cases hroot : files.curr_dir.dir_name = "/"
    · have hp := (root_test_sound files hr).1 hroot
      simp [ls, h, strcmp_eq_zero_iff, hroot, parent_dir_root files hp]
    · have hroot' : ¬ "/" = files.curr_dir.dir_name := fun e => hroot e.symm
      simp [ls, h, strcmp_eq_zero_iff, hroot']
  · intro h1 h2 h3 h4 hf
    simp [ls, strcmp_eq_zero_iff, h1, h2, h3, h4, find_file_eq, hf]
  · intro h1 h2 h3 h4 hf hd
    obtain ⟨pre, t, post, e1, e2, e3, e4⟩ :=
      find_sub_dir_some n files.curr_dir.sub_dir_list hd
    refine ⟨pre, t, post, e1, e2, e3, ?_⟩
    simp [ls, strcmp_eq_zero_iff, h1, h2, h3, h4, find_file_eq, hf, e4]
  · intro h1 h2 h3 h4 hf hd
    simp [ls, strcmp_eq_zero_iff, h1, h2, h3, h4, find_file_eq, hf,
      find_sub_dir_none n _ hd]

/-- Witness of C11: inside the directory `d` made in the root, `ls ..`
lists the root. -/
theorem ls_resolves_witness :
    Reachable (cd (mkdir mkfs "d").2 "d").2 ∧
      ls (cd (mkdir mkfs "d").2 "d").2 ".." = (0, ["d/"]) :=
  have hr : Reachable (cd (mkdir mkfs "d").2 "d").2 :=
    Reachable.step (Cmd.cd "d") (Reachable.step (Cmd.mkdir "d") Reachable.mkfs)
  ⟨hr, (ls_resolves (cd (mkdir mkfs "d").2 "d").2 hr "..").2.2.1 rfl⟩

/-- C12: the text `pwd` prints, in every reachable file system.  The loop
ends and the text is `/` when the current directory is the root, and
otherwise `/` + name + `/` + name + ... for the directories on the way from
the root down to the current directory, the root left out, with nothing
behind the last name.  After `mkfs` the text is `/`.  The function receives
the file system by value and only reads it. -/
theorem pwd_renders_path (files : Filesystem) (hr : Reachable files) :
    (files.parents = [] → pwd files = some "/") ∧
      (files.parents ≠ [] →
        pwd files = some (render_path files.path_names)) ∧
      pwd mkfs = some "/" :=
  ⟨(pwd_eq files (namesInv_of_reachable files hr)).1,
    (pwd_eq files (namesInv_of_reachable files hr)).2, rfl⟩

/-- Witness of C12: in `/a/b`, made and entered from `mkfs`, `pwd` prints
`/a/b`. -/
theorem pwd_renders_path_witness :
    Reachable (cd (mkdir (cd (mkdir mkfs "a").2 "a").2 "b").2 "b").2 ∧
      pwd (cd (mkdir (cd (mkdir mkfs "a").2 "a").2 "b").2 "b").2
        = some "/a/b" :=
  have hr : Reachable (cd (mkdir (cd (mkdir mkfs "a").2 "a").2 "b").2 "b").2 :=
    Reachable.step (Cmd.cd "b") (Reachable.step (Cmd.mkdir "b")
      (Reachable.step (Cmd.cd "a")
        (Reachable.step (Cmd.mkdir "a") Reachable.mkfs)))
  ⟨hr, (pwd_renders_path _ hr).2.1 (List.cons_ne_nil _ _)⟩

/-- C13: the results of `rm`, in the order they are decided: -3 for the
empty name, -2 for `.`, `..` and `/`, -1 for a name that names neither a
file nor a sub directory of the current directory, and 0 in every other
case. -/
theorem rm_results (files : Filesystem) (n : String) :
    (rm files n).1 =
      if n = "" then -3
      else if n = "." ∨ n = ".." ∨ n = "/" then -2
      else if n ∉ files.curr_dir.file_list ∧
          n ∉ files.curr_dir.sub_dir_list.map Directory.dir_name then -1
      else 0 := by
  rw [rm_eq]
  by_cases h0 : n = ""
  · simp [h0]
  · by_cases h1 : n = "." ∨ n = ".." ∨ n = "/"
    · simp [h0, h1]
    · by_cases h2 : n ∈ files.curr_dir.file_list
      · simp [h0, h1, h2]
      · by_cases h3 : n ∈ files.curr_dir.sub_dir_names
        · have h3' := h3
          simp only [Directory.sub_dir_names] at h3'
          simp [h0, h1, h2, h3, h3']
        · have h3' := h3
          simp only [Directory.sub_dir_names] at h3'
          simp [h0, h1, h2, h3, h3']

/-! ## Facts about the loops of `re_name` -/

theorem scan_files_fst (a b : String) (l : List String) (e : Bool) :
    (re_name_scan_files a b l e).1 = true ↔ a ∈ l := by
  induction l generalizing e with
  | nil => simp [re_name_scan_files]
  | cons f rest ih =>
    unfold re_name_scan_files
    by_cases h : strcmp a f = 0
    · have e1 := (strcmp_eq_zero_iff a f).1 h
      rw [if_pos h, e1]
      simp
    · have hne : a ≠ f := fun e1 => h ((strcmp_eq_zero_iff a f).2 e1)
      rw [if_neg h, ih]
      simp [hne]

theorem scan_dirs_fst (a b : String) (l : List Directory) (e : Bool) :
    (re_name_scan_dirs a b l e).1 = true ↔ a ∈ l.map Directory.dir_name := by
  induction l generalizing e with
  | nil => simp [re_name_scan_dirs]
  | cons d rest ih =>
    unfold re_name_scan_dirs
    by_cases h : strcmp a d.dir_name = 0
    · have e1 := (strcmp_eq_zero_iff a d.dir_name).1 h
      rw [if_pos h, e1]
      simp
    · have hne : a ≠ d.dir_name :=
        fun e1 => h ((strcmp_eq_zero_iff a d.dir_name).2 e1)
      rw [if_neg h, ih]
      simp [hne]

/-- A scan that does not meet `arg1` sees every file: `exist_arg2` is then
exact. -/
theorem scan_files_snd_full (a b : String) (l : List String) (e : Bool)
    (h : a ∉ l) :
    (re_name_scan_files a b l e).2 = true ↔ e = true ∨ b ∈ l := by
  induction l generalizing e with
  | nil => simp [re_name_scan_files]
  | cons f rest ih =>
    simp only [List.mem_cons, not_or] at h
    unfold re_name_scan_files
    rw [if_neg (fun e1 => h.1 ((strcmp_eq_zero_iff a f).1 e1)), ih _ h.2]
    by_cases hb : strcmp b f = 0
    · have e1 := (strcmp_eq_zero_iff b f).1 hb
      rw [if_pos hb]
      simp [e1]
    · have hne : b ≠ f := fun e1 => hb ((strcmp_eq_zero_iff b f).2 e1)
      simp [hb, hne]

theorem scan_dirs_snd_full (a b : String) (l : List Directory) (e : Bool)
    (h : a ∉ l.map Directory.dir_name) :
    (re_name_scan_dirs a b l e).2 = true ↔
      e = true ∨ b ∈ l.map Directory.dir_name := by
  induction l generalizing e with
  | nil => simp [re_name_scan_dirs]
  | cons d rest ih =>
    simp only [List.map_cons, List.mem_cons, not_or] at h
    unfold re_name_scan_dirs
    rw [if_neg (fun e1 => h.1 ((strcmp_eq_zero_iff a d.dir_name).1 e1)),
      ih _ h.2]
    by_cases hb : strcmp b d.dir_name = 0
    · have e1 := (strcmp_eq_zero_iff b d.dir_name).1 hb
      rw [if_pos hb]
      simp [e1]
    · have hne : b ≠ d.dir_name :=
        fun e1 => hb ((strcmp_eq_zero_iff b d.dir_name).2 e1)
      simp [hb, hne]

/-- The flag `exist_arg2` is never reset. -/
theorem scan_files_snd_mono (a b : String) (l : List String) :
    (re_name_scan_files a b l true).2 = true := by
  induction l with
  | nil => rfl
  | cons f rest ih =>
    unfold re_name_scan_files
    split_ifs
    · rfl
    · exact ih
    · exact ih

theorem scan_dirs_snd_mono (a b : String) (l : List Directory) :
    (re_name_scan_dirs a b l true).2 = true := by
  induction l with
  | nil => rfl
  | cons d rest ih =>
    unfold re_name_scan_dirs
    split_ifs
    · rfl
    · exact ih
    · exact ih

/-- The flag `exist_arg2` is only set by an entry named `arg2`. -/
theorem scan_files_snd_sound (a b : String) (l : List String) (e : Bool)
    (h : (re_name_scan_files a b l e).2 = true) : e = true ∨ b ∈ l := by
  induction l generalizing e with
  | nil => exact Or.inl h
  | cons f rest ih =>
    unfold re_name_scan_files at h
    split_ifs at h with h1 h2
    · exact Or.inl h
    · exact Or.inr (by
        rw [(strcmp_eq_zero_iff b f).1 h2]; exact List.mem_cons_self _ _)
    · exact (ih _ h).imp id (List.mem_cons_of_mem _)

theorem scan_dirs_snd_sound (a b : String) (l : List Directory) (e : Bool)
    (h : (re_name_scan_dirs a b l e).2 = true) :
    e = true ∨ b ∈ l.map Directory.dir_name := by
  induction l generalizing e with
  | nil => exact Or.inl h
  | cons d rest ih =>
    unfold re_name_scan_dirs at h
    split_ifs at h with h1 h2
    · exact Or.inl h
    · exact Or.inr (by
        rw [List.map_cons, (strcmp_eq_zero_iff b d.dir_name).1 h2]
        exact List.mem_cons_self _ _)
    · exact (ih _ h).imp id (by
        intro hm; rw [List.map_cons]; exact List.mem_cons_of_mem _ hm)

theorem exist_arg2_sound (files : Filesystem) (a b : String)
    (h : exist_arg2_of files a b = true) : b ∈ files.curr_dir.child_names := by
  rw [mem_child_names]
  rcases scan_dirs_snd_sound _ _ _ _ h with h1 | h1
  · rcases scan_files_snd_sound _ _ _ _ h1 with h2 | h2
    · exact absurd h2 (by decide)
    · exact Or.inl h2
  · exact Or.inr h1

theorem exist_arg2_absent (files : Filesystem) (a b : String)
    (h : a ∉ files.curr_dir.child_names) :
    exist_arg2_of files a b = true ↔ b ∈ files.curr_dir.child_names := by
  rw [mem_child_names] at h
  simp only [not_or] at h
  unfold exist_arg2_of
  rw [scan_dirs_snd_full a b _ _ h.2, scan_files_snd_full a b _ _ h.1,
    mem_child_names]
  simp [Directory.sub_dir_names]

/-- When `arg1` names no sub directory, the second loop sees them all. -/
theorem exist_arg2_dirs_seen (files : Filesystem) (a b : String)
    (h : a ∉ files.curr_dir.sub_dir_names)
    (hx : exist_arg2_of files a b = false) :
    b ∉ files.curr_dir.sub_dir_names := by
  intro hb
  have := (scan_dirs_snd_full a b files.curr_dir.sub_dir_list
    (re_name_scan_files a b files.curr_dir.file_list false).2 h).2 (Or.inr hb)
  unfold exist_arg2_of at hx
  rw [this] at hx
  exact absurd hx (by decide)

/-- When `arg1` names no file, the first loop sees them all. -/
theorem exist_arg2_files_seen (files : Filesystem) (a b : String)
    (h : a ∉ files.curr_dir.file_list)
    (hx : exist_arg2_of files a b = false) :
    b ∉ files.curr_dir.file_list := by
  intro hb
  have h1 := (scan_files_snd_full a b files.curr_dir.file_list false h).2
    (Or.inr hb)
  unfold exist_arg2_of at hx
  rw [h1, scan_dirs_snd_mono] at hx
  exact absurd hx (by decide)

/-- Renaming a file overwrites the first file of the name, in place. -/
theorem set_file_name_eq (a b : String) (l : List String) (h : a ∈ l) :
    ∃ pre post, l = pre ++ a :: post ∧ a ∉ pre ∧
      set_file_name a b l = pre ++ b :: post := by
  induction l with
  | nil => simp at h
  | cons f rest ih =>
    by_cases hf : strcmp a f = 0
    · have e := (strcmp_eq_zero_iff a f).1 hf
      exact ⟨[], rest, by rw [e]; rfl, by simp, by simp [set_file_name, hf]⟩
    · have hne : a ≠ f := fun e => hf ((strcmp_eq_zero_iff a f).2 e)
      obtain ⟨pre, post, e1, e2, e3⟩ :=
        ih ((List.mem_cons.1 h).resolve_left hne)
      refine ⟨f :: pre, post, by rw [e1]; rfl, by simp [hne, e2], ?_⟩
      unfold set_file_name
      rw [if_neg hf, e3]
      rfl

/-- Renaming a directory overwrites the name of the first sub directory of
the name, in place, and nothing else of it. -/
theorem set_dir_name_eq (a b : String) (l : List Directory)
    (h : a ∈ l.map Directory.dir_name) :
    ∃ pre t post, l = pre ++ t :: post ∧ t.dir_name = a ∧
      (∀ x ∈ pre, x.dir_name ≠ a) ∧
      set_dir_name a b l =
        pre ++ Directory.mk b t.file_list t.sub_dir_list :: post := by
  induction l with
  | nil => simp at h
  | cons d rest ih =>
    by_cases hd : strcmp a d.dir_name = 0
    · exact ⟨[], d, rest, rfl, ((strcmp_eq_zero_iff _ _).1 hd).symm,
        by simp, by simp [set_dir_name, hd]⟩
    · have hne : a ≠ d.dir_name :=
        fun e => hd ((strcmp_eq_zero_iff _ _).2 e)
      rw [List.map_cons, List.mem_cons] at h
      obtain ⟨pre, t, post, e1, e2, e3, e4⟩ := ih (h.resolve_left hne)
      refine ⟨d :: pre, t, post, by rw [e1]; rfl, e2, ?_, ?_⟩
      · intro x hx
        rcases List.mem_cons.1 hx with rfl | hx
        · exact fun e => hne e.symm
        · exact e3 x hx
      · unfold set_dir_name
        rw [if_neg hd, e4]
        rfl

/-- Closed form of `re_name` for two non-empty names that are none of `.`,
`..`, `/`, in terms of the flag `exist_arg2`. -/
theorem re_name_ordinary (files : Filesystem) (a b : String)
    (h0 : a ≠ "") (h0' : b ≠ "") (h1 : is_special a = false)
    (h1' : is_special b = false) :
    re_name files a b =
      if exist_arg2_of files a b = true ∧ a ≠ b then (-3, files)
      else if a ∉ files.curr_dir.child_names then (-1, files)
      else if a = b then (-4, files)
      else if a ∈ files.curr_dir.file_list then
        (0, ⟨.mk files.curr_dir.dir_name
              (set_file_name a b files.curr_dir.file_list)
              files.curr_dir.sub_dir_list, files.parents⟩)
      else
        (0, ⟨.mk files.curr_dir.dir_name files.curr_dir.file_list
              (set_dir_name a b files.curr_dir.sub_dir_list),
            files.parents⟩) := by
  have hE1 := scan_files_fst a b files.curr_dir.file_list false
  have hE2 := scan_dirs_fst a b files.curr_dir.sub_dir_list
    (re_name_scan_files a b files.curr_dir.file_list false).2
  unfold re_name
  simp only [h0, h0', h1, h1', or_self, if_false, Bool.or_self,
    Bool.false_eq_true]
  by_cases hx : exist_arg2_of files a b = true ∧ a ≠ b
  · have hx' := hx
    unfold exist_arg2_of at hx'
    rw [if_pos hx, if_pos ⟨hx'.1, fun e => hx.2 ((strcmp_eq_zero_iff _ _).1 e)⟩]
  · have hx' : ¬ ((re_name_scan_dirs a b files.curr_dir.sub_dir_list
          (re_name_scan_files a b files.curr_dir.file_list false).2).2 = true
        ∧ strcmp a b ≠ 0) := by
      intro hc
      exact hx ⟨hc.1, fun e => hc.2 ((strcmp_eq_zero_iff _ _).2 e)⟩
    rw [if_neg hx, if_neg hx']
    by_cases hf : a ∈ files.curr_dir.file_list
    · have hc : a ∈ files.curr_dir.child_names :=
        (mem_child_names _ _).2 (Or.inl hf)
      simp [hE1.2 hf, hf, hc, strcmp_eq_zero_iff]
    · have hf' : (re_name_scan_files a b files.curr_dir.file_list false).1
          = false := by
        rw [← Bool.not_eq_true, hE1]; exact hf
      by_cases hd : a ∈ files.curr_dir.sub_dir_list.map Directory.dir_name
      · have hc : a ∈ files.curr_dir.child_names :=
          (mem_child_names _ _).2 (Or.inr hd)
        simp [hf', hE2.2 hd, hf, hc, strcmp_eq_zero_iff]
      · have hd' : (re_name_scan_dirs a b files.curr_dir.sub_dir_list
            (re_name_scan_files a b files.curr_dir.file_list false).2).1
            = false := by
          rw [← Bool.not_eq_true, hE2]; exact hd
        have hc : a ∉ files.curr_dir.child_names := by
          rw [mem_child_names]
          rintro (h | h)
          · exact hf h
          · exact hd h
        simp [hf', hd', hc]

/-! ## Files and sub directories never share a name in a reachable file system -/

theorem noShare_iff (d : Directory) :
    NoShare d ↔ (∀ x ∈ d.file_list, x ∉ d.sub_dir_names) ∧
      (∀ s ∈ d.sub_dir_list, NoShare s) := by
  constructor
  · intro h
    cases h with
    | mk n f s h1 h2 => exact ⟨h1, h2⟩
  · intro h
    cases d with
    | mk n f s => exact NoShare.mk n f s h.1 h.2

theorem noShareInv_mkfs : NoShareInv mkfs := by
  refine ⟨NoShare.mk _ _ _ ?_ ?_, trivial⟩ <;> simp

theorem noShareInv_children (files : Filesystem) (f : List String)
    (s : List Directory) (h : NoShareInv files)
    (hf : ∀ x ∈ f, x ∉ s.map Directory.dir_name)
    (hs : ∀ d ∈ s, NoShare d) :
    NoShareInv ⟨.mk files.curr_dir.dir_name f s, files.parents⟩ :=
  ⟨NoShare.mk _ _ _ hf hs, h.2⟩

theorem noShareInv_touch (files : Filesystem) (arg : String)
    (h : NoShareInv files) : NoShareInv (touch files arg).2 := by
  have hk := (noShare_iff _).1 h.1
  rw [touch_eq]
  split_ifs with h0 h1
  · exact h
  · exact h
  · refine noShareInv_children files _ _ h ?_ hk.2
    intro x hx
    rcases List.mem_append.1 hx with hx | hx
    · exact hk.1 x hx
    · rw [List.mem_singleton.1 hx]
      exact fun hm => h1 (Or.inr ((mem_child_names _ _).2 (Or.inr hm)))

theorem noShareInv_mkdir (files : Filesystem) (arg : String)
    (h : NoShareInv files) : NoShareInv (mkdir files arg).2 := by
  have hk := (noShare_iff _).1 h.1
  rw [mkdir_eq]
  split_ifs with h0 h1
  · exact h
  · exact h
  · refine noShareInv_children files _ _ h ?_ ?_
    · intro x hx hm
      rw [List.map_append, List.mem_append] at hm
      rcases hm with hm | hm
      · exact hk.1 x hx hm
      · simp only [List.map_cons, List.map_nil, List.mem_singleton,
          dir_name_mk] at hm
        exact h1 (Or.inr ((mem_child_names _ _).2 (Or.inl (hm ▸ hx))))
    · intro d hd
      rcases List.mem_append.1 hd with hd | hd
      · exact hk.2 d hd
      · rw [List.mem_singleton.1 hd]
        exact NoShare.mk _ _ _ (by simp) (by simp)

theorem noShareInv_rm (files : Filesystem) (arg : String)
    (h : NoShareInv files) : NoShareInv (rm files arg).2 := by
  have hk := (noShare_iff _).1 h.1
  rw [rm_eq]
  split_ifs
  · exact h
  · exact h
  · exact noShareInv_children files _ _ h
      (fun x hx => hk.1 x (List.mem_of_mem_erase hx)) hk.2
  · refine noShareInv_children files _ _ h ?_
      (fun d hd => hk.2 d (mem_unlink_sub_dir _ _ _ hd))
    intro x hx hm
    obtain ⟨d, hd, e⟩ := List.mem_map.1 hm
    exact hk.1 x hx (List.mem_map.2 ⟨d, mem_unlink_sub_dir _ _ _ hd, e⟩)
  · exact h

theorem noShareInv_re_name (files : Filesystem) (arg1 arg2 : String)
    (h : NoShareInv files) : NoShareInv (re_name files arg1 arg2).2 := by
  have hk := (noShare_iff _).1 h.1
  by_cases h0 : arg1 = "" ∨ arg2 = ""
  · unfold re_name; rw [if_pos h0]; exact h
  · by_cases h1 : (is_special arg1 || is_special arg2) = true
    · unfold re_name; rw [if_neg h0, if_pos h1]; exact h
    · simp only [not_or] at h0
      simp only [Bool.or_eq_true, not_or, Bool.not_eq_true] at h1
      rw [re_name_ordinary files arg1 arg2 h0.1 h0.2 h1.1 h1.2]
      by_cases hx : exist_arg2_of files arg1 arg2 = true ∧ arg1 ≠ arg2
      · rw [if_pos hx]; exact h
      · rw [if_neg hx]
        by_cases hc : arg1 ∉ files.curr_dir.child_names
        · rw [if_pos hc]; exact h
        · rw [if_neg hc]
          by_cases he : arg1 = arg2
          · rw [if_pos he]; exact h
          · rw [if_neg he]
            have hx' : exist_arg2_of files arg1 arg2 = false := by
              rw [← Bool.not_eq_true]
              exact fun e => hx ⟨e, he⟩
            by_cases hf : arg1 ∈ files.curr_dir.file_list
            · rw [if_pos hf]
              have hb := exist_arg2_dirs_seen files arg1 arg2 (hk.1 _ hf) hx'
              refine noShareInv_children files _ _ h ?_ hk.2
              intro x hx
              rcases mem_set_file_name _ _ _ _ hx with e | hx
              · rw [e]; exact hb
              · exact hk.1 x hx
            · rw [if_neg hf]
              have hb := exist_arg2_files_seen files arg1 arg2 hf hx'
              refine noShareInv_children files _ _ h ?_ ?_
              · intro x hx hm
                obtain ⟨d, hd, e⟩ := List.mem_map.1 hm
                rcases mem_set_dir_name _ _ _ _ hd with hd | ⟨t, _, et⟩
                · exact hk.1 x hx (List.mem_map.2 ⟨d, hd, e⟩)
                · rw [et, dir_name_mk] at e
                  exact hb (e ▸ hx)
              · intro d hd
                rcases mem_set_dir_name _ _ _ _ hd with hd | ⟨t, ht, et⟩
                · exact hk.2 d hd
                · have ht' := (noShare_iff _).1 (hk.2 t ht)
                  rw [et]
                  exact NoShare.mk _ _ _ ht'.1 ht'.2

theorem noShareInv_up (files : Filesystem) (h : NoShareInv files) :
    NoShareInv files.up := by
  obtain ⟨d, ps⟩ := files
  cases ps with
  | nil => exact h
  | cons p ps =>
    obtain ⟨hd, hf, hsib, hc⟩ := h
    refine ⟨NoShare.mk _ _ _ ?_ ?_, hc⟩
    · intro x hx hm
      rw [List.map_append, List.map_cons, List.mem_append, List.mem_cons] at hm
      have hx' := hf x hx
      rw [List.map_append, List.mem_append] at hx'
      rcases hm with hm | hm | hm
      · exact hx'.2 (Or.inl hm)
      · exact hx'.1 hm
      · exact hx'.2 (Or.inr hm)
    · intro x hx
      rcases List.mem_append.1 hx with hx | hx
      · exact hsib x (List.mem_append_left _ hx)
      · rcases List.mem_cons.1 hx with e | hx
        · rw [e]; exact hd
        · exact hsib x (List.mem_append_right _ hx)

theorem noShareInv_toRoot :
    ∀ (ps : List Parent) (d : Directory), NoShareInv ⟨d, ps⟩ →
      NoShareInv ⟨toRoot d ps, []⟩
  | [], _, h => h
  | p :: ps, d, h =>
    noShareInv_toRoot ps (p.rebuild d) (noShareInv_up ⟨d, p :: ps⟩ h)

theorem noShareInv_cd (files : Filesystem) (arg : String)
    (h : NoShareInv files) : NoShareInv (cd files arg).2 := by
  have hk := (noShare_iff _).1 h.1
  unfold cd
  split_ifs
  · exact noShareInv_toRoot files.parents files.curr_dir h
  · exact h
  · exact h
  · exact noShareInv_up files h
  · exact h
  · exact h
  · cases hs : files.curr_dir.sub_dir_list with
    | nil => exact h
    | cons d rest =>
      have hap := cd_find_append arg rest [] d
      rw [List.nil_append, ← hs] at hap
      have hnames : ∀ x ∈ files.curr_dir.file_list,
          x ≠ (cd_find arg [] d rest).2.1.dir_name ∧
          x ∉ ((cd_find arg [] d rest).1 ++
            (cd_find arg [] d rest).2.2).map Directory.dir_name := by
        intro x hx
        have hn := hk.1 x hx
        rw [Directory.sub_dir_names, ← hap, List.map_append, List.map_cons,
          List.mem_append, List.mem_cons] at hn
        simp only [not_or] at hn
        refine ⟨hn.2.1, ?_⟩
        rw [List.map_append, List.mem_append]
        rintro (hm | hm)
        · exact hn.1 hm
        · exact hn.2.2 hm
      have hmem : ∀ x, x ∈ (cd_find arg [] d rest).1 ++
          (cd_find arg [] d rest).2.2 → x ∈ files.curr_dir.sub_dir_list := by
        intro x hx
        rw [← hap]
        rcases List.mem_append.1 hx with hx | hx
        · exact List.mem_append_left _ hx
        · exact List.mem_append_right _ (List.mem_cons_of_mem _ hx)
      have ht : (cd_find arg [] d rest).2.1 ∈ files.curr_dir.sub_dir_list := by
        rw [← hap]
        exact List.mem_append_right _ (List.mem_cons_self _ _)
      exact ⟨hk.2 _ ht, hnames, fun x hx => hk.2 x (hmem x hx), h.2⟩

/-- In every reachable file system no directory has a file and a sub
directory of the same name. -/
theorem noShareInv_of_reachable (files : Filesystem) (h : Reachable files) :
    NoShareInv files := by
  induction h with
  | mkfs => exact noShareInv_mkfs
  | step c _ ih =>
    cases c with
    | touch arg => exact noShareInv_touch _ _ ih
    | mkdir arg => exact noShareInv_mkdir _ _ ih
    | cd arg => exact noShareInv_cd _ _ ih
    | rm arg => exact noShareInv_rm _ _ ih
    | re_name arg1 arg2 => exact noShareInv_re_name _ _ _ ih

/-! ## Lines of a listing -/

theorem append_slash_cancel (m n : String) (h : m ++ "/" = n ++ "/") :
    m = n := by
  have hd := congrArg String.data h
  rw [String.data_append, String.data_append] at hd
  exact String.ext (List.append_cancel_right hd)

theorem slash_mem_append_slash (m : String) : '/' ∈ (m ++ "/").data := by
  rw [String.data_append]
  exact List.mem_append_right _ (by decide)

theorem text_lines_break (a rest : List Char) :
    text_lines (a ++ line_break :: rest) =
      text_lines (a ++ [line_break]) ++ text_lines rest ∧
      text_lines (a ++ [line_break]) ≠ [] := by
  induction a with
  | nil => simp [text_lines]
  | cons c a ih =>
    rw [List.cons_append, List.cons_append, text_lines, text_lines]
    by_cases hc : c = line_break
    · rw [if_pos hc, if_pos hc, ih.1]
      simp
    · rw [if_neg hc, if_neg hc, ih.1]
      cases h : text_lines (a ++ [line_break]) with
      | nil => exact absurd h ih.2
      | cons l ls => simp [push_char]

theorem text_lines_no_break (a : List Char) (h : line_break ∉ a) :
    text_lines (a ++ [line_break]) = [a] := by
  induction a with
  | nil => simp [text_lines]
  | cons c a ih =>
    simp only [List.mem_cons, not_or] at h
    have hc : c ≠ line_break := fun e => h.1 e.symm
    rw [List.cons_append, text_lines, if_neg hc, ih h.2]
    rfl

/-- The lines of a listing are the lines of its entries, one entry after
the other. -/
theorem output_lines_cons (e : String) (rest : List String) :
    output_lines (e :: rest) = output_lines [e] ++ output_lines rest := by
  unfold output_lines
  rw [stdout_text, (text_lines_break e.data (stdout_text rest)).1,
    List.map_append]
  rfl

theorem output_lines_single (e : String) (h : line_break ∉ e.data) :
    output_lines [e] = [e] := by
  unfold output_lines
  rw [stdout_text, stdout_text, text_lines_no_break e.data h]
  rfl

/-- Entries without a line break are the lines of the output. -/
theorem output_lines_eq (entries : List String)
    (h : ∀ e ∈ entries, line_break ∉ e.data) :
    output_lines entries = entries := by
  induction entries with
  | nil => rfl
  | cons e rest ih =>
    rw [output_lines_cons, output_lines_single e (h e (List.mem_cons_self _ _)),
      ih (fun x hx => h x (List.mem_cons_of_mem _ hx))]
    rfl

/-- A line of the output is a line of one of the entries. -/
theorem mem_output_lines (entries : List String) (l : String) :
    l ∈ output_lines entries ↔ ∃ e ∈ entries, l ∈ output_lines [e] := by
  induction entries with
  | nil => simp [output_lines, stdout_text, text_lines]
  | cons e rest ih =>
    rw [output_lines_cons, List.mem_append, ih]
    simp

/-- An entry is printed for each child: its name, with `/` behind it when
`is_dir` finds a sub directory of that name. -/
theorem mem_sort_and_print (dir : Directory) (line : String) :
    line ∈ sort_and_print dir ↔
      ∃ m ∈ dir.child_names, line = render_child dir m := by
  have hp := (bubble_sort_spec
    (dir.file_list ++ dir.sub_dir_list.map Directory.dir_name)).2
  unfold sort_and_print
  simp only [List.mem_map]
  constructor
  · rintro ⟨m, hm, e⟩
    refine ⟨m, hp.subset hm, ?_⟩
    rw [← e]
    unfold render_child
    by_cases hd : m ∈ dir.sub_dir_names
    · rw [if_pos hd, if_pos ((is_dir_iff dir m).2 hd)]
    · rw [if_neg hd, if_neg (fun e => hd ((is_dir_iff dir m).1 e))]
  · rintro ⟨m, hm, e⟩
    refine ⟨m, hp.symm.subset hm, ?_⟩
    rw [e]
    unfold render_child
    by_cases hd : m ∈ dir.sub_dir_names
    · rw [if_pos hd, if_pos ((is_dir_iff dir m).2 hd)]
    · rw [if_neg hd, if_neg (fun e => hd ((is_dir_iff dir m).1 e))]

/-- The lines `ls .` prints when no file of the current directory has the
name of a sub directory: the file names, and the sub directory names with
`/` behind them. -/
theorem mem_ls_dot (files : Filesystem) (line : String)
    (hdis : ∀ x ∈ files.curr_dir.file_list,
      x ∉ files.curr_dir.sub_dir_names) :
    line ∈ (ls files ".").2 ↔
      line ∈ files.curr_dir.file_list ∨
        ∃ m ∈ files.curr_dir.sub_dir_names, line = m ++ "/" := by
  have e : ls files "." = (0, sort_and_print files.curr_dir) := by
    simp [ls, strcmp_eq_zero_iff]
  rw [e]
  simp only
  rw [mem_sort_and_print]
  constructor
  · rintro ⟨m, hm, e⟩
    rcases (mem_child_names _ _).1 hm with hf | hd
    · left
      rw [e, render_child, if_neg (hdis m hf)]
      exact hf
    · right
      exact ⟨m, hd, by rw [e, render_child, if_pos hd]⟩
  · rintro (hf | ⟨m, hd, e⟩)
    · exact ⟨line, (mem_child_names _ _).2 (Or.inl hf),
        by rw [render_child, if_neg (hdis line hf)]⟩
    · exact ⟨m, (mem_child_names _ _).2 (Or.inr hd),
        by rw [e, render_child, if_pos hd]⟩

/-- How a name that names no child can still be among the lines of `ls .`:
as the line of a sub directory, or with `/` behind it as the name of a
file. -/
theorem lines_of_absent_name (files : Filesystem) (n : String)
    (hdis : ∀ x ∈ files.curr_dir.file_list,
      x ∉ files.curr_dir.sub_dir_names)
    (hn : n ∉ files.curr_dir.child_names) :
    (n ∈ (ls files ".").2 ↔
        ∃ m ∈ files.curr_dir.sub_dir_names, m ++ "/" = n) ∧
      (n ++ "/" ∈ (ls files ".").2 ↔
        n ++ "/" ∈ files.curr_dir.file_list) := by
  rw [mem_child_names] at hn
  simp only [not_or] at hn
  rw [mem_ls_dot files n hdis, mem_ls_dot files (n ++ "/") hdis]
  constructor
  · constructor
    · rintro (h | ⟨m, hm, e⟩)
      · exact absurd h hn.1
      · exact ⟨m, hm, e.symm⟩
    · rintro ⟨m, hm, e⟩
      exact Or.inr ⟨m, hm, e.symm⟩
  · constructor
    · rintro (h | ⟨m, hm, e⟩)
      · exact h
      · exact absurd (append_slash_cancel _ _ e ▸ hm) hn.2
    · exact Or.inl

/-- With no `/` inside the names, a name that names no child is not among
the lines of `ls .`, with or without `/` behind it. -/
theorem no_line_of_absent_name (files : Filesystem) (n : String)
    (hdis : ∀ x ∈ files.curr_dir.file_list,
      x ∉ files.curr_dir.sub_dir_names)
    (hn : n ∉ files.curr_dir.child_names) (hs : '/' ∉ n.data)
    (hfs : ∀ m ∈ files.curr_dir.file_list, '/' ∉ m.data) :
    n ∉ (ls files ".").2 ∧ n ++ "/" ∉ (ls files ".").2 := by
  obtain ⟨h1, h2⟩ := lines_of_absent_name files n hdis hn
  rw [h1, h2]
  constructor
  · rintro ⟨m, _, e⟩
    exact hs (e ▸ slash_mem_append_slash m)
  · intro h
    exact hfs _ h (slash_mem_append_slash n)

/-- The entries of `ls .` hold no line break when no child name does. -/
theorem ls_dot_no_break (files : Filesystem)
    (h : ∀ m ∈ files.curr_dir.child_names, line_break ∉ m.data) :
    ∀ e ∈ (ls files ".").2, line_break ∉ e.data := by
  intro e he
  have e0 : ls files "." = (0, sort_and_print files.curr_dir) := by
    simp [ls, strcmp_eq_zero_iff]
  rw [e0] at he
  obtain ⟨m, hm, e1⟩ := (mem_sort_and_print _ _).1 he
  rw [e1]
  unfold render_child
  by_cases hd : m ∈ files.curr_dir.sub_dir_names
  · rw [if_pos hd, String.data_append, List.mem_append, not_or]
    exact ⟨h m hm, by decide⟩
  · rw [if_neg hd]
    exact h m hm

/-- The lines `ls .` shows are the lines of the entries of the children of
the current directory. -/
theorem output_lines_ls_dot (files : Filesystem) (l : String) :
    l ∈ output_lines (ls files ".").2 ↔
      ∃ m ∈ files.curr_dir.child_names,
        l ∈ output_lines [render_child files.curr_dir m] := by
  have e0 : ls files "." = (0, sort_and_print files.curr_dir) := by
    simp [ls, strcmp_eq_zero_iff]
  rw [e0, mem_output_lines]
  constructor
  · rintro ⟨e, he, hl⟩
    obtain ⟨m, hm, e1⟩ := (mem_sort_and_print _ _).1 he
    exact ⟨m, hm, e1 ▸ hl⟩
  · rintro ⟨m, hm, hl⟩
    exact ⟨_, (mem_sort_and_print _ _).2 ⟨m, hm, rfl⟩, hl⟩

/-- An entry without a line break is a line of the output. -/
theorem entry_is_line (entries : List String) (e : String)
    (he : e ∈ entries) (hb : line_break ∉ e.data) :
    e ∈ output_lines entries := by
  rw [mem_output_lines]
  exact ⟨e, he, by rw [output_lines_single e hb]; exact List.mem_singleton_self e⟩

/-- With no `/` and no line break inside the names, a name that names no
child is not among the lines `ls .` shows, with or without `/` behind it. -/
theorem no_output_line_of_absent_name (files : Filesystem) (n : String)
    (hdis : ∀ x ∈ files.curr_dir.file_list,
      x ∉ files.curr_dir.sub_dir_names)
    (hn : n ∉ files.curr_dir.child_names) (hs : '/' ∉ n.data)
    (hfs : ∀ m ∈ files.curr_dir.file_list, '/' ∉ m.data)
    (hbr : ∀ m ∈ files.curr_dir.child_names, line_break ∉ m.data) :
    n ∉ output_lines (ls files ".").2 ∧
      n ++ "/" ∉ output_lines (ls files ".").2 := by
  rw [output_lines_eq _ (ls_dot_no_break files hbr)]
  exact no_line_of_absent_name files n hdis hn hs hfs

/-- What a successful `rm` tells about its argument. -/
theorem rm_success (files : Filesystem) (n : String)
    (h : (rm files n).1 = 0) :
    n ≠ "" ∧ ¬ (n = "." ∨ n = ".." ∨ n = "/") ∧
      (n ∈ files.curr_dir.file_list ∨ n ∈ files.curr_dir.sub_dir_names) := by
  rw [rm_eq] at h
  by_cases h0 : n = ""
  · rw [if_pos h0] at h; simp at h
  · rw [if_neg h0] at h
    by_cases h1 : n = "." ∨ n = ".." ∨ n = "/"
    · rw [if_pos h1] at h; simp at h
    · rw [if_neg h1] at h
      by_cases h2 : n ∈ files.curr_dir.file_list
      · exact ⟨h0, h1, Or.inl h2⟩
      · rw [if_neg h2] at h
        by_cases h3 : n ∈ files.curr_dir.sub_dir_names
        · exact ⟨h0, h1, Or.inr h3⟩
        · rw [if_neg h3] at h; simp at h

/-- What a successful `re_name` tells about its arguments and its effect. -/
theorem re_name_success (files : Filesystem) (a b : String)
    (h : (re_name files a b).1 = 0) :
    (a ≠ "" ∧ b ≠ "" ∧ is_special a = false ∧ is_special b = false) ∧
      exist_arg2_of files a b = false ∧ a ∈ files.curr_dir.child_names ∧
      a ≠ b ∧
      re_name files a b =
        if a ∈ files.curr_dir.file_list then
          (0, ⟨.mk files.curr_dir.dir_name
                (set_file_name a b files.curr_dir.file_list)
                files.curr_dir.sub_dir_list, files.parents⟩)
        else
          (0, ⟨.mk files.curr_dir.dir_name files.curr_dir.file_list
                (set_dir_name a b files.curr_dir.sub_dir_list),
              files.parents⟩) := by
  by_cases h0 : a = "" ∨ b = ""
  · unfold re_name at h; rw [if_pos h0] at h; simp at h
  · by_cases h1 : (is_special a || is_special b) = true
    · unfold re_name at h
      rw [if_neg h0, if_pos h1] at h
      simp at h
    · simp only [not_or] at h0
      simp only [Bool.or_eq_true, not_or, Bool.not_eq_true] at h1
      have ho := re_name_ordinary files a b h0.1 h0.2 h1.1 h1.2
      rw [ho] at h ⊢
      by_cases hx : exist_arg2_of files a b = true ∧ a ≠ b
      · rw [if_pos hx] at h; simp at h
      · rw [if_neg hx] at h ⊢
        by_cases hc : a ∉ files.curr_dir.child_names
        · rw [if_pos hc] at h; simp at h
        · rw [if_neg hc] at h ⊢
          by_cases he : a = b
          · rw [if_pos he] at h; simp at h
          · rw [if_neg he]
            refine ⟨⟨h0.1, h0.2, h1.1, h1.2⟩, ?_, not_not.1 hc, he, rfl⟩
            rw [← Bool.not_eq_true]
            exact fun e => hx ⟨e, he⟩

/-! ## Claims about the effect of `rm` and `re_name` -/

/-- After a name has been taken out of a directory with distinct child
names: `cd` does not find it, the entries of `ls .` that look like it belong
to other children, and no line of the output is the name when the names hold
no `/` and no line break. -/
theorem removal_consequences (files after : Filesystem) (n : String)
    (hnd : files.curr_dir.child_names.Nodup)
    (h0 : n ≠ "") (h1 : ¬ (n = "." ∨ n = ".." ∨ n = "/"))
    (hF : ∀ x ∈ after.curr_dir.file_list, x ∈ files.curr_dir.file_list)
    (hD : ∀ x ∈ after.curr_dir.sub_dir_names,
      x ∈ files.curr_dir.sub_dir_names)
    (hn : n ∉ after.curr_dir.child_names) :
    cd after n = (-1, after) ∧
    (n ∈ (ls after ".").2 ↔
      ∃ m ∈ after.curr_dir.sub_dir_names, m ++ "/" = n) ∧
    (n ++ "/" ∈ (ls after ".").2 ↔
      n ++ "/" ∈ after.curr_dir.file_list) ∧
    ((∀ m ∈ files.curr_dir.child_names, '/' ∉ m.data) → '/' ∉ n.data →
      n ∉ (ls after ".").2 ∧ n ++ "/" ∉ (ls after ".").2) ∧
    ((∀ m ∈ files.curr_dir.child_names,
        '/' ∉ m.data ∧ line_break ∉ m.data) → '/' ∉ n.data →
      n ∉ output_lines (ls after ".").2 ∧
        n ++ "/" ∉ output_lines (ls after ".").2) := by
  have hdisj := (List.nodup_append.1 hnd).2.2
  have hdis : ∀ x ∈ after.curr_dir.file_list,
      x ∉ after.curr_dir.sub_dir_names :=
    fun x hx hm => hdisj (hF x hx) (hD x hm)
  have hn' := hn
  rw [mem_child_names] at hn'
  simp only [not_or] at hn'
  simp only [not_or] at h1
  obtain ⟨l1, l2⟩ := lines_of_absent_name after n hdis hn
  refine ⟨cd_absent after n h1.2.2 h1.1 h0 h1.2.1 hn'.1 hn'.2, l1, l2, ?_, ?_⟩
  · intro hs hsn
    exact no_line_of_absent_name after n hdis hn hsn
      (fun m hm => hs m ((mem_child_names _ _).2 (Or.inl (hF m hm))))
  · intro hs hsn
    refine no_output_line_of_absent_name after n hdis hn hsn
      (fun m hm => (hs m ((mem_child_names _ _).2 (Or.inl (hF m hm)))).1) ?_
    intro m hm
    rcases (mem_child_names _ _).1 hm with hm | hm
    · exact (hs m ((mem_child_names _ _).2 (Or.inl (hF m hm)))).2
    · exact (hs m ((mem_child_names _ _).2 (Or.inr (hD m hm)))).2

/-- C14 (amended): a successful `rm` in a directory with distinct child
names.  Afterwards no file and no sub directory of the current directory
has the name, and `cd` to it returns -1.  The listing has no entry for the
name: among the entries of `ls .` (one for each call of `printf`) the name
occurs only as the entry of a remaining sub directory (whose name with `/`
behind it is the name) and the name with `/` behind it only as the name of
a remaining file.  The lines the output shows are the lines of the entries
of the remaining children, and none of them is the name, with or without
`/` behind it, when no child name contains `/` or a line break.  If the
name was that of a file, only that file is gone; if not, the sub directory
of that name is gone with everything in it, and every other child is still
there, in the same order and unchanged. -/
theorem rm_removes (files : Filesystem) (n : String)
    (hnd : files.curr_dir.child_names.Nodup) (hs : (rm files n).1 = 0) :
    n ∉ (rm files n).2.curr_dir.child_names ∧
    cd (rm files n).2 n = (-1, (rm files n).2) ∧
    (n ∈ (ls (rm files n).2 ".").2 ↔
      ∃ m ∈ (rm files n).2.curr_dir.sub_dir_names, m ++ "/" = n) ∧
    (n ++ "/" ∈ (ls (rm files n).2 ".").2 ↔
      n ++ "/" ∈ (rm files n).2.curr_dir.file_list) ∧
    ((∀ m ∈ files.curr_dir.child_names, '/' ∉ m.data) →
      n ∉ (ls (rm files n).2 ".").2 ∧
        n ++ "/" ∉ (ls (rm files n).2 ".").2) ∧
    (∀ l, l ∈ output_lines (ls (rm files n).2 ".").2 ↔
      ∃ m ∈ (rm files n).2.curr_dir.child_names,
        l ∈ output_lines [render_child (rm files n).2.curr_dir m]) ∧
    ((∀ m ∈ files.curr_dir.child_names,
        '/' ∉ m.data ∧ line_break ∉ m.data) →
      n ∉ output_lines (ls (rm files n).2 ".").2 ∧
        n ++ "/" ∉ output_lines (ls (rm files n).2 ".").2) ∧
    (n ∈ files.curr_dir.file_list →
      (rm files n).2 =
        ⟨.mk files.curr_dir.dir_name (files.curr_dir.file_list.erase n)
          files.curr_dir.sub_dir_list, files.parents⟩) ∧
    (n ∉ files.curr_dir.file_list →
      ∃ pre t post, files.curr_dir.sub_dir_list = pre ++ t :: post ∧
        t.dir_name = n ∧
        (rm files n).2 =
          ⟨.mk files.curr_dir.dir_name files.curr_dir.file_list
            (pre ++ post), files.parents⟩) := by
  obtain ⟨h0, h1, hin⟩ := rm_success files n hs
  obtain ⟨hndf, hndd, hdisj⟩ := List.nodup_append.1 hnd
  have hinc : n ∈ files.curr_dir.child_names := (mem_child_names _ _).2 hin
  by_cases hf : n ∈ files.curr_dir.file_list
  · have hrm : rm files n =
        (0, ⟨.mk files.curr_dir.dir_name (files.curr_dir.file_list.erase n)
          files.curr_dir.sub_dir_list, files.parents⟩) := by
      rw [rm_eq, if_neg h0, if_neg h1, if_pos hf]
    rw [hrm]
    have hn : n ∉ (Directory.mk files.curr_dir.dir_name
        (files.curr_dir.file_list.erase n)
        files.curr_dir.sub_dir_list).child_names := by
      rw [mem_child_names]
      rintro (h | h)
      · exact hndf.not_mem_erase h
      · exact hdisj hf h
    obtain ⟨c1, c2, c3, c4, c5⟩ := removal_consequences files
      ⟨.mk files.curr_dir.dir_name (files.curr_dir.file_list.erase n)
        files.curr_dir.sub_dir_list, files.parents⟩ n hnd h0 h1
      (fun x hx => List.mem_of_mem_erase hx) (fun x hx => hx) hn
    exact ⟨hn, c1, c2, c3, fun hsl => c4 hsl (hsl n hinc),
      output_lines_ls_dot _, fun hsl => c5 hsl (hsl n hinc).1, fun _ => rfl,
      fun h => absurd hf h⟩
  · have hd : n ∈ files.curr_dir.sub_dir_names := hin.resolve_left hf
    obtain ⟨pre, t, post, e1, e2, e3, e4⟩ :=
      unlink_sub_dir_eq n files.curr_dir.sub_dir_list hd
    have hrm : rm files n =
        (0, ⟨.mk files.curr_dir.dir_name files.curr_dir.file_list
          (pre ++ post), files.parents⟩) := by
      rw [rm_eq, if_neg h0, if_neg h1, if_neg hf, if_pos hd, e4]
    rw [hrm]
    have hnames : files.curr_dir.sub_dir_names =
        pre.map Directory.dir_name ++ n :: post.map Directory.dir_name := by
      rw [Directory.sub_dir_names, e1, List.map_append, List.map_cons, e2]
    have hpost : n ∉ post.map Directory.dir_name := by
      rw [hnames] at hndd
      exact (List.nodup_cons.1 (List.nodup_append.1 hndd).2.1).1
    have hpre : n ∉ pre.map Directory.dir_name := by
      intro hm
      obtain ⟨x, hx, e⟩ := List.mem_map.1 hm
      exact e3 x hx e
    have hn : n ∉ (Directory.mk files.curr_dir.dir_name
        files.curr_dir.file_list (pre ++ post)).child_names := by
      rw [mem_child_names]
      rintro (h | h)
      · exact hf h
      · rw [sub_dir_names_mk, List.map_append, List.mem_append] at h
        rcases h with h | h
        · exact hpre h
        · exact hpost h
    obtain ⟨c1, c2, c3, c4, c5⟩ := removal_consequences files
      ⟨.mk files.curr_dir.dir_name files.curr_dir.file_list (pre ++ post),
        files.parents⟩ n hnd h0 h1 (fun x hx => hx)
      (by
        intro x hx
        rw [sub_dir_names_mk, List.map_append, List.mem_append] at hx
        rw [hnames]
        rcases hx with hx | hx
        · exact List.mem_append_left _ hx
        · exact List.mem_append_right _ (List.mem_cons_of_mem _ hx)) hn
    exact ⟨hn, c1, c2, c3, fun hsl => c4 hsl (hsl n hinc),
      output_lines_ls_dot _, fun hsl => c5 hsl (hsl n hinc).1,
      fun h => absurd h hf, fun _ => ⟨pre, t, post, e1, e2, rfl⟩⟩

/-- Witness of C14: `rm f` after `touch f` and `mkdir d` from `mkfs`; the
output of `ls .` is then the one line `d/`. -/
theorem rm_removes_witness :
    (mkdir (touch mkfs "f").2 "d").2.curr_dir.child_names.Nodup ∧
      (rm (mkdir (touch mkfs "f").2 "d").2 "f").1 = 0 ∧
      "f" ∉ (rm (mkdir (touch mkfs "f").2 "d").2 "f").2.curr_dir.child_names ∧
      cd (rm (mkdir (touch mkfs "f").2 "d").2 "f").2 "f"
        = (-1, (rm (mkdir (touch mkfs "f").2 "d").2 "f").2) ∧
      ("f" ∉ output_lines (ls (rm (mkdir (touch mkfs "f").2 "d").2 "f").2 ".").2 ∧
        "f" ++ "/" ∉
          output_lines (ls (rm (mkdir (touch mkfs "f").2 "d").2 "f").2 ".").2) ∧
      output_lines (ls (rm (mkdir (touch mkfs "f").2 "d").2 "f").2 ".").2
        = ["d/"] :=
  ⟨by decide, by decide,
    (rm_removes (mkdir (touch mkfs "f").2 "d").2 "f" (by decide)
      (by decide)).1,
    (rm_removes (mkdir (touch mkfs "f").2 "d").2 "f" (by decide)
      (by decide)).2.1,
    (rm_removes (mkdir (touch mkfs "f").2 "d").2 "f" (by decide)
      (by decide)).2.2.2.2.2.2.1 (by decide),
    by decide⟩

/-- C14 as stated fails: with a sub directory `a` and a file `a/` (distinct
names), `rm` of the file `a/` returns 0 and `ls .` still prints the entry
`a/`, the entry of the sub directory `a`; it is the one line of the
output. -/
theorem rm_listing_counterexample :
    (touch (mkdir mkfs "a").2 "a/").2.curr_dir.child_names.Nodup ∧
      (rm (touch (mkdir mkfs "a").2 "a/").2 "a/").1 = 0 ∧
      "a/" ∈ (ls (rm (touch (mkdir mkfs "a").2 "a/").2 "a/").2 ".").2 ∧
      output_lines (ls (rm (touch (mkdir mkfs "a").2 "a/").2 "a/").2 ".").2
        = ["a/"] :=
  ⟨by decide, by decide, by decide, by decide⟩

/-- A name may hold a line break: with the files `b` and `a`, line break,
`b` (distinct names without `/`), `rm b` returns 0, no child is named `b`
and no entry of `ls .` is `b`, and the output still shows the line `b`. -/
theorem rm_line_break_example :
    (touch (touch mkfs "b").2 (String.mk ['a', line_break, 'b'])
      ).2.curr_dir.child_names.Nodup ∧
      (rm (touch (touch mkfs "b").2 (String.mk ['a', line_break, 'b'])).2
        "b").1 = 0 ∧
      "b" ∉ (ls (rm (touch (touch mkfs "b").2
        (String.mk ['a', line_break, 'b'])).2 "b").2 ".").2 ∧
      output_lines (ls (rm (touch (touch mkfs "b").2
        (String.mk ['a', line_break, 'b'])).2 "b").2 ".").2 = ["a", "b"] :=
  ⟨by decide, by decide, by decide, by decide⟩

/-- C15 (amended): a successful `re_name`.  The entry it matches, the first
file named `old` or, when no file has that name, the first sub directory
named `old`, keeps its place in its list and is now named `new`; a
directory keeps its files and sub directories, and its place under the
current directory; everything else, the ancestors and the position of the
current directory included, is unchanged.  When the child names were
distinct before, `ls .` afterwards prints the entry of `new` (the name for a
file, the name with `/` behind it for a directory), which is a line of the
output when `new` holds no line break; no child is named `old`; among the
entries (one for each call of `printf`) `old` occurs only as the entry of
another sub directory and `old` with `/` behind it only as the name of
another file; and no line of the output is `old`, with or without `/`
behind it, when no `/` and no line break occur in the child names and in
`new`. -/
theorem re_name_renames (files : Filesystem) (old new : String)
    (hs : (re_name files old new).1 = 0) :
    (old ∈ files.curr_dir.file_list →
      ∃ pre post, files.curr_dir.file_list = pre ++ old :: post ∧
        old ∉ pre ∧
        (re_name files old new).2 =
          ⟨.mk files.curr_dir.dir_name (pre ++ new :: post)
            files.curr_dir.sub_dir_list, files.parents⟩) ∧
    (old ∉ files.curr_dir.file_list →
      ∃ pre t post, files.curr_dir.sub_dir_list = pre ++ t :: post ∧
        t.dir_name = old ∧ (∀ x ∈ pre, x.dir_name ≠ old) ∧
        (re_name files old new).2 =
          ⟨.mk files.curr_dir.dir_name files.curr_dir.file_list
            (pre ++ Directory.mk new t.file_list t.sub_dir_list :: post),
            files.parents⟩) ∧
    (files.curr_dir.child_names.Nodup →
      (old ∈ files.curr_dir.file_list →
        new ∈ (ls (re_name files old new).2 ".").2) ∧
      (old ∉ files.curr_dir.file_list →
        new ++ "/" ∈ (ls (re_name files old new).2 ".").2) ∧
      old ∉ (re_name files old new).2.curr_dir.child_names ∧
      (old ∈ (ls (re_name files old new).2 ".").2 ↔
        ∃ m ∈ (re_name files old new).2.curr_dir.sub_dir_names,
          m ++ "/" = old) ∧
      (old ++ "/" ∈ (ls (re_name files old new).2 ".").2 ↔
        old ++ "/" ∈ (re_name files old new).2.curr_dir.file_list) ∧
      ((∀ m ∈ files.curr_dir.child_names, '/' ∉ m.data) → '/' ∉ new.data →
        old ∉ (ls (re_name files old new).2 ".").2 ∧
          old ++ "/" ∉ (ls (re_name files old new).2 ".").2) ∧
      (line_break ∉ new.data →
        (old ∈ files.curr_dir.file_list →
          new ∈ output_lines (ls (re_name files old new).2 ".").2) ∧
        (old ∉ files.curr_dir.file_list →
          new ++ "/" ∈ output_lines (ls (re_name files old new).2 ".").2)) ∧
      ((∀ m ∈ files.curr_dir.child_names,
          '/' ∉ m.data ∧ line_break ∉ m.data) →
        '/' ∉ new.data → line_break ∉ new.data →
        old ∉ output_lines (ls (re_name files old new).2 ".").2 ∧
          old ++ "/" ∉ output_lines (ls (re_name files old new).2 ".").2)) := by
  obtain ⟨_, hx, hin, hne, heq⟩ := re_name_success files old new hs
  by_cases hf : old ∈ files.curr_dir.file_list
  · obtain ⟨pre, post, e1, e2, e3⟩ :=
      set_file_name_eq old new files.curr_dir.file_list hf
    have hrn : re_name files old new =
        (0, ⟨.mk files.curr_dir.dir_name (pre ++ new :: post)
          files.curr_dir.sub_dir_list, files.parents⟩) := by
      rw [heq, if_pos hf, e3]
    rw [hrn]
    refine ⟨fun _ => ⟨pre, post, e1, e2, rfl⟩, fun h => absurd hf h, ?_⟩
    intro hnd
    obtain ⟨hndf, _, hdisj⟩ := List.nodup_append.1 hnd
    have hod : old ∉ files.curr_dir.sub_dir_names := fun h => hdisj hf h
    have hnew := exist_arg2_dirs_seen files old new hod hx
    have hpost : old ∉ post := by
      rw [e1] at hndf
      exact (List.nodup_cons.1 (List.nodup_append.1 hndf).2.1).1
    have hsub : ∀ x, x ∈ pre ∨ x ∈ post → x ∈ files.curr_dir.file_list := by
      intro x hx
      rw [e1]
      rcases hx with hx | hx
      · exact List.mem_append_left _ hx
      · exact List.mem_append_right _ (List.mem_cons_of_mem _ hx)
    have hmem : ∀ x, x ∈ pre ++ new :: post → x = new ∨ (x ∈ pre ∨ x ∈ post) := by
      intro x hx
      rcases List.mem_append.1 hx with hx | hx
      · exact Or.inr (Or.inl hx)
      · rcases List.mem_cons.1 hx with hx | hx
        · exact Or.inl hx
        · exact Or.inr (Or.inr hx)
    have hdis : ∀ x ∈ (Directory.mk files.curr_dir.dir_name
          (pre ++ new :: post) files.curr_dir.sub_dir_list).file_list,
        x ∉ (Directory.mk files.curr_dir.dir_name (pre ++ new :: post)
          files.curr_dir.sub_dir_list).sub_dir_names := by
      intro x hx
      rcases hmem x hx with e | hx
      · rw [e]; exact hnew
      · exact fun hm => hdisj (hsub x hx) hm
    have hold : old ∉ (Directory.mk files.curr_dir.dir_name
        (pre ++ new :: post) files.curr_dir.sub_dir_list).child_names := by
      rw [mem_child_names]
      rintro (h | h)
      · rcases hmem old h with e | h | h
        · exact hne e
        · exact e2 h
        · exact hpost h
      · exact hod h
    obtain ⟨l1, l2⟩ := lines_of_absent_name
      ⟨.mk files.curr_dir.dir_name (pre ++ new :: post)
        files.curr_dir.sub_dir_list, files.parents⟩ old hdis hold
    have hentry : new ∈ (ls (Filesystem.mk (.mk files.curr_dir.dir_name
        (pre ++ new :: post) files.curr_dir.sub_dir_list) files.parents)
        ".").2 := (mem_ls_dot _ new hdis).2 (Or.inl (by simp))
    refine ⟨fun _ => hentry, fun h => absurd hf h, hold, l1, l2, ?_, ?_, ?_⟩
    · intro hsl hsn
      refine no_line_of_absent_name _ old hdis hold (hsl old hin) ?_
      intro m hm
      rcases hmem m hm with e | hm
      · rw [e]; exact hsn
      · exact hsl m ((mem_child_names _ _).2 (Or.inl (hsub m hm)))
    · intro hb
      exact ⟨fun _ => entry_is_line _ new hentry hb, fun h => absurd hf h⟩
    · intro hsl hsn hb
      refine no_output_line_of_absent_name _ old hdis hold (hsl old hin).1
        ?_ ?_
      · intro m hm
        rcases hmem m hm with e | hm
        · rw [e]; exact hsn
        · exact (hsl m ((mem_child_names _ _).2 (Or.inl (hsub m hm)))).1
      · intro m hm
        rcases (mem_child_names _ _).1 hm with hm | hm
        · rcases hmem m hm with e | hm
          · rw [e]; exact hb
          · exact (hsl m ((mem_child_names _ _).2 (Or.inl (hsub m hm)))).2
        · exact (hsl m ((mem_child_names _ _).2 (Or.inr hm))).2
  · have hd : old ∈ files.curr_dir.sub_dir_list.map Directory.dir_name :=
      ((mem_child_names _ _).1 hin).resolve_left hf
    obtain ⟨pre, t, post, e1, e2, e3, e4⟩ :=
      set_dir_name_eq old new files.curr_dir.sub_dir_list hd
    have hrn : re_name files old new =
        (0, ⟨.mk files.curr_dir.dir_name files.curr_dir.file_list
          (pre ++ Directory.mk new t.file_list t.sub_dir_list :: post),
          files.parents⟩) := by
      rw [heq, if_neg hf, e4]
    rw [hrn]
    refine ⟨fun h => absurd h hf, fun _ => ⟨pre, t, post, e1, e2, e3, rfl⟩, ?_⟩
    intro hnd
    obtain ⟨_, hndd, hdisj⟩ := List.nodup_append.1 hnd
    have hnew := exist_arg2_files_seen files old new hf hx
    have hnames : files.curr_dir.sub_dir_names =
        pre.map Directory.dir_name ++ old :: post.map Directory.dir_name := by
      rw [Directory.sub_dir_names, e1, List.map_append, List.map_cons, e2]
    have hnames' : (Directory.mk files.curr_dir.dir_name
          files.curr_dir.file_list
          (pre ++ Directory.mk new t.file_list t.sub_dir_list :: post)
          ).sub_dir_names =
        pre.map Directory.dir_name ++ new :: post.map Directory.dir_name := by
      rw [sub_dir_names_mk, List.map_append, List.map_cons, dir_name_mk]
    have hpost : old ∉ post.map Directory.dir_name := by
      rw [hnames] at hndd
      exact (List.nodup_cons.1 (List.nodup_append.1 hndd).2.1).1
    have hpre : old ∉ pre.map Directory.dir_name := by
      intro hm
      obtain ⟨x, hx, e⟩ := List.mem_map.1 hm
      exact e3 x hx e
    have hdis : ∀ x ∈ (Directory.mk files.curr_dir.dir_name
          files.curr_dir.file_list
          (pre ++ Directory.mk new t.file_list t.sub_dir_list :: post)
          ).file_list,
        x ∉ (Directory.mk files.curr_dir.dir_name files.curr_dir.file_list
          (pre ++ Directory.mk new t.file_list t.sub_dir_list :: post)
          ).sub_dir_names := by
      intro x hx hm
      rw [hnames', List.mem_append, List.mem_cons] at hm
      rw [file_list_mk] at hx
      have hxs : x ∉ files.curr_dir.sub_dir_names := fun h => hdisj hx h
      rw [hnames, List.mem_append, List.mem_cons] at hxs
      simp only [not_or] at hxs
      rcases hm with hm | hm | hm
      · exact hxs.1 hm
      · exact hnew (hm ▸ hx)
      · exact hxs.2.2 hm
    have hold : old ∉ (Directory.mk files.curr_dir.dir_name
        files.curr_dir.file_list
        (pre ++ Directory.mk new t.file_list t.sub_dir_list :: post)
        ).child_names := by
      rw [mem_child_names, hnames', List.mem_append, List.mem_cons]
      rintro (h | h | h | h)
      · exact hf h
      · exact hpre h
      · exact hne h
      · exact hpost h
    obtain ⟨l1, l2⟩ := lines_of_absent_name
      ⟨.mk files.curr_dir.dir_name files.curr_dir.file_list
        (pre ++ Directory.mk new t.file_list t.sub_dir_list :: post),
        files.parents⟩ old hdis hold
    have hentry : new ++ "/" ∈ (ls (Filesystem.mk
        (.mk files.curr_dir.dir_name files.curr_dir.file_list
          (pre ++ Directory.mk new t.file_list t.sub_dir_list :: post))
        files.parents) ".").2 := by
      refine (mem_ls_dot _ (new ++ "/") hdis).2 (Or.inr ⟨new, ?_, rfl⟩)
      show new ∈ (Directory.mk files.curr_dir.dir_name
        files.curr_dir.file_list
        (pre ++ Directory.mk new t.file_list t.sub_dir_list :: post)
        ).sub_dir_names
      rw [hnames']
      simp
    refine ⟨fun h => absurd h hf, fun _ => hentry, hold, l1, l2, ?_, ?_, ?_⟩
    · intro hsl _
      exact no_line_of_absent_name _ old hdis hold (hsl old hin)
        (fun m hm => hsl m ((mem_child_names _ _).2 (Or.inl hm)))
    · intro hb
      refine ⟨fun h => absurd h hf, fun _ => entry_is_line _ _ hentry ?_⟩
      rw [String.data_append, List.mem_append, not_or]
      exact ⟨hb, by decide⟩
    · intro hsl _ hb
      refine no_output_line_of_absent_name _ old hdis hold (hsl old hin).1
        (fun m hm => (hsl m ((mem_child_names _ _).2 (Or.inl hm))).1) ?_
      intro m hm
      rcases (mem_child_names _ _).1 hm with hm | hm
      · exact (hsl m ((mem_child_names _ _).2 (Or.inl hm))).2
      · rw [hnames', List.mem_append, List.mem_cons] at hm
        rcases hm with hm | hm | hm
        · have hin' : m ∈ files.curr_dir.sub_dir_names := by
            rw [hnames]
            exact List.mem_append_left _ hm
          exact (hsl m ((mem_child_names _ _).2 (Or.inr hin'))).2
        · rw [hm]; exact hb
        · have hin' : m ∈ files.curr_dir.sub_dir_names := by
            rw [hnames]
            exact List.mem_append_right _ (List.mem_cons_of_mem _ hm)
          exact (hsl m ((mem_child_names _ _).2 (Or.inr hin'))).2

/-- Witness of C15: `re_name f g` after `touch f` from `mkfs`; the output
of `ls .` is then the one line `g`. -/
theorem re_name_renames_witness :
    (re_name (touch mkfs "f").2 "f" "g").1 = 0 ∧
      (touch mkfs "f").2.curr_dir.child_names.Nodup ∧
      "g" ∈ (ls (re_name (touch mkfs "f").2 "f" "g").2 ".").2 ∧
      "f" ∉ (re_name (touch mkfs "f").2 "f" "g").2.curr_dir.child_names ∧
      ("f" ∉ output_lines (ls (re_name (touch mkfs "f").2 "f" "g").2 ".").2 ∧
        "f" ++ "/" ∉
          output_lines (ls (re_name (touch mkfs "f").2 "f" "g").2 ".").2) ∧
      output_lines (ls (re_name (touch mkfs "f").2 "f" "g").2 ".").2 = ["g"] :=
  ⟨by decide, by decide,
    ((re_name_renames (touch mkfs "f").2 "f" "g" (by decide)).2.2
      (by decide)).1 (by decide),
    ((re_name_renames (touch mkfs "f").2 "f" "g" (by decide)).2.2
      (by decide)).2.2.1,
    ((re_name_renames (touch mkfs "f").2 "f" "g" (by decide)).2.2
      (by decide)).2.2.2.2.2.2.2 (by decide) (by decide) (by decide),
    by decide⟩

/-- C15 as stated fails: with a sub directory `a` and a file `a/` (distinct
names), `re_name` of the file `a/` to `b` returns 0 and `ls .` still prints
the entry `a/`, the entry of the sub directory `a`; the output shows the
lines `a/` and `b`. -/
theorem re_name_listing_counterexample :
    (touch (mkdir mkfs "a").2 "a/").2.curr_dir.child_names.Nodup ∧
      (re_name (touch (mkdir mkfs "a").2 "a/").2 "a/" "b").1 = 0 ∧
      "a/" ∈
        (ls (re_name (touch (mkdir mkfs "a").2 "a/").2 "a/" "b").2 ".").2 ∧
      output_lines
          (ls (re_name (touch (mkdir mkfs "a").2 "a/").2 "a/" "b").2 ".").2
        = ["a/", "b"] :=
  ⟨by decide, by decide, by decide, by decide⟩

/-- A name may hold a line break: with the files `b` and `a`, line break,
`b` (distinct names without `/`), `re_name b c` returns 0, no child is named
`b` and no entry of `ls .` is `b`, and the output still shows the line
`b`. -/
theorem re_name_line_break_example :
    (touch (touch mkfs "b").2 (String.mk ['a', line_break, 'b'])
      ).2.curr_dir.child_names.Nodup ∧
      (re_name (touch (touch mkfs "b").2 (String.mk ['a', line_break, 'b'])).2
        "b" "c").1 = 0 ∧
      "b" ∉ (ls (re_name (touch (touch mkfs "b").2
        (String.mk ['a', line_break, 'b'])).2 "b" "c").2 ".").2 ∧
      output_lines (ls (re_name (touch (touch mkfs "b").2
        (String.mk ['a', line_break, 'b'])).2 "b" "c").2 ".").2
        = ["a", "b", "c"] :=
  ⟨by decide, by decide, by decide, by decide⟩

/-! ## Claims about the failures of `re_name` -/

theorem re_name_special (files : Filesystem) (old new : String)
    (h0 : old ≠ "") (h0' : new ≠ "")
    (h1 : (old = "." ∨ old = ".." ∨ old = "/") ∨
      (new = "." ∨ new = ".." ∨ new = "/")) :
    re_name files old new = (-3, files) := by
  have hsp : (is_special old || is_special new) = true := by
    rw [Bool.or_eq_true, is_special_iff, is_special_iff]
    exact h1
  unfold re_name
  rw [if_neg (by simp [h0, h0']), if_pos hsp]

/-- C16: what `re_name` rejects, in the order it decides.  An empty name on
either side gives -2; otherwise one of `.`, `..`, `/` on either side gives
-3; otherwise (the collision with an existing name coming first) an `old`
that names no file and no sub directory of the current directory gives -1
when `new` names none either, and -3 when `new` names one; an `old` that
names a child and equals `new` gives -4.  Nothing is changed in any of
these cases, and `re_name("nope", "x")` after `mkfs` gives -1. -/
theorem re_name_rejects (files : Filesystem) (old new : String) :
    (old = "" ∨ new = "" → re_name files old new = (-2, files)) ∧
    (old ≠ "" → new ≠ "" →
      (old = "." ∨ old = ".." ∨ old = "/") ∨
        (new = "." ∨ new = ".." ∨ new = "/") →
      re_name files old new = (-3, files)) ∧
    (old ≠ "" → new ≠ "" → ¬ (old = "." ∨ old = ".." ∨ old = "/") →
      ¬ (new = "." ∨ new = ".." ∨ new = "/") →
      old ∉ files.curr_dir.child_names →
      (new ∉ files.curr_dir.child_names →
          re_name files old new = (-1, files)) ∧
        (new ∈ files.curr_dir.child_names →
          re_name files old new = (-3, files))) ∧
    (old ≠ "" → new ≠ "" → ¬ (old = "." ∨ old = ".." ∨ old = "/") →
      ¬ (new = "." ∨ new = ".." ∨ new = "/") →
      old ∈ files.curr_dir.child_names → old = new →
      re_name files old new = (-4, files)) ∧
    re_name mkfs "nope" "x" = (-1, mkfs) := by
  refine ⟨?_, ?_, ?_, ?_, rfl⟩
  · intro h
    unfold re_name
    rw [if_pos h]
  · exact re_name_special files old new
  · intro h0 h0' h1 h1' hold
    have s1 : is_special old = false := by
      rw [← Bool.not_eq_true, is_special_iff]; exact h1
    have s2 : is_special new = false := by
      rw [← Bool.not_eq_true, is_special_iff]; exact h1'
    rw [re_name_ordinary files old new h0 h0' s1 s2]
    constructor
    · intro hnew
      have hx : ¬ (exist_arg2_of files old new = true ∧ old ≠ new) :=
        fun h => hnew ((exist_arg2_absent files old new hold).1 h.1)
      rw [if_neg hx, if_pos hold]
    · intro hnew
      have hx : exist_arg2_of files old new = true ∧ old ≠ new :=
        ⟨(exist_arg2_absent files old new hold).2 hnew,
          fun e => hold (e ▸ hnew)⟩
      rw [if_pos hx]
  · intro h0 h0' h1 h1' hold he
    have s1 : is_special old = false := by
      rw [← Bool.not_eq_true, is_special_iff]; exact h1
    have s2 : is_special new = false := by
      rw [← Bool.not_eq_true, is_special_iff]; exact h1'
    rw [re_name_ordinary files old new h0 h0' s1 s2]
    rw [if_neg (fun h => h.2 he), if_neg (not_not.2 hold), if_pos he]

/-- The result of a failing `re_name` is the one that belongs to the failure
kind the specification gives to the call. -/
theorem re_name_code_of_kind (files : Filesystem) (old new : String)
    (k : RenameFailure) (hfail : (re_name files old new).1 ≠ 0)
    (hk : rename_failure_kind files old new = some k) :
    (re_name files old new).1 = k.code := by
  unfold rename_failure_kind at hk
  by_cases h0 : old = "" ∨ new = ""
  · rw [if_pos h0] at hk
    rw [← Option.some.inj hk]
    unfold re_name
    rw [if_pos h0]
    rfl
  · rw [if_neg h0] at hk
    simp only [not_or] at h0
    by_cases h1 : (old = "." ∨ old = ".." ∨ old = "/") ∨
        (new = "." ∨ new = ".." ∨ new = "/")
    · rw [if_pos h1] at hk
      rw [← Option.some.inj hk, re_name_special files old new h0.1 h0.2 h1]
      rfl
    · rw [if_neg h1] at hk
      simp only [not_or] at h1
      have s1 : is_special old = false :=
        (is_special_eq_false_iff old).2 h1.1
      have s2 : is_special new = false :=
        (is_special_eq_false_iff new).2 h1.2
      have ho := re_name_ordinary files old new h0.1 h0.2 s1 s2
      rw [ho] at hfail ⊢
      by_cases hx : exist_arg2_of files old new = true ∧ old ≠ new
      · have hc : new ∈ files.curr_dir.child_names ∧ new ≠ old :=
          ⟨exist_arg2_sound files old new hx.1, fun e => hx.2 e.symm⟩
        rw [if_pos hc] at hk
        rw [← Option.some.inj hk, if_pos hx]
        rfl
      · rw [if_neg hx] at hfail ⊢
        by_cases hold : old ∉ files.curr_dir.child_names
        · have hc : ¬ (new ∈ files.curr_dir.child_names ∧ new ≠ old) :=
            fun h => hx ⟨(exist_arg2_absent files old new hold).2 h.1,
              fun e => h.2 e.symm⟩
          rw [if_neg hc, if_pos hold] at hk
          rw [← Option.some.inj hk, if_pos hold]
          rfl
        · rw [if_neg hold] at hfail ⊢
          by_cases he : old = new
          · have hc : ¬ (new ∈ files.curr_dir.child_names ∧ new ≠ old) :=
              fun h => h.2 he.symm
            rw [if_neg hc, if_neg hold, if_pos he] at hk
            rw [← Option.some.inj hk, if_pos he]
            rfl
          · rw [if_neg he] at hfail
            by_cases hf : old ∈ files.curr_dir.file_list
            · rw [if_pos hf] at hfail; exact absurd rfl hfail
            · rw [if_neg hf] at hfail; exact absurd rfl hfail

/-- C17 (amended): the results of failing calls of `re_name` tell the
failure kinds apart, except ProtectedName and NameCollision, which share
the result -3.  For two failing calls whose kinds differ and are not these
two, the results differ. -/
theorem re_name_failures_distinct (files1 files2 : Filesystem)
    (old1 new1 old2 new2 : String) (k1 k2 : RenameFailure)
    (hf1 : (re_name files1 old1 new1).1 ≠ 0)
    (hf2 : (re_name files2 old2 new2).1 ≠ 0)
    (hk1 : rename_failure_kind files1 old1 new1 = some k1)
    (hk2 : rename_failure_kind files2 old2 new2 = some k2)
    (hne : k1 ≠ k2)
    (h12 : ¬ (k1 = .ProtectedName ∧ k2 = .NameCollision))
    (h21 : ¬ (k1 = .NameCollision ∧ k2 = .ProtectedName)) :
    (re_name files1 old1 new1).1 ≠ (re_name files2 old2 new2).1 := by
  rw [re_name_code_of_kind files1 old1 new1 k1 hf1 hk1,
    re_name_code_of_kind files2 old2 new2 k2 hf2 hk2]
  cases k1 <;> cases k2 <;> simp [RenameFailure.code] at hne h12 h21 ⊢

/-- Witness of C17: a call with an empty name and a call with an unknown
name fail with different results. -/
theorem re_name_failures_distinct_witness :
    (re_name mkfs "" "x").1 ≠ 0 ∧ (re_name mkfs "nope" "x").1 ≠ 0 ∧
      rename_failure_kind mkfs "" "x" = some .InvalidName ∧
      rename_failure_kind mkfs "nope" "x" = some .NoSuchEntry ∧
      (re_name mkfs "" "x").1 ≠ (re_name mkfs "nope" "x").1 :=
  ⟨by decide, by decide, by decide, by decide,
    re_name_failures_distinct mkfs mkfs "" "x" "nope" "x" .InvalidName
      .NoSuchEntry (by decide) (by decide) (by decide) (by decide)
      (by decide) (by decide) (by decide)⟩

/-- C17 as stated fails: `re_name(".", "x")` after `mkfs` fails as
ProtectedName and `re_name("a", "b")` with the files `b`, `a` fails as
NameCollision, and both calls return -3. -/
theorem re_name_same_result_counterexample :
    rename_failure_kind mkfs "." "x" = some .ProtectedName ∧
      rename_failure_kind (touch (touch mkfs "b").2 "a").2 "a" "b"
        = some .NameCollision ∧
      (re_name mkfs "." "x").1 = -3 ∧
      (re_name (touch (touch mkfs "b").2 "a").2 "a" "b").1 = -3 :=
  ⟨by decide, by decide, by decide, by decide⟩

/-! ## Facts about the cursor -/

theorem reaches_trans {a b c : Directory} (h1 : Reaches a b)
    (h2 : Reaches b c) : Reaches a c := by
  induction h1 with
  | refl _ => exact h2
  | step hm _ ih => exact Reaches.step hm (ih h2)

/-- The current directory is found in the tree under the root. -/
theorem reaches_toRoot :
    ∀ (ps : List Parent) (d : Directory), Reaches (toRoot d ps) d
  | [], d => Reaches.refl d
  | p :: ps, d =>
    reaches_trans (reaches_toRoot ps (p.rebuild d))
      (Reaches.step (r := p.rebuild d)
        (by simp [Parent.rebuild]) (Reaches.refl d))

/-- The calls other than `cd` leave the parent chain and the name of the
current directory as they are. -/
theorem run_keeps_cursor (c : Cmd) (files : Filesystem)
    (hc : ∀ arg, c ≠ Cmd.cd arg) :
    (c.run files).2.parents = files.parents ∧
      (c.run files).2.curr_dir.dir_name = files.curr_dir.dir_name := by
  cases c with
  | touch arg =>
    simp only [Cmd.run, touch]
    split_ifs <;> exact ⟨rfl, rfl⟩
  | mkdir arg =>
    simp only [Cmd.run, mkdir]
    split_ifs <;> exact ⟨rfl, rfl⟩
  | cd arg => exact absurd rfl (hc arg)
  | rm arg =>
    simp only [Cmd.run, rm]
    split_ifs <;> exact ⟨rfl, rfl⟩
  | re_name arg1 arg2 =>
    simp only [Cmd.run, re_name]
    split_ifs <;> exact ⟨rfl, rfl⟩

/-- The text of `pwd` depends on the parent chain and on the name of the
current directory only. -/
theorem pwd_congr (f g : Filesystem) (hp : g.parents = f.parents)
    (hn : g.curr_dir.dir_name = f.curr_dir.dir_name) : pwd g = pwd f := by
  unfold pwd
  rw [hp, hn]

/-! ## Facts about the memory -/

theorem read_of_node {m : Memory} {a : Nat} {n : Node}
    (h : m.node a = some n) : m.read a = n := by
  unfold Memory.read
  rw [h]
  rfl

theorem node_write (m : Memory) (a : Nat) (n : Node) (b : Nat) :
    (m.write a n).node b = if b = a then some n else m.node b := by
  unfold Memory.write
  simp only [Function.update_apply]

theorem read_write (m : Memory) (a : Nat) (n : Node) (b : Nat) :
    (m.write a n).read b = if b = a then n else m.read b := by
  unfold Memory.read
  rw [node_write]
  by_cases h : b = a
  · rw [if_pos h, if_pos h]; rfl
  · rw [if_neg h, if_neg h]

theorem node_free (m : Memory) (a b : Nat) :
    (m.free a).node b = if b = a then none else m.node b := by
  unfold Memory.free
  simp only [Function.update_apply]

theorem read_free_other (m : Memory) (a b : Nat) (h : b ≠ a) :
    (m.free a).read b = m.read b := by
  unfold Memory.read
  rw [node_free, if_neg h]

theorem linked_trans {m : Memory} {a b c : Nat} (h1 : Linked m a b)
    (h2 : Linked m b c) : Linked m a c := by
  induction h2 with
  | refl => exact h1
  | tail _ hc ih => exact Linked.tail ih hc

theorem linked_head {m : Memory} {a c d : Nat}
    (hc : c ∈ (m.read a).sub_dir_list) (h : Linked m c d) : Linked m a d :=
  linked_trans (Linked.tail (Linked.refl a) hc) h

/-- Links that are in `m` and in `m'` alike carry over. -/
theorem linked_mono {m m' : Memory}
    (h : ∀ a c, c ∈ (m.read a).sub_dir_list → c ∈ (m'.read a).sub_dir_list)
    {a b : Nat} (hl : Linked m a b) : Linked m' a b := by
  induction hl with
  | refl => exact Linked.refl _
  | tail _ hc ih => exact Linked.tail ih (h _ _ hc)

/-- Every directory reached from the root is allocated. -/
theorem TreeInv.live {m : Memory} {depth : Nat → Nat} (hi : TreeInv m depth)
    {a : Nat} (h : Linked m m.root a) : (m.node a).isSome = true := by
  obtain ⟨n, hn, _⟩ := hi.nodes a h
  rw [hn]
  rfl

theorem TreeInv.child {m : Memory} {depth : Nat → Nat} (hi : TreeInv m depth)
    {a c : Nat} (h : Linked m m.root a) (hc : c ∈ (m.read a).sub_dir_list) :
    depth c = depth a + 1 ∧ (m.read c).parent_dir = a := by
  obtain ⟨n, hn, _, hch⟩ := hi.nodes a h
  rw [read_of_node hn] at hc
  exact hch c hc

theorem TreeInv.nodup {m : Memory} {depth : Nat → Nat} (hi : TreeInv m depth)
    {a : Nat} (h : Linked m m.root a) : (m.read a).sub_dir_list.Nodup := by
  obtain ⟨n, hn, hnd, _⟩ := hi.nodes a h
  rw [read_of_node hn]
  exact hnd

/-- Going down the links the depth grows. -/
theorem TreeInv.depth_le {m : Memory} {depth : Nat → Nat}
    (hi : TreeInv m depth) {a b : Nat} (ha : Linked m m.root a)
    (h : Linked m a b) : a = b ∨ depth a < depth b := by
  induction h with
  | refl => exact Or.inl rfl
  | tail hab hc ih =>
    have hd := (hi.child (linked_trans ha hab) hc).1
    rcases ih with e | hlt
    · right; rw [hd, ← e]; omega
    · right; omega

/-- The memory may change at an allocated address in the name and in the
files only: the shape stays. -/
theorem treeInv_write {m : Memory} {depth : Nat → Nat} (hi : TreeInv m depth)
    (a : Nat) (n : Node) (hlive : (m.node a).isSome = true)
    (h1 : n.sub_dir_list = (m.read a).sub_dir_list)
    (h2 : n.parent_dir = (m.read a).parent_dir) :
    TreeInv (m.write a n) depth := by
  have hsub : ∀ b, ((m.write a n).read b).sub_dir_list =
      (m.read b).sub_dir_list := by
    intro b
    rw [read_write]
    by_cases hb : b = a
    · rw [if_pos hb, h1, hb]
    · rw [if_neg hb]
  have hpar : ∀ b, ((m.write a n).read b).parent_dir =
      (m.read b).parent_dir := by
    intro b
    rw [read_write]
    by_cases hb : b = a
    · rw [if_pos hb, h2, hb]
    · rw [if_neg hb]
  have hback : ∀ {x y}, Linked (m.write a n) x y → Linked m x y :=
    fun h => linked_mono (fun b c hc => by rw [← hsub b]; exact hc) h
  have hforth : ∀ {x y}, Linked m x y → Linked (m.write a n) x y :=
    fun h => linked_mono (fun b c hc => by rw [hsub b]; exact hc) h
  refine ⟨?_, hforth hi.cursor, ?_, ?_⟩
  · intro b hb
    have hb' : Linked m m.root b := hback hb
    obtain ⟨nb, hnb, hnd, hch⟩ := hi.nodes b hb'
    have hex : ∃ n', (m.write a n).node b = some n' := by
      rw [node_write]
      by_cases e : b = a
      · exact ⟨n, by rw [if_pos e]⟩
      · exact ⟨nb, by rw [if_neg e, hnb]⟩
    obtain ⟨n', hn'⟩ := hex
    have e1 : n'.sub_dir_list = nb.sub_dir_list := by
      rw [← read_of_node hn', hsub b, read_of_node hnb]
    refine ⟨n', hn', by rw [e1]; exact hnd, ?_⟩
    intro c hc
    rw [e1] at hc
    exact ⟨(hch c hc).1, by rw [hpar c]; exact (hch c hc).2⟩
  · show ((m.write a n).read m.root).parent_dir = m.root
    rw [hpar]
    exact hi.root_parent
  · intro b nb hb
    rw [node_write] at hb
    by_cases e : b = a
    · obtain ⟨x, hx⟩ := Option.isSome_iff_exists.1 hlive
      exact e ▸ hi.fresh a x hx
    · rw [if_neg e] at hb
      exact hi.fresh b nb hb

/-- The pointer `curr_dir` may go to any directory reached from the
root. -/
theorem treeInv_move {m : Memory} {depth : Nat → Nat} (hi : TreeInv m depth)
    (a : Nat) (h : Linked m m.root a) : TreeInv (m.move a) depth :=
  ⟨fun b hb => hi.nodes b (@linked_mono (m.move a) m (fun _ _ hc => hc) _ _ hb),
    @linked_mono m (m.move a) (fun _ _ hc => hc) _ _ h, hi.root_parent,
    hi.fresh⟩

theorem treeInv_mkfs : TreeInv mkfs_mem (fun _ => 0) := by
  have hread : ∀ a, (mkfs_mem.read a).sub_dir_list = [] := by
    intro a
    unfold Memory.read mkfs_mem
    simp only [Function.update_apply]
    by_cases h : a = 1
    · rw [if_pos h]; rfl
    · rw [if_neg h]; rfl
  have hl : ∀ a, Linked mkfs_mem 1 a → a = 1 := by
    intro a h
    induction h with
    | refl => rfl
    | tail _ hc _ => rw [hread] at hc; simp at hc
  refine ⟨?_, Linked.refl _, rfl, ?_⟩
  · intro a ha
    have e : a = 1 := hl a ha
    subst e
    exact ⟨⟨"/", [], [], 1⟩, rfl, List.nodup_nil, fun c hc => by simp at hc⟩
  · intro a n h
    unfold mkfs_mem at h
    simp only [Function.update_apply] at h
    by_cases e : a = 1
    · show a < 2
      omega
    · rw [if_neg e] at h
      simp at h

/-! ## The shape of the memory is kept by every call -/

theorem treeInv_touch {m : Memory} {depth : Nat → Nat} (hi : TreeInv m depth)
    (arg : String) : TreeInv (touch_mem m arg).2 depth := by
  unfold touch_mem
  split_ifs
  · exact hi
  · exact hi
  · exact hi
  · exact hi
  · exact treeInv_write hi _ _ (hi.live hi.cursor) rfl rfl

theorem cd_find_mem_mem (m : Memory) (arg : String) :
    ∀ (rest : List Nat) (d : Nat), cd_find_mem m arg d rest ∈ d :: rest
  | [], d => by simp [cd_find_mem]
  | d' :: rest, d => by
    rw [cd_find_mem]
    split_ifs
    · exact List.mem_cons_of_mem _ (cd_find_mem_mem m arg rest d')
    · exact List.mem_cons_self _ _

/-- The `parent_dir` of a directory reached from the root is reached from
the root. -/
theorem linked_parent_dir {m : Memory} {depth : Nat → Nat}
    (hi : TreeInv m depth) :
    ∀ a, Linked m m.root a → Linked m m.root (m.read a).parent_dir := by
  intro a h
  cases h with
  | refl => rw [hi.root_parent]; exact Linked.refl _
  | tail hab hc => rw [(hi.child hab hc).2]; exact hab

theorem treeInv_cd {m : Memory} {depth : Nat → Nat} (hi : TreeInv m depth)
    (arg : String) : TreeInv (cd_mem m arg).2 depth := by
  unfold cd_mem
  split_ifs
  · exact treeInv_move hi _ (Linked.refl _)
  · exact hi
  · exact hi
  · exact treeInv_move hi _ (linked_parent_dir hi _ hi.cursor)
  · exact hi
  · exact hi
  · cases hs : (m.read m.curr_dir).sub_dir_list with
    | nil => exact hi
    | cons d rest =>
      refine treeInv_move hi _ (Linked.tail hi.cursor ?_)
      rw [hs]
      exact cd_find_mem_mem m arg rest d

/-- Where the loop of `rm` and `re_name` stops: at a cell of the list, and
unlinking that cell takes the directory it points to out of the list. -/
theorem find_cell_spec (m : Memory) (arg : String) (x : Nat) :
    ∀ l : List Nat, find_cell m arg l = some x →
      x ∈ l ∧ unlink_cell m arg l = l.erase x
  | [], h => by simp [find_cell] at h
  | d :: rest, h => by
    rw [find_cell] at h
    rw [unlink_cell]
    by_cases hd : strcmp arg (m.read d).dir_name = 0
    · rw [if_pos hd] at h
      have e : d = x := Option.some.inj h
      subst e
      rw [if_pos hd]
      exact ⟨List.mem_cons_self _ _, by simp⟩
    · rw [if_neg hd] at h
      obtain ⟨h1, h2⟩ := find_cell_spec m arg x rest h
      rw [if_neg hd, h2]
      refine ⟨List.mem_cons_of_mem _ h1, ?_⟩
      have hne : d ≠ x := by
        intro e
        subst e
        have : find_cell m arg rest = some d := h
        clear h2 h
        -- the directory at `d` is not named `arg`, the one at `x` is
        have hx : ∀ l : List Nat, find_cell m arg l = some d →
            strcmp arg (m.read d).dir_name = 0 := by
          intro l
          induction l with
          | nil => intro h; simp [find_cell] at h
          | cons y l ih =>
            intro h
            rw [find_cell] at h
            by_cases hy : strcmp arg (m.read y).dir_name = 0
            · rw [if_pos hy] at h
              exact (Option.some.inj h) ▸ hy
            · rw [if_neg hy] at h
              exact ih h
        exact hd (hx rest this)
      rw [List.erase_cons_tail (by simpa using hne)]

theorem treeInv_re_name {m : Memory} {depth : Nat → Nat}
    (hi : TreeInv m depth) (arg1 arg2 : String) :
    TreeInv (re_name_mem m arg1 arg2).2 depth := by
  unfold re_name_mem
  simp only
  split_ifs
  · exact hi
  · exact hi
  · exact hi
  · exact hi
  · exact hi
  · exact treeInv_write hi _ _ (hi.live hi.cursor) rfl rfl
  · cases hf : find_cell m arg1 (m.read m.curr_dir).sub_dir_list with
    | none => exact hi
    | some x =>
      exact treeInv_write hi _ _
        (hi.live (Linked.tail hi.cursor (find_cell_spec m arg1 x _ hf).1))
        rfl rfl

theorem treeInv_mkdir {m : Memory} {depth : Nat → Nat}
    (hi : TreeInv m depth) (arg : String) :
    TreeInv (mkdir_mem m arg).2
      (Function.update depth m.next (depth m.curr_dir + 1)) := by
  have hold : ∀ a, Linked m m.root a → a ≠ m.next := by
    intro a ha e
    obtain ⟨n, hn, _⟩ := hi.nodes a ha
    have := hi.fresh a n hn
    omega
  have hkeep : TreeInv m
      (Function.update depth m.next (depth m.curr_dir + 1)) := by
    refine ⟨?_, hi.cursor, hi.root_parent, hi.fresh⟩
    intro a ha
    obtain ⟨n, hn, hnd, hch⟩ := hi.nodes a ha
    refine ⟨n, hn, hnd, ?_⟩
    intro c hc
    have hc' : c ∈ (m.read a).sub_dir_list := by rw [read_of_node hn]; exact hc
    rw [Function.update_noteq (hold c (Linked.tail ha hc')),
      Function.update_noteq (hold a ha)]
    exact hch c hc
  unfold mkdir_mem
  split_ifs
  · exact hkeep
  · exact hkeep
  · exact hkeep
  · exact hkeep
  · have hcn : m.curr_dir ≠ m.next := hold _ hi.cursor
    have hnone : m.node m.next = none := by
      cases h : m.node m.next with
      | none => rfl
      | some n => exact absurd (hi.fresh _ n h) (Nat.lt_irrefl _)
    have hrd_new : (m.read m.next).sub_dir_list = [] := by
      unfold Memory.read
      rw [hnone]
      rfl
    -- the memory after the call
    generalize hm' : (⟨Function.update
          (Function.update m.node m.next (some ⟨arg, [], [], m.curr_dir⟩))
          m.curr_dir
          (some ⟨(m.read m.curr_dir).dir_name,
            (m.read m.curr_dir).file_list,
            (m.read m.curr_dir).sub_dir_list ++ [m.next],
            (m.read m.curr_dir).parent_dir⟩),
        m.next + 1, m.root, m.curr_dir⟩ : Memory) = m'
    have hnode : ∀ a, m'.node a =
        if a = m.curr_dir then
          some ⟨(m.read m.curr_dir).dir_name, (m.read m.curr_dir).file_list,
            (m.read m.curr_dir).sub_dir_list ++ [m.next],
            (m.read m.curr_dir).parent_dir⟩
        else if a = m.next then some ⟨arg, [], [], m.curr_dir⟩
        else m.node a := by
      intro a
      rw [← hm']
      simp only [Function.update_apply]
    have hroot : m'.root = m.root := by rw [← hm']
    have hcur : m'.curr_dir = m.curr_dir := by rw [← hm']
    have hnext : m'.next = m.next + 1 := by rw [← hm']
    have hread : ∀ a, m'.read a =
        if a = m.curr_dir then
          ⟨(m.read m.curr_dir).dir_name, (m.read m.curr_dir).file_list,
            (m.read m.curr_dir).sub_dir_list ++ [m.next],
            (m.read m.curr_dir).parent_dir⟩
        else if a = m.next then ⟨arg, [], [], m.curr_dir⟩
        else m.read a := by
      intro a
      unfold Memory.read
      rw [hnode]
      by_cases h1 : a = m.curr_dir
      · rw [if_pos h1, if_pos h1]; rfl
      · rw [if_neg h1, if_neg h1]
        by_cases h2 : a = m.next
        · rw [if_pos h2, if_pos h2]; rfl
        · rw [if_neg h2, if_neg h2]
    have hpar : ∀ a, a ≠ m.next →
        (m'.read a).parent_dir = (m.read a).parent_dir := by
      intro a ha
      rw [hread]
      by_cases h1 : a = m.curr_dir
      · rw [if_pos h1, h1]
      · rw [if_neg h1, if_neg ha]
    have hforth : ∀ {x y}, Linked m x y → Linked m' x y := by
      intro x y h
      refine linked_mono ?_ h
      intro a c hc
      rw [hread]
      by_cases h1 : a = m.curr_dir
      · rw [if_pos h1]
        exact List.mem_append_left _ (h1 ▸ hc)
      · rw [if_neg h1]
        by_cases h2 : a = m.next
        · rw [h2, hrd_new] at hc
          simp at hc
        · rw [if_neg h2]
          exact hc
    have hback : ∀ a, Linked m' m.root a → Linked m m.root a ∨ a = m.next := by
      intro a h
      induction h with
      | refl => exact Or.inl (Linked.refl _)
      | tail hab hc ih =>
        rename_i b c
        rw [hread] at hc
        rcases ih with hb | hb
        · by_cases h1 : b = m.curr_dir
          · rw [if_pos h1] at hc
            rcases List.mem_append.1 hc with hc | hc
            · exact Or.inl (Linked.tail hb (h1 ▸ hc))
            · exact Or.inr (List.mem_singleton.1 hc)
          · rw [if_neg h1, if_neg (hold b hb)] at hc
            exact Or.inl (Linked.tail hb hc)
        · rw [if_neg (hb ▸ hcn.symm), if_pos hb] at hc
          simp at hc
    refine ⟨?_, ?_, ?_, ?_⟩
    · intro a ha
      rw [hroot] at ha
      rw [hnode]
      rcases hback a ha with ha | ha
      · by_cases h1 : a = m.curr_dir
        · rw [if_pos h1]
          refine ⟨_, rfl, ?_, ?_⟩
          · refine List.Nodup.append (hi.nodup hi.cursor)
              (List.nodup_singleton _) ?_
            intro x hx hx'
            rw [List.mem_singleton.1 hx'] at hx
            exact hold _ (Linked.tail hi.cursor hx) rfl
          · intro c hc
            rcases List.mem_append.1 hc with hc | hc
            · have hcl : Linked m m.root c := Linked.tail hi.cursor hc
              have hch := hi.child hi.cursor hc
              rw [Function.update_noteq (hold c hcl), h1,
                Function.update_noteq hcn, hpar c (hold c hcl)]
              exact hch
            · have e := List.mem_singleton.1 hc
              rw [e, Function.update_same, h1, Function.update_noteq hcn,
                hread, if_neg hcn.symm, if_pos rfl]
              exact ⟨rfl, rfl⟩
        · rw [if_neg h1, if_neg (hold a ha)]
          obtain ⟨n, hn, hnd, hch⟩ := hi.nodes a ha
          refine ⟨n, hn, hnd, ?_⟩
          intro c hc
          have hc' : c ∈ (m.read a).sub_dir_list := by
            rw [read_of_node hn]; exact hc
          have hcl : Linked m m.root c := Linked.tail ha hc'
          rw [Function.update_noteq (hold c hcl),
            Function.update_noteq (hold a ha), hpar c (hold c hcl)]
          exact hch c hc
      · rw [ha, if_neg hcn.symm, if_pos rfl]
        exact ⟨_, rfl, List.nodup_nil, fun c hc => by simp at hc⟩
    · rw [hroot, hcur]
      exact hforth hi.cursor
    · rw [hroot, hpar _ (hold _ (Linked.refl _))]
      exact hi.root_parent
    · intro a n hn
      rw [hnode] at hn
      rw [hnext]
      by_cases h1 : a = m.curr_dir
      · obtain ⟨x, hx⟩ := Option.isSome_iff_exists.1 (hi.live hi.cursor)
        have := hi.fresh _ x hx
        omega
      · rw [if_neg h1] at hn
        by_cases h2 : a = m.next
        · omega
        · rw [if_neg h2] at hn
          have := hi.fresh a n hn
          omega

/-! ## The loop of `remove_contents` on pointers stays below its directory -/

/-- The passes of the loop change the memory only at addresses in `D`, a set
of addresses that holds the directory given to `remove_contents` and, with
each directory, the directories its list pointed to at the start
(`orig`). -/
theorem remove_contents_mem_loop_frame (m0 : Memory) (D : Nat → Prop)
    (orig : Nat → List Nat) (bound : Nat)
    (hD : ∀ a, D a → ∀ x ∈ orig a, D x) (hB : ∀ a, D a → a < bound)
    (dir : Nat) (hdir : D dir) :
    ∀ (fuel : Nat) (mm : Memory) (owner : Nat) (mm' : Memory), D owner →
      (∀ a, ¬ D a → mm.node a = m0.node a) →
      (∀ a, D a → ∀ x ∈ (mm.read a).sub_dir_list, x ∈ orig a) →
      (∀ a n, mm.node a = some n → a < bound) →
      remove_contents_mem_loop fuel mm dir owner = some mm' →
      (∀ a, ¬ D a → mm'.node a = m0.node a) ∧
        (∀ a n, mm'.node a = some n → a < bound) ∧
        mm'.next = mm.next ∧ mm'.root = mm.root ∧
        mm'.curr_dir = mm.curr_dir := by
  intro fuel
  induction fuel with
  | zero =>
    intro mm owner mm' _ h1 _ h3 hrun
    rw [remove_contents_mem_loop] at hrun
    cases hs : (mm.read dir).sub_dir_list with
    | nil =>
      rw [hs] at hrun
      have e : mm = mm' := Option.some.inj hrun
      subst e
      exact ⟨h1, h3, rfl, rfl, rfl⟩
    | cons c cs => rw [hs] at hrun; simp at hrun
  | succ fuel ih =>
    intro mm owner mm' ho h1 h2 h3 hrun
    rw [remove_contents_mem_loop] at hrun
    cases hs : (mm.read dir).sub_dir_list with
    | nil =>
      rw [hs] at hrun
      have e : mm = mm' := Option.some.inj hrun
      subst e
      exact ⟨h1, h3, rfl, rfl, rfl⟩
    | cons c cs =>
      rw [hs] at hrun
      simp only at hrun
      cases hl : (mm.read owner).sub_dir_list.getLast? with
      | none => rw [hl] at hrun; simp at hrun
      | some x =>
        rw [hl] at hrun
        simp only at hrun
        have hxm : x ∈ (mm.read owner).sub_dir_list :=
          List.mem_of_getLast?_eq_some hl
        have hx : D x := hD owner ho x (h2 owner ho x hxm)
        cases hxs : (mm.read x).sub_dir_list with
        | cons y ys =>
          rw [hxs] at hrun
          exact ih mm x mm' hx h1 h2 h3 hrun
        | nil =>
          rw [hxs] at hrun
          simp only at hrun
          have hres := ih _ dir mm' hdir ?_ ?_ ?_ hrun
          · exact hres
          · intro a ha
            have e1 : a ≠ owner := fun e => ha (e ▸ ho)
            have e2 : a ≠ x := fun e => ha (e ▸ hx)
            rw [node_write, if_neg e1, node_free, if_neg e2]
            exact h1 a ha
          · intro a ha y hy
            rw [read_write] at hy
            by_cases e1 : a = owner
            · rw [if_pos e1] at hy
              exact h2 a ha y (e1 ▸ List.mem_of_mem_dropLast hy)
            · rw [if_neg e1] at hy
              by_cases e2 : a = x
              · have : ((mm.free x).read a).sub_dir_list = [] := by
                  unfold Memory.read
                  rw [node_free, if_pos e2]
                  rfl
                rw [this] at hy
                simp at hy
              · rw [read_free_other mm x a e2] at hy
                exact h2 a ha y hy
          · intro a n hn
            rw [node_write] at hn
            by_cases e1 : a = owner
            · exact e1 ▸ hB owner ho
            · rw [if_neg e1, node_free] at hn
              by_cases e2 : a = x
              · rw [if_pos e2] at hn; simp at hn
              · rw [if_neg e2] at hn
                exact h3 a n hn

/-- The function `remove_contents` on pointers changes the memory only at
addresses in `D`. -/
theorem remove_contents_mem_frame (m0 : Memory) (D : Nat → Prop)
    (orig : Nat → List Nat) (bound : Nat)
    (hD : ∀ a, D a → ∀ x ∈ orig a, D x) (hB : ∀ a, D a → a < bound)
    (dir : Nat) (hdir : D dir) (fuel : Nat) (m' : Memory)
    (h2 : ∀ a, D a → ∀ x ∈ (m0.read a).sub_dir_list, x ∈ orig a)
    (h3 : ∀ a n, m0.node a = some n → a < bound)
    (hrun : remove_contents_mem fuel m0 dir = some m') :
    (∀ a, ¬ D a → m'.node a = m0.node a) ∧
      (∀ a n, m'.node a = some n → a < bound) ∧
      m'.next = m0.next ∧ m'.root = m0.root ∧ m'.curr_dir = m0.curr_dir := by
  unfold remove_contents_mem at hrun
  cases hl : remove_contents_mem_loop fuel m0 dir dir with
  | none => rw [hl] at hrun; simp at hrun
  | some mm =>
    rw [hl] at hrun
    have e : mm.free dir = m' := Option.some.inj hrun
    obtain ⟨r1, r2, r3, r4, r5⟩ := remove_contents_mem_loop_frame m0 D orig
      bound hD hB dir hdir fuel m0 dir mm hdir (fun _ _ => rfl) h2 h3 hl
    rw [← e]
    refine ⟨?_, ?_, r3, r4, r5⟩
    · intro a ha
      have e1 : a ≠ dir := fun e => ha (e ▸ hdir)
      rw [node_free, if_neg e1]
      exact r1 a ha
    · intro a n hn
      rw [node_free] at hn
      by_cases e1 : a = dir
      · rw [if_pos e1] at hn; simp at hn
      · rw [if_neg e1] at hn
        exact r2 a n hn

/-! ## The loop of `remove_contents` on pointers ends -/

/-- The number of addresses below `bound` that satisfy a test goes down when
the test becomes false at one address and true at none. -/
theorem live_count_lt (bound : Nat) (f g : Nat → Bool) (x : Nat)
    (hx : x < bound) (hfx : f x = true) (hgx : g x = false)
    (hsub : ∀ a, g a = true → f a = true) :
    ((Finset.range bound).filter (fun a => g a = true)).card <
      ((Finset.range bound).filter (fun a => f a = true)).card := by
  apply Finset.card_lt_card
  rw [Finset.ssubset_iff_of_subset]
  · refine ⟨x, ?_, ?_⟩
    · simp [hx, hfx]
    · simp [hgx]
  · intro a ha
    simp only [Finset.mem_filter, Finset.mem_range] at ha ⊢
    exact ⟨ha.1, hsub a ha.2⟩

theorem getLast?_not_mem_dropLast {l : List Nat} (hnd : l.Nodup) {x : Nat}
    (hx : l.getLast? = some x) : x ∉ l.dropLast := by
  rcases List.eq_nil_or_concat l with h | ⟨L, b, h⟩
  · rw [h] at hx; simp at hx
  · rw [h, List.concat_eq_append] at hx hnd ⊢
    rw [List.getLast?_concat] at hx
    have e : b = x := Option.some.inj hx
    rw [List.dropLast_concat, ← e]
    intro hm
    exact (List.nodup_append.1 hnd).2.2 hm (List.mem_singleton_self b)

/-- The loop ends: with `k` passes allowed it returns, when `k` is at least
`(H + 2)` times the number of allocated addresses plus `H + 1` minus the
depth of the directory the pointers are in. -/
theorem remove_contents_mem_loop_ends (m : Memory) (depth : Nat → Nat)
    (D : Nat → Prop) (bound H : Nat)
    (hD : ∀ a, D a → ∀ x ∈ (m.read a).sub_dir_list, D x)
    (hB : ∀ a, D a → a < bound) (hH : ∀ a, D a → depth a ≤ H)
    (hdep : ∀ a, D a → ∀ x ∈ (m.read a).sub_dir_list,
      depth x = depth a + 1 ∧ (m.read x).parent_dir = a)
    (dir : Nat) (hdir : D dir) :
    ∀ (k : Nat) (mm : Memory) (owner : Nat), D owner →
      (∀ a, D a → ∀ x ∈ (mm.read a).sub_dir_list,
        x ∈ (m.read a).sub_dir_list ∧ (mm.node x).isSome = true) →
      (∀ a, D a → (mm.read a).sub_dir_list.Nodup) →
      (owner = dir ∨ (mm.read owner).sub_dir_list ≠ []) →
      ((Finset.range bound).filter
          (fun a => (mm.node a).isSome = true)).card * (H + 2) +
        (H + 1 - depth owner) ≤ k →
      (remove_contents_mem_loop k mm dir owner).isSome = true := by
  intro k
  induction k with
  | zero =>
    intro mm owner ho _ _ _ hk
    have := hH owner ho
    omega
  | succ k ih =>
    intro mm owner ho j2 j3 j4 hk
    rw [remove_contents_mem_loop]
    cases hs : (mm.read dir).sub_dir_list with
    | nil => rfl
    | cons c0 cs0 =>
      simp only
      have hne : (mm.read owner).sub_dir_list ≠ [] := by
        rcases j4 with e | h
        · rw [e, hs]; exact List.cons_ne_nil _ _
        · exact h
      cases hl : (mm.read owner).sub_dir_list.getLast? with
      | none => exact absurd (List.getLast?_eq_none_iff.1 hl) hne
      | some x =>
        simp only
        have hxm : x ∈ (mm.read owner).sub_dir_list :=
          List.mem_of_getLast?_eq_some hl
        obtain ⟨hxo, hxlive⟩ := j2 owner ho x hxm
        have hx : D x := hD owner ho x hxo
        have hxd := (hdep owner ho x hxo).1
        cases hxs : (mm.read x).sub_dir_list with
        | cons y ys =>
          simp only
          refine ih mm x hx j2 j3 (Or.inr ?_) ?_
          · rw [hxs]; exact List.cons_ne_nil _ _
          · have := hH x hx
            omega
        | nil =>
          simp only
          have hxo' : x ≠ owner := by
            intro e
            rw [e] at hxs
            exact hne hxs
          have holive : (mm.node owner).isSome = true := by
            cases h : mm.node owner with
            | none =>
              exfalso
              apply hne
              unfold Memory.read
              rw [h]
              rfl
            | some n => rfl
          have hnode : ∀ a, (((mm.free x).write owner
              ⟨(mm.read owner).dir_name, (mm.read owner).file_list,
                (mm.read owner).sub_dir_list.dropLast,
                (mm.read owner).parent_dir⟩).node a).isSome =
              if a = x then false else (mm.node a).isSome := by
            intro a
            rw [node_write, node_free]
            by_cases e1 : a = owner
            · rw [if_pos e1, if_neg (e1 ▸ hxo'.symm), e1, holive]
              rfl
            · rw [if_neg e1]
              by_cases e2 : a = x
              · rw [if_pos e2, if_pos e2]; rfl
              · rw [if_neg e2, if_neg e2]
          refine ih _ dir hdir ?_ ?_ (Or.inl rfl) ?_
          · intro a ha y hy
            rw [read_write] at hy
            rw [hnode]
            by_cases e1 : a = owner
            · rw [if_pos e1] at hy
              have hy' := List.mem_of_mem_dropLast hy
              have hyx : y ≠ x := by
                intro e
                rw [e] at hy
                exact getLast?_not_mem_dropLast (j3 owner ho) hl hy
              rw [if_neg hyx]
              exact e1 ▸ j2 owner ho y hy'
            · rw [if_neg e1] at hy
              by_cases e2 : a = x
              · have : ((mm.free x).read a).sub_dir_list = [] := by
                  unfold Memory.read
                  rw [node_free, if_pos e2]
                  rfl
                rw [this] at hy
                simp at hy
              · rw [read_free_other mm x a e2] at hy
                obtain ⟨hy1, hy2⟩ := j2 a ha y hy
                have hyx : y ≠ x := by
                  intro e
                  rw [e] at hy1
                  have p1 := (hdep a ha x hy1).2
                  have p2 := (hdep owner ho x hxo).2
                  exact e1 (p1.symm.trans p2)
                rw [if_neg hyx]
                exact ⟨hy1, hy2⟩
          · intro a ha
            rw [read_write]
            by_cases e1 : a = owner
            · rw [if_pos e1]
              exact (List.dropLast_sublist _).nodup (j3 owner ho)
            · rw [if_neg e1]
              by_cases e2 : a = x
              · have : ((mm.free x).read a).sub_dir_list = [] := by
                  unfold Memory.read
                  rw [node_free, if_pos e2]
                  rfl
                rw [this]
                exact List.nodup_nil
              · rw [read_free_other mm x a e2]
                exact j3 a ha
          · have hlt := live_count_lt bound
              (fun a => (mm.node a).isSome)
              (fun a => (((mm.free x).write owner
                ⟨(mm.read owner).dir_name, (mm.read owner).file_list,
                  (mm.read owner).sub_dir_list.dropLast,
                  (mm.read owner).parent_dir⟩).node a).isSome)
              x (hB x hx) hxlive (by simp only [hnode, if_true])
              (by
                intro a ha
                simp only [hnode] at ha
                by_cases e2 : a = x
                · rw [if_pos e2] at ha; simp at ha
                · rw [if_neg e2] at ha; exact ha)
            have hmul := Nat.mul_le_mul_right (H + 2) (Nat.succ_le_of_lt hlt)
            have hd := hH dir hdir
            simp only [Nat.succ_eq_add_one, Nat.add_mul] at hmul
            omega

/-- Every call of `rm` on pointers returns when enough passes are allowed,
in a memory of the shape that the operations keep. -/
theorem rm_mem_returns {m : Memory} {depth : Nat → Nat} (hi : TreeInv m depth)
    (arg : String) : ∃ fuel, (rm_mem fuel m arg).isSome = true := by
  by_cases hcase : arg ≠ "" ∧ is_special arg = false ∧
      file_exists arg (m.read m.curr_dir).file_list = false ∧
      (find_cell m arg (m.read m.curr_dir).sub_dir_list).isSome = true
  · obtain ⟨h0, h1, h2, h3⟩ := hcase
    obtain ⟨tmp, hf⟩ := Option.isSome_iff_exists.1 h3
    obtain ⟨hmem, hun⟩ := find_cell_spec m arg tmp _ hf
    have htl : Linked m m.root tmp := Linked.tail hi.cursor hmem
    have hcc := hi.child hi.cursor hmem
    have hcurD : ∀ a, Linked m tmp a → a ≠ m.curr_dir := by
      intro a ha e
      rw [e] at ha
      rcases hi.depth_le htl ha with e' | hlt
      · rw [e'] at hcc; omega
      · omega
    have hlive : ∀ a, Linked m tmp a → (m.node a).isSome = true :=
      fun a ha => hi.live (linked_trans htl ha)
    have hends := remove_contents_mem_loop_ends m depth
      (fun a => Linked m tmp a) m.next
      ((Finset.range m.next).sup depth)
      (fun a ha x hx => Linked.tail ha hx)
      (fun a ha => by
        obtain ⟨n, hn⟩ := Option.isSome_iff_exists.1 (hlive a ha)
        exact hi.fresh a n hn)
      (fun a ha => by
        obtain ⟨n, hn⟩ := Option.isSome_iff_exists.1 (hlive a ha)
        exact Finset.le_sup (f := depth)
          (Finset.mem_range.2 (hi.fresh a n hn)))
      (fun a ha x hx => hi.child (linked_trans htl ha) hx)
      tmp (Linked.refl _)
    generalize hm0 : m.write m.curr_dir
      ⟨(m.read m.curr_dir).dir_name, (m.read m.curr_dir).file_list,
        (m.read m.curr_dir).sub_dir_list.erase tmp,
        (m.read m.curr_dir).parent_dir⟩ = m0 at *
    have hrd : ∀ a, Linked m tmp a → m0.read a = m.read a := by
      intro a ha
      rw [← hm0, read_write, if_neg (hcurD a ha)]
    have hnd0 : ∀ a, (m.node a).isSome = true → (m0.node a).isSome = true := by
      intro a ha
      rw [← hm0, node_write]
      by_cases e : a = m.curr_dir
      · rw [if_pos e]; rfl
      · rw [if_neg e]; exact ha
    have hrun := hends _ m0 tmp (Linked.refl _)
      (fun a ha x hx => by
        rw [hrd a ha] at hx
        exact ⟨hx, hnd0 x (hlive x (Linked.tail ha hx))⟩)
      (fun a ha => by
        rw [hrd a ha]
        exact hi.nodup (linked_trans htl ha))
      (Or.inl rfl) (Nat.le_refl _)
    generalize ((Finset.range m.next).filter
        (fun a => (m0.node a).isSome = true)).card *
          ((Finset.range m.next).sup depth + 2) +
        ((Finset.range m.next).sup depth + 1 - depth tmp) = k at hrun
    refine ⟨k, ?_⟩
    unfold rm_mem
    simp only [h0, h1, h2, hf, hun, hm0, if_false, Bool.false_eq_true,
      Option.isSome_some, Bool.not_true, Bool.not_false, Bool.and_true]
    unfold remove_contents_mem
    obtain ⟨mm, hmm⟩ := Option.isSome_iff_exists.1 hrun
    rw [hmm]
    rfl
  · refine ⟨0, ?_⟩
    unfold rm_mem
    simp only
    split_ifs with h0 h1 h2 h3
    · rfl
    · rfl
    · rfl
    · rfl
    · exfalso
      apply hcase
      simp only [Bool.and_eq_true, Bool.not_eq_true', not_and,
        Bool.not_eq_false] at h2
      simp only [Bool.not_eq_true] at h1 h3
      refine ⟨h0, h1, h3, ?_⟩
      by_contra hne
      simp only [Bool.not_eq_true] at hne
      exact absurd (h2 hne) (by simp [h3])

/-! ## `rm` on pointers keeps the current directory and its ancestors -/

theorem read_congr {m m' : Memory} {a : Nat} (h : m'.node a = m.node a) :
    m'.read a = m.read a := by
  unfold Memory.read
  rw [h]

/-- What `rm` of a sub directory does to the shape of the memory, given
that the memory afterwards differs from the one with the cell unlinked only
at addresses below the directory removed. -/
theorem rm_dir_valid {m : Memory} {depth : Nat → Nat} (hi : TreeInv m depth)
    (c : Nat) (hc : c ∈ (m.read m.curr_dir).sub_dir_list) (m2 : Memory)
    (hframe : ∀ a, ¬ Linked m c a →
      m2.node a = (m.write m.curr_dir
        ⟨(m.read m.curr_dir).dir_name, (m.read m.curr_dir).file_list,
          (m.read m.curr_dir).sub_dir_list.erase c,
          (m.read m.curr_dir).parent_dir⟩).node a)
    (hfresh : ∀ a n, m2.node a = some n → a < m.next)
    (hnext : m2.next = m.next) (hroot : m2.root = m.root)
    (hcur : m2.curr_dir = m.curr_dir) :
    TreeInv m2 depth ∧
      ∀ a, Linked m m.root a → Linked m a m.curr_dir →
        (m2.node a).isSome = true ∧ Linked m2 m2.root a ∧
          Linked m2 a m2.curr_dir := by
  have hcl : Linked m m.root c := Linked.tail hi.cursor hc
  have hcc := hi.child hi.cursor hc
  -- the current directory and its ancestors are not below `c`
  have hanc : ∀ a, Linked m a m.curr_dir → ¬ Linked m c a := by
    intro a ha hca
    rcases hi.depth_le hcl (linked_trans hca ha) with e | hlt
    · rw [e] at hcc; omega
    · omega
  have hnode : ∀ a, ¬ Linked m c a →
      m2.node a =
        if a = m.curr_dir then
          some ⟨(m.read m.curr_dir).dir_name, (m.read m.curr_dir).file_list,
            (m.read m.curr_dir).sub_dir_list.erase c,
            (m.read m.curr_dir).parent_dir⟩
        else m.node a := by
    intro a ha
    rw [hframe a ha, node_write]
  have hread : ∀ a, ¬ Linked m c a →
      m2.read a =
        if a = m.curr_dir then
          ⟨(m.read m.curr_dir).dir_name, (m.read m.curr_dir).file_list,
            (m.read m.curr_dir).sub_dir_list.erase c,
            (m.read m.curr_dir).parent_dir⟩
        else m.read a := by
    intro a ha
    rw [read_congr (hframe a ha), read_write]
  have hsubs : ∀ a, ¬ Linked m c a → ∀ x ∈ (m2.read a).sub_dir_list,
      x ∈ (m.read a).sub_dir_list := by
    intro a ha x hx
    rw [hread a ha] at hx
    by_cases e : a = m.curr_dir
    · rw [if_pos e] at hx
      exact e ▸ List.mem_of_mem_erase hx
    · rw [if_neg e] at hx
      exact hx
  have hpar : ∀ a, ¬ Linked m c a →
      (m2.read a).parent_dir = (m.read a).parent_dir := by
    intro a ha
    rw [hread a ha]
    by_cases e : a = m.curr_dir
    · rw [if_pos e, e]
    · rw [if_neg e]
  -- links between the ancestors of the current directory stay
  have hforth : ∀ a b, Linked m a b → Linked m b m.curr_dir →
      Linked m2 a b := by
    intro a b hab
    induction hab with
    | refl => intro _; exact Linked.refl _
    | tail hab' hx ih =>
      rename_i b' x
      intro hxc
      have hb'c : Linked m b' m.curr_dir := linked_head hx hxc
      refine Linked.tail (ih hb'c) ?_
      rw [hread b' (hanc b' hb'c)]
      by_cases e : b' = m.curr_dir
      · rw [if_pos e]
        have hne : x ≠ c := by
          intro e'
          rw [e'] at hxc
          exact hanc c hxc (Linked.refl c)
        exact (List.mem_erase_of_ne hne).2 (e ▸ hx)
      · rw [if_neg e]
        exact hx
  -- what is reached from the root afterwards was reached before and is not
  -- below `c`
  have hback : ∀ a, Linked m2 m.root a →
      Linked m m.root a ∧ ¬ Linked m c a := by
    intro a h
    induction h with
    | refl => exact ⟨Linked.refl _, hanc _ hi.cursor⟩
    | tail hab hx ih =>
      rename_i b x
      obtain ⟨hb, hbD⟩ := ih
      have hx' : x ∈ (m.read b).sub_dir_list := hsubs b hbD x hx
      refine ⟨Linked.tail hb hx', ?_⟩
      intro hcx
      have hxp := (hi.child hb hx').2
      cases hcx with
      | refl =>
        have e : b = m.curr_dir := by rw [← hxp, hcc.2]
        rw [hread b hbD, if_pos e] at hx
        exact (hi.nodup hi.cursor).not_mem_erase hx
      | tail hcy hxy =>
        rename_i y
        have hyp := (hi.child (linked_trans hcl hcy) hxy).2
        have e : y = b := by rw [← hyp, hxp]
        exact hbD (e ▸ hcy)
  refine ⟨⟨?_, ?_, ?_, ?_⟩, ?_⟩
  · intro a ha
    rw [hroot] at ha
    obtain ⟨ha1, ha2⟩ := hback a ha
    obtain ⟨n, hn, hnd, hch⟩ := hi.nodes a ha1
    have hchild : ∀ x ∈ (m2.read a).sub_dir_list,
        depth x = depth a + 1 ∧ (m2.read x).parent_dir = a := by
      intro x hx
      have hx' := hsubs a ha2 x hx
      have hxD : ¬ Linked m c x := (hback x (Linked.tail ha hx)).2
      rw [hpar x hxD]
      exact hi.child ha1 hx'
    by_cases e : a = m.curr_dir
    · have hn2 := hnode a ha2
      rw [if_pos e] at hn2
      refine ⟨_, hn2, (hi.nodup hi.cursor).erase c, ?_⟩
      intro x hx
      refine hchild x ?_
      rw [read_of_node hn2]
      exact hx
    · have hn2 := hnode a ha2
      rw [if_neg e, hn] at hn2
      refine ⟨n, hn2, hnd, ?_⟩
      intro x hx
      refine hchild x ?_
      rw [read_of_node hn2]
      exact hx
  · rw [hroot, hcur]
    exact hforth _ _ hi.cursor (Linked.refl _)
  · rw [hroot, hpar _ (hanc _ hi.cursor)]
    exact hi.root_parent
  · intro a n hn
    rw [hnext]
    exact hfresh a n hn
  · intro a ha hac
    refine ⟨?_, ?_, ?_⟩
    · rw [hnode a (hanc a hac)]
      by_cases e : a = m.curr_dir
      · rw [if_pos e]; rfl
      · rw [if_neg e]; exact hi.live ha
    · rw [hroot]
      exact hforth _ _ ha hac
    · rw [hcur]
      exact hforth _ _ hac (Linked.refl _)

/-- The same for a call that leaves the links as they are. -/
theorem same_links_valid {m m' : Memory}
    (hs : ∀ a, (m'.read a).sub_dir_list = (m.read a).sub_dir_list)
    (hl : ∀ a, (m.node a).isSome = true → (m'.node a).isSome = true)
    (hroot : m'.root = m.root) (hcur : m'.curr_dir = m.curr_dir)
    (a : Nat) (hlive : (m.node a).isSome = true) (ha : Linked m m.root a)
    (hac : Linked m a m.curr_dir) :
    (m'.node a).isSome = true ∧ Linked m' m'.root a ∧
      Linked m' a m'.curr_dir := by
  have hforth : ∀ {x y}, Linked m x y → Linked m' x y :=
    fun h => linked_mono (fun b c hc => by rw [hs b]; exact hc) h
  rw [hroot, hcur]
  exact ⟨hl a hlive, hforth ha, hforth hac⟩

/-- A call of `rm` on pointers that returns keeps the shape of the memory,
the root and the current directory; the current directory, its ancestors
and the links between them are still there. -/
theorem rm_mem_valid {m : Memory} {depth : Nat → Nat} (hi : TreeInv m depth)
    (fuel : Nat) (arg : String) (r : Int × Memory)
    (h : rm_mem fuel m arg = some r) :
    TreeInv r.2 depth ∧ r.2.root = m.root ∧ r.2.curr_dir = m.curr_dir ∧
      ∀ a, Linked m m.root a → Linked m a m.curr_dir →
        (r.2.node a).isSome = true ∧ Linked r.2 r.2.root a ∧
          Linked r.2 a r.2.curr_dir := by
  have hsame : ∀ code, r = (code, m) →
      TreeInv r.2 depth ∧ r.2.root = m.root ∧ r.2.curr_dir = m.curr_dir ∧
        ∀ a, Linked m m.root a → Linked m a m.curr_dir →
          (r.2.node a).isSome = true ∧ Linked r.2 r.2.root a ∧
            Linked r.2 a r.2.curr_dir := by
    intro code e
    rw [e]
    exact ⟨hi, rfl, rfl, fun a ha hac => ⟨hi.live ha, ha, hac⟩⟩
  unfold rm_mem at h
  simp only at h
  split_ifs at h with h0 h1 h2 h3
  · exact hsame _ (Option.some.inj h).symm
  · exact hsame _ (Option.some.inj h).symm
  · exact hsame _ (Option.some.inj h).symm
  · rw [← Option.some.inj h]
    refine ⟨treeInv_write hi _ _ (hi.live hi.cursor) rfl rfl, rfl, rfl, ?_⟩
    intro a ha hac
    refine @same_links_valid m (m.write m.curr_dir
      ⟨(m.read m.curr_dir).dir_name,
        unlink_file arg (m.read m.curr_dir).file_list,
        (m.read m.curr_dir).sub_dir_list,
        (m.read m.curr_dir).parent_dir⟩) ?_ ?_ rfl rfl a (hi.live ha) ha hac
    · intro b
      rw [read_write]
      by_cases e : b = m.curr_dir
      · rw [if_pos e, e]
      · rw [if_neg e]
    · intro b hb
      rw [node_write]
      by_cases e : b = m.curr_dir
      · rw [if_pos e]; rfl
      · rw [if_neg e]; exact hb
  · cases hf : find_cell m arg (m.read m.curr_dir).sub_dir_list with
    | none =>
      rw [hf] at h
      exact hsame _ (Option.some.inj h).symm
    | some tmp =>
      rw [hf] at h
      simp only at h
      obtain ⟨hmem, hun⟩ := find_cell_spec m arg tmp _ hf
      rw [hun] at h
      cases hrc : remove_contents_mem fuel
          (m.write m.curr_dir
            ⟨(m.read m.curr_dir).dir_name, (m.read m.curr_dir).file_list,
              (m.read m.curr_dir).sub_dir_list.erase tmp,
              (m.read m.curr_dir).parent_dir⟩) tmp with
      | none => rw [hrc] at h; simp at h
      | some m2 =>
        rw [hrc] at h
        rw [← Option.some.inj h]
        have htl : Linked m m.root tmp := Linked.tail hi.cursor hmem
        have hcc := hi.child hi.cursor hmem
        have hcurD : ¬ Linked m tmp m.curr_dir := by
          intro hca
          rcases hi.depth_le htl hca with e | hlt
          · rw [e] at hcc; omega
          · omega
        obtain ⟨f1, f2, f3, f4, f5⟩ := remove_contents_mem_frame
          (m.write m.curr_dir
            ⟨(m.read m.curr_dir).dir_name, (m.read m.curr_dir).file_list,
              (m.read m.curr_dir).sub_dir_list.erase tmp,
              (m.read m.curr_dir).parent_dir⟩)
          (fun a => Linked m tmp a) (fun a => (m.read a).sub_dir_list) m.next
          (fun a ha x hx => Linked.tail ha hx)
          (fun a ha => by
            obtain ⟨n, hn, _⟩ := hi.nodes a (linked_trans htl ha)
            exact hi.fresh a n hn)
          tmp (Linked.refl _) fuel m2
          (fun a ha x hx => by
            rw [read_write] at hx
            by_cases e : a = m.curr_dir
            · exact absurd (e ▸ ha) hcurD
            · rw [if_neg e] at hx
              exact hx)
          (fun a n hn => by
            rw [node_write] at hn
            by_cases e : a = m.curr_dir
            · obtain ⟨x, hx⟩ := Option.isSome_iff_exists.1 (hi.live hi.cursor)
              exact e ▸ hi.fresh _ x hx
            · rw [if_neg e] at hn
              exact hi.fresh a n hn)
          hrc
        obtain ⟨g1, g2⟩ := rm_dir_valid hi tmp hmem m2 f1 f2 f3 f4 f5
        exact ⟨g1, f4, f5, g2⟩

/-- The shape of the memory holds in every reachable memory. -/
theorem treeInv_of_reachable (m : Memory) (hr : MReachable m) :
    ∃ depth, TreeInv m depth := by
  induction hr with
  | mkfs => exact ⟨_, treeInv_mkfs⟩
  | step c fuel r _ hrun ih =>
    obtain ⟨depth, hi⟩ := ih
    cases c with
    | touch arg =>
      rw [← Option.some.inj hrun]
      exact ⟨depth, treeInv_touch hi arg⟩
    | mkdir arg =>
      rw [← Option.some.inj hrun]
      exact ⟨_, treeInv_mkdir hi arg⟩
    | cd arg =>
      rw [← Option.some.inj hrun]
      exact ⟨depth, treeInv_cd hi arg⟩
    | rm arg => exact ⟨depth, (rm_mem_valid hi fuel arg r hrun).1⟩
    | re_name arg1 arg2 =>
      rw [← Option.some.inj hrun]
      exact ⟨depth, treeInv_re_name hi arg1 arg2⟩

theorem some_getD_of_isSome {α : Type} (o : Option α) (d : α)
    (h : o.isSome = true) : o = some (o.getD d) := by
  cases o with
  | none => simp at h
  | some x => rfl

/-! ## Claims about the cursor -/

/-- C18: the cursor is valid in every reachable memory.  The pointer
`curr_dir` points to an allocated directory that is the root or is reached
from the root through sub directory links.  Every call of `rm` returns when
enough passes of the loop of `remove_contents` are allowed; and a call of
`rm` that returns, whatever its result, gives a reachable memory, leaves
`root` and `curr_dir` as they are and frees or unlinks neither the current
directory nor any of its ancestors: each of them is still allocated, still
reached from the root, and the current directory is still reached from
it. -/
theorem cursor_valid (m : Memory) (hr : MReachable m) :
    (m.node m.curr_dir).isSome = true ∧ Linked m m.root m.curr_dir ∧
    (∀ n : String, ∃ fuel, (rm_mem fuel m n).isSome = true) ∧
    ∀ (fuel : Nat) (n : String) (r : Int × Memory),
      rm_mem fuel m n = some r →
      MReachable r.2 ∧ r.2.root = m.root ∧ r.2.curr_dir = m.curr_dir ∧
      ∀ a, Linked m m.root a → Linked m a m.curr_dir →
        (r.2.node a).isSome = true ∧ Linked r.2 r.2.root a ∧
          Linked r.2 a r.2.curr_dir := by
  obtain ⟨depth, hi⟩ := treeInv_of_reachable m hr
  refine ⟨hi.live hi.cursor, hi.cursor, fun n => rm_mem_returns hi n, ?_⟩
  intro fuel n r hrun
  obtain ⟨_, h2, h3, h4⟩ := rm_mem_valid hi fuel n r hrun
  exact ⟨MReachable.step (Cmd.rm n) fuel r hr hrun, h2, h3, h4⟩

/-- Witness of C18: inside `/a`, after `rm b` has freed the directory `b`
and the directory `d` in it (addresses 3 and 4); the root (address 1) and
the current directory `a` (address 2) are allocated, and a further `rm` of
a name that is not there changes nothing. -/
theorem cursor_valid_witness :
    MReachable example_mem ∧
      (example_mem.node example_mem.curr_dir).isSome = true ∧
      Linked example_mem example_mem.root example_mem.curr_dir ∧
      (example_mem.root = 1 ∧ example_mem.curr_dir = 2 ∧
        example_mem.node 1 = some ⟨"/", [], [2], 1⟩ ∧
        example_mem.node 2 = some ⟨"a", [], [], 1⟩ ∧
        example_mem.node 3 = none ∧ example_mem.node 4 = none) :=
  have hr : MReachable example_mem :=
    MReachable.step (Cmd.rm "b") 2 _
      (MReachable.step (Cmd.cd "..") 0 _
        (MReachable.step (Cmd.mkdir "d") 0 _
          (MReachable.step (Cmd.cd "b") 0 _
            (MReachable.step (Cmd.mkdir "b") 0 _
              (MReachable.step (Cmd.cd "a") 0 _
                (MReachable.step (Cmd.mkdir "a") 0 _ MReachable.mkfs rfl)
                rfl) rfl) rfl) rfl) rfl)
      (some_getD_of_isSome _ _ (by decide))
  ⟨hr, (cursor_valid _ hr).1, (cursor_valid _ hr).2.1,
    by decide, by decide, by decide, by decide, by decide, by decide⟩

/-- C19: only `cd` moves the cursor.  In a reachable file system a call of
`touch`, `mkdir`, `rm` or `re_name`, whatever it returns, leaves the parent
chain (the ancestors with their names, and the place of the current
directory under them) and the name of the current directory as they are;
the names on the way from the root and the text `pwd` prints are the
same. -/
theorem only_cd_moves_cursor (files : Filesystem) (_hr : Reachable files)
    (c : Cmd) (hc : ∀ arg, c ≠ Cmd.cd arg) :
    (c.run files).2.parents = files.parents ∧
      (c.run files).2.curr_dir.dir_name = files.curr_dir.dir_name ∧
      (c.run files).2.path_names = files.path_names ∧
      pwd (c.run files).2 = pwd files := by
  obtain ⟨h1, h2⟩ := run_keeps_cursor c files hc
  refine ⟨h1, h2, ?_, pwd_congr files _ h1 h2⟩
  unfold Filesystem.path_names
  rw [h1, h2]

/-- Witness of C19: `re_name` inside the directory `a` made in the root. -/
theorem only_cd_moves_cursor_witness :
    Reachable (cd (mkdir mkfs "a").2 "a").2 ∧
      pwd ((Cmd.re_name "a" "b").run (cd (mkdir mkfs "a").2 "a").2).2
        = pwd (cd (mkdir mkfs "a").2 "a").2 :=
  have hr : Reachable (cd (mkdir mkfs "a").2 "a").2 :=
    Reachable.step (Cmd.cd "a") (Reachable.step (Cmd.mkdir "a") Reachable.mkfs)
  ⟨hr, (only_cd_moves_cursor _ hr (Cmd.re_name "a" "b")
    (fun _ h => Cmd.noConfusion h)).2.2.2⟩

/-! ## Claims about the locality of changes -/

theorem ls_dot (files : Filesystem) :
    ls files "." = (0, sort_and_print files.curr_dir) := by
  simp [ls, strcmp_eq_zero_iff]

/-- The listing of a directory depends on the names of its files and of its
sub directories only. -/
theorem sort_and_print_congr (d1 d2 : Directory)
    (hf : d1.file_list = d2.file_list)
    (hs : d1.sub_dir_names = d2.sub_dir_names) :
    sort_and_print d1 = sort_and_print d2 := by
  have hs' : d1.sub_dir_list.map Directory.dir_name =
      d2.sub_dir_list.map Directory.dir_name := hs
  have hd : ∀ str, is_dir d1 str = is_dir d2 str := by
    intro str
    rw [Bool.eq_iff_iff, is_dir_iff, is_dir_iff, hs]
  unfold sort_and_print
  simp only [hf, hs', hd]

/-- C20: changes are local to the current directory.  In a reachable file
system, for the name `n` of a sub directory of the current directory and any
name `x`, the calls `cd n`, `touch x`, `cd ..` (the two `cd` return 0) bring
the cursor back to the directory it was in: same parent chain, same name,
same files, same sub directory names; and `ls .` prints there what it
printed before.  The file system afterwards is the one before with a single
difference: the first sub directory named `n` has the file `x` behind its
other files when `x` is a name `touch` creates there (not empty, none of
`.`, `..`, `/`, no child of that sub directory); the other sub directories,
what is below them and below `n`, and the ancestors are as they were. -/
theorem mutation_local (files : Filesystem) (hr : Reachable files)
    (n x : String) (hn : n ∈ files.curr_dir.sub_dir_names) :
    (cd files n).1 = 0 ∧
    (cd (touch (cd files n).2 x).2 "..").1 = 0 ∧
    (cd (touch (cd files n).2 x).2 "..").2.parents = files.parents ∧
    (cd (touch (cd files n).2 x).2 "..").2.curr_dir.dir_name
      = files.curr_dir.dir_name ∧
    (cd (touch (cd files n).2 x).2 "..").2.curr_dir.file_list
      = files.curr_dir.file_list ∧
    (cd (touch (cd files n).2 x).2 "..").2.curr_dir.sub_dir_names
      = files.curr_dir.sub_dir_names ∧
    ls (cd (touch (cd files n).2 x).2 "..").2 "." = ls files "." ∧
    ∃ pre t post, files.curr_dir.sub_dir_list = pre ++ t :: post ∧
      t.dir_name = n ∧ (∀ y ∈ pre, y.dir_name ≠ n) ∧
      (cd (touch (cd files n).2 x).2 "..").2 =
        ⟨.mk files.curr_dir.dir_name files.curr_dir.file_list
          (pre ++ Directory.mk n
            (if x = "" ∨ (x = "." ∨ x = ".." ∨ x = "/") ∨ x ∈ t.child_names
              then t.file_list else t.file_list ++ [x])
            t.sub_dir_list :: post),
          files.parents⟩ := by
  have hk := (namesOK_iff _).1 (namesInv_of_reachable files hr).1
  have hs := (noShare_iff _).1 (noShareInv_of_reachable files hr).1
  obtain ⟨s, hsm, hse⟩ := List.mem_map.1 hn
  have hok : ok_name n := hse ▸ hk.2.1 s hsm
  have hf : n ∉ files.curr_dir.file_list := fun h => hs.1 n h hn
  obtain ⟨pre, t, post, e1, e2, e3, e4⟩ :=
    cd_sub_dir files n hok.2.2.2 hok.2.1 hok.1 hok.2.2.1 hf hn
  have ht : (touch ⟨t, ⟨files.curr_dir.dir_name, files.curr_dir.file_list,
        pre, post⟩ :: files.parents⟩ x).2 =
      ⟨Directory.mk n
        (if x = "" ∨ (x = "." ∨ x = ".." ∨ x = "/") ∨ x ∈ t.child_names
          then t.file_list else t.file_list ++ [x]) t.sub_dir_list,
        ⟨files.curr_dir.dir_name, files.curr_dir.file_list, pre, post⟩
          :: files.parents⟩ := by
    rw [touch_eq]
    by_cases c0 : x = ""
    · rw [if_pos c0, if_pos (Or.inl c0), ← e2, directory_mk_eta]
    · rw [if_neg c0]
      by_cases c1 : (x = "." ∨ x = ".." ∨ x = "/") ∨ x ∈ t.child_names
      · rw [if_pos c1, if_pos (Or.inr c1), ← e2, directory_mk_eta]
      · rw [if_neg c1, if_neg (fun h => h.elim c0 c1), e2]
  have hfin : (cd (touch (cd files n).2 x).2 "..").2 =
      ⟨.mk files.curr_dir.dir_name files.curr_dir.file_list
        (pre ++ Directory.mk n
          (if x = "" ∨ (x = "." ∨ x = ".." ∨ x = "/") ∨ x ∈ t.child_names
            then t.file_list else t.file_list ++ [x])
          t.sub_dir_list :: post),
        files.parents⟩ := by
    rw [e4]
    simp only
    rw [ht, cd_dotdot, dir_name_mk, if_neg hok.2.2.2]
    rfl
  have hcode : (cd (touch (cd files n).2 x).2 "..").1 = 0 := by
    rw [cd_dotdot]
    split_ifs <;> rfl
  have hnames : (Directory.mk files.curr_dir.dir_name files.curr_dir.file_list
        (pre ++ Directory.mk n
          (if x = "" ∨ (x = "." ∨ x = ".." ∨ x = "/") ∨ x ∈ t.child_names
            then t.file_list else t.file_list ++ [x])
          t.sub_dir_list :: post)).sub_dir_names =
      files.curr_dir.sub_dir_names := by
    rw [sub_dir_names_mk, Directory.sub_dir_names, e1, List.map_append,
      List.map_append, List.map_cons, List.map_cons, dir_name_mk, e2]
  refine ⟨by rw [e4], hcode, by rw [hfin], by rw [hfin, dir_name_mk],
    by rw [hfin, file_list_mk], by rw [hfin]; exact hnames, ?_,
    pre, t, post, e1, e2, e3, hfin⟩
  rw [ls_dot, ls_dot, hfin]
  exact congrArg (Prod.mk 0) (sort_and_print_congr _ _ rfl hnames)

/-- Witness of C20: after `mkdir a`, `mkdir b` from `mkfs`, the calls
`cd a`, `touch x`, `cd ..` are followed by an `ls .` that prints `a/` and
`b/`; the file `x` is in the directory `a` and nowhere else. -/
theorem mutation_local_witness :
    Reachable (mkdir (mkdir mkfs "a").2 "b").2 ∧
      "a" ∈ (mkdir (mkdir mkfs "a").2 "b").2.curr_dir.sub_dir_names ∧
      ls (cd (touch (cd (mkdir (mkdir mkfs "a").2 "b").2 "a").2 "x").2 "..").2
          "." = ls (mkdir (mkdir mkfs "a").2 "b").2 "." ∧
      ls (cd (touch (cd (mkdir (mkdir mkfs "a").2 "b").2 "a").2 "x").2 "..").2
          "." = (0, ["a/", "b/"]) ∧
      (cd (touch (cd (mkdir (mkdir mkfs "a").2 "b").2 "a").2 "x").2 "..").2 =
        ⟨.mk "/" [] [.mk "a" ["x"] [], .mk "b" [] []], []⟩ :=
  have hr : Reachable (mkdir (mkdir mkfs "a").2 "b").2 :=
    Reachable.step (Cmd.mkdir "b")
      (Reachable.step (Cmd.mkdir "a") Reachable.mkfs)
  ⟨hr, by decide,
    (mutation_local (mkdir (mkdir mkfs "a").2 "b").2 hr "a" "x"
      (by decide)).2.2.2.2.2.2.1,
    by decide, rfl⟩

/-! ## Claims about the invariants of names -/

theorem noShare_reaches {r d : Directory} (h : NoShare r)
    (hd : Reaches r d) : NoShare d := by
  induction hd with
  | refl _ => exact h
  | step hm _ ih => exact ih (((noShare_iff _).1 h).2 _ hm)

theorem namesOK_reaches {r d : Directory} (h : NamesOK r)
    (hd : Reaches r d) : NamesOK d := by
  induction hd with
  | refl _ => exact h
  | step hm _ ih => exact ih (((namesOK_iff _).1 h).2.2 _ hm)

/-- C23: files and sub directories never share a name.  In every reachable
file system, no directory of the tree has a file with the name of one of its
sub directories; so `is_dir`, the test by name that `sort_and_print` uses,
holds for the names of the sub directories and for no file name. -/
theorem files_and_dirs_never_share (files : Filesystem)
    (hr : Reachable files) (d : Directory) (hd : Reaches files.root d) :
    (∀ x ∈ d.file_list, x ∉ d.sub_dir_names) ∧
    (∀ str, is_dir d str = true ↔ str ∈ d.sub_dir_names) ∧
    (∀ x ∈ d.file_list, is_dir d x = false) := by
  have hroot : NoShare files.root :=
    (noShareInv_toRoot files.parents files.curr_dir
      (noShareInv_of_reachable files hr)).1
  have hk := (noShare_iff _).1 (noShare_reaches hroot hd)
  refine ⟨hk.1, is_dir_iff d, ?_⟩
  intro x hx
  rw [← Bool.not_eq_true, is_dir_iff]
  exact hk.1 x hx

/-- Witness of C23: the root after `touch f` and `mkdir d` from `mkfs`. -/
theorem files_and_dirs_never_share_witness :
    Reachable (mkdir (touch mkfs "f").2 "d").2 ∧
      Reaches (mkdir (touch mkfs "f").2 "d").2.root
        (mkdir (touch mkfs "f").2 "d").2.curr_dir ∧
      ∀ x ∈ (mkdir (touch mkfs "f").2 "d").2.curr_dir.file_list,
        x ∉ (mkdir (touch mkfs "f").2 "d").2.curr_dir.sub_dir_names :=
  have hr : Reachable (mkdir (touch mkfs "f").2 "d").2 :=
    Reachable.step (Cmd.mkdir "d") (Reachable.step (Cmd.touch "f") Reachable.mkfs)
  ⟨hr, Reaches.refl _,
    (files_and_dirs_never_share _ hr _ (Reaches.refl _)).1⟩

/-- C24: the test for the root by name is sound.  In every reachable file
system the root is named `/`; in every directory of the tree every file and
every sub directory (that is, every directory other than the root) has a
name that is not empty and none of `.`, `..`, `/`; and the name of the
current directory is `/` exactly when the current directory is the root. -/
theorem root_test_by_name (files : Filesystem) (hr : Reachable files) :
    files.root.dir_name = "/" ∧
    (∀ d, Reaches files.root d →
      (∀ x ∈ d.file_list, x ≠ "" ∧ x ≠ "." ∧ x ≠ ".." ∧ x ≠ "/") ∧
      (∀ s ∈ d.sub_dir_list,
        s.dir_name ≠ "" ∧ s.dir_name ≠ "." ∧ s.dir_name ≠ ".." ∧
          s.dir_name ≠ "/")) ∧
    (files.curr_dir.dir_name = "/" ↔ files.parents = []) := by
  have hroot := namesInv_toRoot files.parents files.curr_dir
    (namesInv_of_reachable files hr)
  refine ⟨hroot.2, ?_, root_test_sound files hr⟩
  intro d hd
  have hk := (namesOK_iff _).1 (namesOK_reaches hroot.1 hd)
  exact ⟨hk.1, hk.2.1⟩

/-- Witness of C24: inside the directory `d` made in the root. -/
theorem root_test_by_name_witness :
    Reachable (cd (mkdir mkfs "d").2 "d").2 ∧
      (cd (mkdir mkfs "d").2 "d").2.root.dir_name = "/" ∧
      ((cd (mkdir mkfs "d").2 "d").2.curr_dir.dir_name = "/" ↔
        (cd (mkdir mkfs "d").2 "d").2.parents = []) :=
  have hr : Reachable (cd (mkdir mkfs "d").2 "d").2 :=
    Reachable.step (Cmd.cd "d") (Reachable.step (Cmd.mkdir "d") Reachable.mkfs)
  ⟨hr, (root_test_by_name _ hr).1, (root_test_by_name _ hr).2.2⟩

/-! ## Claims about create and remove, and about `pwd` after `cd` -/

theorem unlink_new_sub_dir (n : String) (l : List Directory)
    (h : n ∉ l.map Directory.dir_name) :
    unlink_sub_dir n (l ++ [Directory.mk n [] []]) = l := by
  induction l with
  | nil => simp [unlink_sub_dir, strcmp_eq_zero_iff]
  | cons d rest ih =>
    simp only [List.map_cons, List.mem_cons, not_or] at h
    rw [List.cons_append, unlink_sub_dir,
      if_neg (fun e => h.1 ((strcmp_eq_zero_iff _ _).1 e)), ih h.2]

/-- C25: create followed by remove is the identity.  For a non-empty name
that is none of `.`, `..`, `/` and names no child of the current directory,
`mkdir` and then `rm` of that name both return 0 and give back the file
system as it was (same files, same sub directories in the same order, same
cursor); so do `touch` and then `rm`. -/
theorem create_then_remove (files : Filesystem) (n : String) (h0 : n ≠ "")
    (h1 : n ≠ ".") (h2 : n ≠ "..") (h3 : n ≠ "/")
    (hc : n ∉ files.curr_dir.child_names) :
    (mkdir files n).1 = 0 ∧ rm (mkdir files n).2 n = (0, files) ∧
      (touch files n).1 = 0 ∧ rm (touch files n).2 n = (0, files) := by
  have hsp : ¬ (n = "." ∨ n = ".." ∨ n = "/") := by
    rintro (h | h | h)
    · exact h1 h
    · exact h2 h
    · exact h3 h
  have hcond : ¬ ((n = "." ∨ n = ".." ∨ n = "/") ∨
      n ∈ files.curr_dir.child_names) := fun h => h.elim hsp hc
  have hc' := hc
  rw [mem_child_names] at hc'
  simp only [not_or] at hc'
  have hm : mkdir files n =
      (0, ⟨.mk files.curr_dir.dir_name files.curr_dir.file_list
            (files.curr_dir.sub_dir_list ++ [.mk n [] []]),
          files.parents⟩) := by
    rw [mkdir_eq, if_neg h0, if_neg hcond]
  have ht : touch files n =
      (0, ⟨.mk files.curr_dir.dir_name (files.curr_dir.file_list ++ [n])
            files.curr_dir.sub_dir_list, files.parents⟩) := by
    rw [touch_eq, if_neg h0, if_neg hcond]
  refine ⟨by rw [hm], ?_, by rw [ht], ?_⟩
  · rw [hm, rm_eq, if_neg h0, if_neg hsp]
    simp only [file_list_mk, sub_dir_list_mk, dir_name_mk, sub_dir_names_mk]
    rw [if_neg hc'.1, if_pos (by simp),
      unlink_new_sub_dir n _ hc'.2, filesystem_mk_eta]
  · rw [ht, rm_eq, if_neg h0, if_neg hsp]
    simp only [file_list_mk, sub_dir_list_mk, dir_name_mk]
    rw [if_pos (by simp), List.erase_append_right _ hc'.1]
    simp only [List.erase_cons_head, List.append_nil]
    rw [filesystem_mk_eta]

/-- Witness of C25: `mkdir d`, `rm d` and `touch d`, `rm d` after
`touch f` from `mkfs`. -/
theorem create_then_remove_witness :
    rm (mkdir (touch mkfs "f").2 "d").2 "d" = (0, (touch mkfs "f").2) ∧
      rm (touch (touch mkfs "f").2 "d").2 "d" = (0, (touch mkfs "f").2) :=
  ⟨(create_then_remove (touch mkfs "f").2 "d" (by decide) (by decide)
      (by decide) (by decide) (by decide)).2.1,
    (create_then_remove (touch mkfs "f").2 "d" (by decide) (by decide)
      (by decide) (by decide) (by decide)).2.2.2⟩

/-- C26: `pwd` tracks `cd`.  In a reachable file system, for the name `n`
of a sub directory of the current directory, `pwd` after `cd n` prints `/`
followed by `n` when the current directory was the root, and otherwise what
it printed before followed by `/` and `n`; after `cd /` it prints `/`. -/
theorem pwd_tracks_cd (files : Filesystem) (hr : Reachable files)
    (n : String) (hn : n ∈ files.curr_dir.sub_dir_names) :
    (files.parents = [] → pwd (cd files n).2 = some ("/" ++ n)) ∧
    (files.parents ≠ [] →
      ∃ old, pwd files = some old ∧
        pwd (cd files n).2 = some (old ++ "/" ++ n)) ∧
    pwd (cd files "/").2 = some "/" := by
  have hinv := namesInv_of_reachable files hr
  have hk := (namesOK_iff _).1 hinv.1
  have hs := (noShare_iff _).1 (noShareInv_of_reachable files hr).1
  obtain ⟨s, hsm, hse⟩ := List.mem_map.1 hn
  have hok : ok_name n := hse ▸ hk.2.1 s hsm
  have hf : n ∉ files.curr_dir.file_list := fun h => hs.1 n h hn
  obtain ⟨pre, t, post, _, e2, _, e4⟩ :=
    cd_sub_dir files n hok.2.2.2 hok.2.1 hok.1 hok.2.2.1 hf hn
  have hinv' := namesInv_cd files n hinv
  have hnew := (pwd_eq (cd files n).2 hinv').2
  rw [e4] at hnew
  have hline : pwd (cd files n).2 =
      some (render_path files.path_names ++ "/" ++ n) := by
    rw [e4]
    rw [hnew (List.cons_ne_nil _ _)]
    simp only [Filesystem.path_names, chain_names, e2, render_path_append,
      render_path, String.append_empty, String.append_assoc]
  refine ⟨?_, ?_, ?_⟩
  · intro hp
    rw [hline]
    simp only [Filesystem.path_names, hp, chain_names, render_path,
      String.empty_append]
  · intro hp
    exact ⟨render_path files.path_names, (pwd_eq files hinv).2 hp, hline⟩
  · rw [cd_slash]
    exact (pwd_eq ⟨files.root, []⟩
      (namesInv_toRoot files.parents files.curr_dir hinv)).1 rfl

/-- Witness of C26: `cd b` inside `/a`, after `mkdir a`, `cd a`, `mkdir b`
from `mkfs`, makes `pwd` print `/a/b`. -/
theorem pwd_tracks_cd_witness :
    Reachable (mkdir (cd (mkdir mkfs "a").2 "a").2 "b").2 ∧
      pwd (mkdir (cd (mkdir mkfs "a").2 "a").2 "b").2 = some "/a" ∧
      pwd (cd (mkdir (cd (mkdir mkfs "a").2 "a").2 "b").2 "b").2
        = some "/a/b" :=
  have hr : Reachable (mkdir (cd (mkdir mkfs "a").2 "a").2 "b").2 :=
    Reachable.step (Cmd.mkdir "b") (Reachable.step (Cmd.cd "a")
      (Reachable.step (Cmd.mkdir "a") Reachable.mkfs))
  ⟨hr, rfl,
    Exists.elim ((pwd_tracks_cd _ hr "b" (by decide)).2.1
        (List.cons_ne_nil _ _))
      (fun old h => by
        have e : old = "/a" := Option.some.inj (h.1.symm.trans rfl)
        rw [h.2, e]
        rfl)⟩

/-! ## Facts about the loop of `remove_contents` -/

theorem exists_last_of_cons (c : Directory) (cs : List Directory) :
    ∃ front ck, c :: cs = front ++ [ck] := by
  rcases List.eq_nil_or_concat (c :: cs) with h | ⟨L, b, h⟩
  · exact absurd h (List.cons_ne_nil _ _)
  · exact ⟨L, b, by rw [h, List.concat_eq_append]⟩

/-- The inner loop stops at the last cell, with all other cells in front. -/
theorem walk_to_last_eq :
    ∀ (cs : List Directory) (c : Directory) (before front : List Directory)
      (ck : Directory), c :: cs = front ++ [ck] →
      walk_to_last c before cs = (ck, before ++ front)
  | [], c, before, front, ck, h => by
    cases front with
    | nil =>
      simp only [List.nil_append, List.cons.injEq, and_true] at h
      simp [walk_to_last, h]
    | cons a l =>
      have hl := congrArg List.length h
      simp at hl
  | nx :: after, c, before, front, ck, h => by
    cases front with
    | nil =>
      have hl := congrArg List.length h
      simp at hl
    | cons a l =>
      simp only [List.cons_append, List.cons.injEq] at h
      rw [walk_to_last, walk_to_last_eq after nx (before ++ [c]) l ck h.2, h.1]
      simp

theorem toRoot_append :
    ∀ (a b : List Parent) (d : Directory),
      toRoot d (a ++ b) = toRoot (toRoot d a) b
  | [], _, _ => rfl
  | p :: a, b, d => by
    rw [List.cons_append, toRoot, toRoot, toRoot_append a b]

theorem toRoot_sub_dir_list_ne_nil :
    ∀ (above : List Parent) (d : Directory),
      d.sub_dir_list ≠ [] ∨ above ≠ [] → (toRoot d above).sub_dir_list ≠ []
  | [], d, h => by
    rcases h with h | h
    · exact h
    · exact absurd rfl h
  | p :: ps, d, _ => by
    rw [toRoot]
    exact toRoot_sub_dir_list_ne_nil ps (p.rebuild d)
      (Or.inl (by simp [Parent.rebuild]))

theorem toRoot_last_cell (n : String) (f : List String)
    (front : List Directory) (ck : Directory) (above : List Parent) :
    toRoot (.mk ck.dir_name ck.file_list ck.sub_dir_list)
        (⟨n, f, front, []⟩ :: above)
      = toRoot (.mk n f (front ++ [ck])) above := by
  rw [toRoot, directory_mk_eta]
  rfl

theorem places_cons (p : Parent) (above : List Parent) :
    places (p :: above) = places above ++ [p.before.length] := by
  simp [places]

theorem travel_start_cons (dir : Directory) (x : Directory)
    (xs : List Directory) (h : dir.sub_dir_list = x :: xs) :
    travel_start dir = some ⟨x, ⟨dir.dir_name, dir.file_list, [], xs⟩, []⟩ := by
  simp [travel_start, h]

/-- The loop is over when the list of `dir` is empty. -/
theorem loop_done (fuel : Nat) (dir : Directory) (t : Option Travel)
    (freed : List Freed) (h : dir.sub_dir_list = []) :
    remove_contents_loop fuel dir t freed = some (dir, freed) := by
  cases fuel <;> simp [remove_contents_loop, h]

/-- A pass that goes down: the last cell holds a directory with sub
directories. -/
theorem loop_descend (fuel : Nat) (dir : Directory) (t : Travel)
    (freed : List Freed) (w : Directory) (b : List Directory)
    (c : Directory) (cs : List Directory) (hd : dir.sub_dir_list ≠ [])
    (hw : walk_to_last t.curr_sub t.owner.before t.owner.after = (w, b))
    (hs : w.sub_dir_list = c :: cs) :
    remove_contents_loop (fuel + 1) dir (some t) freed =
      remove_contents_loop fuel dir
        (some ⟨c, ⟨w.dir_name, w.file_list, [], cs⟩,
          ⟨t.owner.dir_name, t.owner.file_list, b, []⟩ :: t.above⟩) freed := by
  cases hdl : dir.sub_dir_list with
  | nil => exact absurd hdl hd
  | cons y ys => simp only [remove_contents_loop, hdl, hw, hs]

/-- A pass that frees: the last cell holds a directory without sub
directories. -/
theorem loop_delete (fuel : Nat) (dir : Directory) (t : Travel)
    (freed : List Freed) (w : Directory) (b : List Directory)
    (hd : dir.sub_dir_list ≠ [])
    (hw : walk_to_last t.curr_sub t.owner.before t.owner.after = (w, b))
    (hs : w.sub_dir_list = []) :
    remove_contents_loop (fuel + 1) dir (some t) freed =
      remove_contents_loop fuel
        (toRoot (.mk t.owner.dir_name t.owner.file_list b) t.above)
        (travel_start
          (toRoot (.mk t.owner.dir_name t.owner.file_list b) t.above))
        (freed ++ (free_files w.file_list ++
          [Freed.dir (places t.above ++ [b.length]) w.dir_name])) := by
  cases hdl : dir.sub_dir_list with
  | nil => exact absurd hdl hd
  | cons y ys => simp only [remove_contents_loop, hdl, hw, hs]

/-- Going down again after a restart: from the first cell of the top list,
one pass for each ancestor leads back to the first cell of the list of the
innermost directory, when every ancestor is the last of its list. -/
theorem loop_redescend (n : String) (f : List String) (c : Directory)
    (cs : List Directory) (dir : Directory) (hdir : dir.sub_dir_list ≠ [])
    (freed : List Freed) (inner : List Parent) :
    (∀ p ∈ inner, p.after = []) → ∀ (outer : List Parent) (fuel : Nat),
      ∃ x xs, (toRoot (.mk n f (c :: cs)) inner).sub_dir_list = x :: xs ∧
        remove_contents_loop (inner.length + fuel) dir
          (some ⟨x, ⟨(toRoot (.mk n f (c :: cs)) inner).dir_name,
            (toRoot (.mk n f (c :: cs)) inner).file_list, [], xs⟩, outer⟩)
          freed =
        remove_contents_loop fuel dir
          (some ⟨c, ⟨n, f, [], cs⟩, inner ++ outer⟩) freed := by
  induction inner using List.reverseRecOn with
  | nil =>
    intro _ outer fuel
    exact ⟨c, cs, rfl, by simp [toRoot]⟩
  | append_singleton l g ih =>
    intro hall outer fuel
    have hg : g.after = [] := hall g (by simp)
    have hl : ∀ p ∈ l, p.after = [] :=
      fun p hp => hall p (List.mem_append_left _ hp)
    obtain ⟨x', xs', hX, hloop⟩ := ih hl (g :: outer) fuel
    have hroot : toRoot (.mk n f (c :: cs)) (l ++ [g]) =
        .mk g.dir_name g.file_list
          (g.before ++ [toRoot (.mk n f (c :: cs)) l]) := by
      rw [toRoot_append, toRoot, toRoot, Parent.rebuild, hg]
    have hne : g.before ++ [toRoot (.mk n f (c :: cs)) l] ≠ [] := by simp
    cases hxs : g.before ++ [toRoot (.mk n f (c :: cs)) l] with
    | nil => exact absurd hxs hne
    | cons x xs =>
      refine ⟨x, xs, by rw [hroot, sub_dir_list_mk, hxs], ?_⟩
      have hw := walk_to_last_eq xs x [] g.before
        (toRoot (.mk n f (c :: cs)) l) hxs.symm
      have hfuel : (l ++ [g]).length + fuel = (l.length + fuel) + 1 := by
        simp only [List.length_append, List.length_singleton]; omega
      have hgeq : (⟨g.dir_name, g.file_list, [] ++ g.before, []⟩ : Parent)
          = g := by
        cases g
        simp only [List.nil_append] at hg ⊢
        simp [hg]
      rw [hfuel, hroot, dir_name_mk, file_list_mk]
      rw [loop_descend (l.length + fuel) dir
        ⟨x, ⟨g.dir_name, g.file_list, [], xs⟩, outer⟩ freed
        (toRoot (.mk n f (c :: cs)) l) ([] ++ g.before) x' xs' hdir hw hX]
      simp only
      rw [hgeq, hloop, List.append_assoc]
      rfl

theorem sizeOf_append_singleton (l : List Directory) (a : Directory) :
    sizeOf (l ++ [a]) = sizeOf l + sizeOf a + 1 := by
  induction l with
  | nil =>
    simp only [List.nil_append, List.cons.sizeOf_spec, List.nil.sizeOf_spec]
  | cons x xs ih =>
    simp only [List.cons_append, List.cons.sizeOf_spec, ih]
    omega

theorem destroy_order_list_append (place : List Nat) :
    ∀ (front : List Directory) (i : Nat) (ck : Directory),
      destroy_order_list place i (front ++ [ck]) =
        destroy_order (place ++ [i + front.length]) ck ++
          destroy_order_list place i front
  | [], i, ck => by
    simp [destroy_order_list]
  | x :: l, i, ck => by
    rw [List.cons_append, destroy_order_list,
      destroy_order_list_append place l (i + 1) ck, destroy_order_list,
      List.append_assoc]
    have e : i + 1 + l.length = i + (x :: l).length := by
      simp only [List.length_cons]; omega
    rw [e]

theorem depth_sum_list_append (a : Nat) :
    ∀ (front : List Directory) (ck : Directory),
      depth_sum_list a (front ++ [ck]) =
        depth_sum_list a front + depth_sum a ck
  | [], ck => by simp [depth_sum_list]
  | x :: l, ck => by
    rw [List.cons_append, depth_sum_list, depth_sum_list_append a l ck,
      depth_sum_list]
    omega

/-- The loop that frees the files frees each cell of the list once, in list
order. -/
theorem free_files_eq_map (l : List String) :
    free_files l = l.map Freed.file := by
  induction l with
  | nil => rfl
  | cons x rest ih => rw [free_files, ih, List.map_cons]

theorem destroy_order_leaf (place : List Nat) (d : Directory)
    (h : d.sub_dir_list = []) :
    destroy_order place d =
      free_files d.file_list ++ [Freed.dir place d.dir_name] := by
  cases d with
  | mk n f s =>
    simp only [sub_dir_list_mk] at h
    subst h
    simp [destroy_order, destroy_order_list, free_files_eq_map]

theorem destroy_order_eq (place : List Nat) (d : Directory) :
    destroy_order place d =
      destroy_order_list place 0 d.sub_dir_list ++
        (free_files d.file_list ++ [Freed.dir place d.dir_name]) := by
  cases d with
  | mk n f s => rw [destroy_order, free_files_eq_map]; rfl

theorem depth_sum_eq (a : Nat) (d : Directory) :
    depth_sum a d = depth_sum_list (a + 1) d.sub_dir_list + a := by
  cases d with
  | mk n f s => rw [depth_sum]; rfl

/-- The loop destroys a whole list: from the first cell of the list of a
directory whose ancestors are each the last of their list, it comes, after
a number of passes given by the depths, to the restart with that list
empty, and has freed the list in bottom-up order. -/
theorem loop_destroys_list :
    ∀ (sz : Nat) (c : Directory) (cs : List Directory) (n : String)
      (f : List String) (above : List Parent) (freed : List Freed),
      sizeOf (c :: cs) ≤ sz → (∀ p ∈ above, p.after = []) →
      ∃ k, k + above.length = depth_sum_list (above.length + 1) (c :: cs) ∧
        ∀ fuel,
          remove_contents_loop (k + fuel) (toRoot (.mk n f (c :: cs)) above)
              (some ⟨c, ⟨n, f, [], cs⟩, above⟩) freed =
            remove_contents_loop fuel (toRoot (.mk n f []) above)
              (travel_start (toRoot (.mk n f []) above))
              (freed ++ destroy_order_list (places above) 0 (c :: cs))
  | 0, c, cs, _, _, _, _, hsz, _ => by
    simp only [List.cons.sizeOf_spec] at hsz
    omega
  | sz + 1, c, cs, n, f, above, freed, hsz, hall => by
    obtain ⟨front, ck, hL⟩ := exists_last_of_cons c cs
    have hw := walk_to_last_eq cs c [] front ck hL
    have hdir : (toRoot (.mk n f (c :: cs)) above).sub_dir_list ≠ [] :=
      toRoot_sub_dir_list_ne_nil above _ (Or.inl (by simp))
    have hsize : sizeOf (c :: cs) = sizeOf front + sizeOf ck + 1 := by
      rw [hL, sizeOf_append_singleton]
    have hck : sizeOf ck =
        1 + sizeOf ck.dir_name + sizeOf ck.file_list
          + sizeOf ck.sub_dir_list := by
      cases ck; simp
    -- what remains to do once the last cell has been cut off
    have hrest : ∀ (freed1 : List Freed),
        ∃ k, (front = [] → k = 0) ∧
          (front ≠ [] →
            k + above.length = above.length +
              depth_sum_list (above.length + 1) front) ∧
          ∀ fuel,
            remove_contents_loop (k + fuel) (toRoot (.mk n f front) above)
                (travel_start (toRoot (.mk n f front) above)) freed1 =
              remove_contents_loop fuel (toRoot (.mk n f []) above)
                (travel_start (toRoot (.mk n f []) above))
                (freed1 ++ destroy_order_list (places above) 0 front) := by
      intro freed1
      cases hfront : front with
      | nil =>
        exact ⟨0, fun _ => rfl, fun h => absurd rfl h, fun fuel => by
          simp [destroy_order_list]⟩
      | cons c1 cs1 =>
        have hs1 : sizeOf (c1 :: cs1) ≤ sz := by
          rw [← hfront]; omega
        obtain ⟨k1, hk1, hrun1⟩ :=
          loop_destroys_list sz c1 cs1 n f above freed1 hs1 hall
        have hd1 : (toRoot (.mk n f (c1 :: cs1)) above).sub_dir_list ≠ [] :=
          toRoot_sub_dir_list_ne_nil above _ (Or.inl (by simp))
        refine ⟨above.length + k1, fun h => absurd h (by simp),
          fun _ => by omega, fun fuel => ?_⟩
        obtain ⟨x, xs, hx, hre⟩ := loop_redescend n f c1 cs1
          (toRoot (.mk n f (c1 :: cs1)) above) hd1 freed1 above hall []
          (k1 + fuel)
        rw [travel_start_cons _ x xs hx,
          show above.length + k1 + fuel = above.length + (k1 + fuel) by omega,
          hre, List.append_nil, hrun1 fuel]
    cases hs : ck.sub_dir_list with
    | nil =>
      obtain ⟨k, hk0, hk1, hrun⟩ := hrest
        (freed ++ (free_files ck.file_list ++
          [Freed.dir (places above ++ [([] ++ front).length]) ck.dir_name]))
      refine ⟨k + 1, ?_, fun fuel => ?_⟩
      · rw [hL, depth_sum_list_append, depth_sum_eq, hs]
        simp only [depth_sum_list]
        by_cases hf : front = []
        · rw [hk0 hf, hf]
          simp only [depth_sum_list]
          omega
        · have := hk1 hf
          omega
      · rw [show k + 1 + fuel = (k + fuel) + 1 by omega,
          loop_delete (k + fuel) _ ⟨c, ⟨n, f, [], cs⟩, above⟩ freed ck
            ([] ++ front) hdir hw hs]
        simp only [List.nil_append]
        simp only [List.nil_append] at hrun
        rw [hrun fuel, hL, destroy_order_list_append,
          destroy_order_leaf _ ck hs]
        simp
    | cons c' cs' =>
      have hs' : sizeOf (c' :: cs') ≤ sz := by
        rw [hs] at hck; omega
      obtain ⟨k1, hk1, hrun1⟩ := loop_destroys_list sz c' cs' ck.dir_name
        ck.file_list (⟨n, f, front, []⟩ :: above) freed hs'
        (by
          intro p hp
          rcases List.mem_cons.1 hp with e | hp
          · rw [e]
          · exact hall p hp)
      have hs0 : sizeOf (front ++ [Directory.mk ck.dir_name ck.file_list []])
          ≤ sz := by
        have hpos : 1 ≤ sizeOf c' := by
          cases c'
          simp only [Directory.mk.sizeOf_spec]
          omega
        rw [sizeOf_append_singleton]
        rw [hs] at hck
        simp only [List.cons.sizeOf_spec] at hck
        simp only [Directory.mk.sizeOf_spec, List.nil.sizeOf_spec]
        omega
      obtain ⟨c0, cs0, hL0⟩ : ∃ c0 cs0,
          front ++ [Directory.mk ck.dir_name ck.file_list []] = c0 :: cs0 := by
        cases front with
        | nil => exact ⟨_, _, rfl⟩
        | cons a l => exact ⟨_, _, rfl⟩
      rw [hL0] at hs0
      obtain ⟨k2, hk2, hrun2⟩ := loop_destroys_list sz c0 cs0 n f above
        (freed ++ destroy_order_list (places (⟨n, f, front, []⟩ :: above)) 0
          (c' :: cs')) hs0 hall
      have hd0 : (toRoot (.mk n f (c0 :: cs0)) above).sub_dir_list ≠ [] :=
        toRoot_sub_dir_list_ne_nil above _ (Or.inl (by simp))
      refine ⟨1 + k1 + above.length + k2, ?_, fun fuel => ?_⟩
      · rw [← hL0, depth_sum_list_append, depth_sum_eq] at hk2
        simp only [sub_dir_list_mk, depth_sum_list] at hk2
        rw [hL, depth_sum_list_append, depth_sum_eq, hs]
        simp only [List.length_cons] at hk1
        omega
      · have hD : toRoot (.mk n f (c :: cs)) above =
            toRoot (.mk ck.dir_name ck.file_list (c' :: cs'))
              (⟨n, f, front, []⟩ :: above) := by
          rw [← hs, toRoot_last_cell, hL]
        have hD1 : toRoot (.mk ck.dir_name ck.file_list [])
              (⟨n, f, front, []⟩ :: above) =
            toRoot (.mk n f (c0 :: cs0)) above := by
          rw [← hL0]
          exact toRoot_last_cell n f front (.mk ck.dir_name ck.file_list [])
            above
        obtain ⟨x, xs, hx, hre⟩ := loop_redescend n f c0 cs0
          (toRoot (.mk n f (c0 :: cs0)) above) hd0
          (freed ++ destroy_order_list (places (⟨n, f, front, []⟩ :: above)) 0
            (c' :: cs')) above hall [] (k2 + fuel)
        rw [show 1 + k1 + above.length + k2 + fuel =
            (k1 + (above.length + (k2 + fuel))) + 1 by omega,
          loop_descend _ _ ⟨c, ⟨n, f, [], cs⟩, above⟩ freed ck
            ([] ++ front) c' cs' hdir hw hs]
        simp only [List.nil_append]
        rw [hD, hrun1 (above.length + (k2 + fuel)), hD1,
          travel_start_cons _ x xs hx, hre, List.append_nil, hrun2 fuel]
        congr 1
        rw [hL, destroy_order_list_append, ← hL0, destroy_order_list_append,
          destroy_order_eq _ ck, hs, places_cons,
          destroy_order_leaf _ (.mk ck.dir_name ck.file_list []) rfl]
        simp

/-- With enough passes the loop of `remove_contents` ends: the list of the
directory is empty and its contents have been freed in bottom-up order. -/
theorem remove_contents_loop_run (dir : Directory) (fuel : Nat)
    (h : passes_bound dir ≤ fuel) :
    remove_contents_loop fuel dir (travel_start dir) [] =
      some (.mk dir.dir_name dir.file_list [],
        destroy_order_list [] 0 dir.sub_dir_list) := by
  cases hs : dir.sub_dir_list with
  | nil =>
    rw [loop_done fuel dir _ [] hs, ← hs, directory_mk_eta]
    rw [hs]
    rfl
  | cons c cs =>
    obtain ⟨k, hk, hrun⟩ := loop_destroys_list (sizeOf (c :: cs)) c cs
      dir.dir_name dir.file_list [] [] (Nat.le_refl _) (by simp)
    have hb : passes_bound dir = k := by
      rw [passes_bound, hs]
      simpa using hk.symm
    have hd : dir = .mk dir.dir_name dir.file_list (c :: cs) := by
      rw [← hs, directory_mk_eta]
    have hfuel : fuel = k + (fuel - k) := by omega
    rw [travel_start_cons dir c cs hs, hfuel]
    have hrun' := hrun (fuel - k)
    simp only [toRoot, List.nil_append] at hrun'
    rw [← hd] at hrun'
    rw [hrun', loop_done _ (.mk dir.dir_name dir.file_list []) _ _ rfl]
    rfl

theorem remove_contents_run (dir : Directory) (fuel : Nat)
    (h : passes_bound dir ≤ fuel) :
    remove_contents fuel dir = some (destroy_order [] dir) := by
  unfold remove_contents
  rw [remove_contents_loop_run dir fuel h]
  simp only [file_list_mk, dir_name_mk]
  rw [destroy_order_eq]

/-! ## Facts about the bottom-up order -/

theorem freed_dirs_append (a b : List Freed) :
    freed_dirs (a ++ b) = freed_dirs a ++ freed_dirs b := by
  induction a with
  | nil => rfl
  | cons x rest ih =>
    cases x with
    | file n => simpa [freed_dirs] using ih
    | dir p n => simpa [freed_dirs] using ih

theorem freed_dirs_free_files (l : List String) :
    freed_dirs (free_files l) = [] := by
  induction l with
  | nil => rfl
  | cons x rest ih => simpa [free_files, freed_dirs] using ih

theorem freed_dirs_destroy_order (place : List Nat) (d : Directory) :
    freed_dirs (destroy_order place d) =
      freed_dirs (destroy_order_list place 0 d.sub_dir_list) ++ [place] := by
  rw [destroy_order_eq, freed_dirs_append, freed_dirs_append,
    freed_dirs_free_files]
  rfl

theorem freed_dirs_sublist {a b : List Freed} (h : a.Sublist b) :
    (freed_dirs a).Sublist (freed_dirs b) := by
  induction h with
  | slnil => exact List.Sublist.refl _
  | cons x _ ih =>
    cases x with
    | file n => exact ih
    | dir p n => exact List.Sublist.cons _ ih
  | cons₂ x _ ih =>
    cases x with
    | file n => exact ih
    | dir p n => exact List.Sublist.cons₂ _ ih

/-- What is freed for a cell of a list is part of what is freed for the
list. -/
theorem destroy_order_sublist_list (place : List Nat) :
    ∀ (l : List Directory) (i j : Nat) (c : Directory), l[j]? = some c →
      (destroy_order (place ++ [i + j]) c).Sublist
        (destroy_order_list place i l)
  | [], _, _, _, h => by simp at h
  | x :: l, i, 0, c, h => by
    simp only [List.getElem?_cons_zero, Option.some.injEq] at h
    rw [destroy_order_list, h]
    exact List.sublist_append_right _ _
  | x :: l, i, j + 1, c, h => by
    simp only [List.getElem?_cons_succ] at h
    rw [destroy_order_list,
      show i + (j + 1) = (i + 1) + j by omega]
    exact (destroy_order_sublist_list place l (i + 1) j c h).trans
      (List.sublist_append_left _ _)

theorem destroy_order_sublist_child (place : List Nat) (d c : Directory)
    (j : Nat) (h : d.sub_dir_list[j]? = some c) :
    (destroy_order (place ++ [j]) c).Sublist (destroy_order place d) := by
  have h1 := destroy_order_sublist_list place d.sub_dir_list 0 j c h
  rw [Nat.zero_add] at h1
  rw [destroy_order_eq place d]
  exact h1.trans (List.sublist_append_left _ _)

theorem at_place_cons (d : Directory) (j : Nat) (q : List Nat) :
    d.at_place (j :: q) =
      match d.sub_dir_list[j]? with
      | none => none
      | some c => c.at_place q := rfl

/-- Every directory below `d` is freed. -/
theorem mem_freed_dirs_of_at_place :
    ∀ (q : List Nat) (d : Directory) (place : List Nat),
      (d.at_place q).isSome → place ++ q ∈ freed_dirs (destroy_order place d)
  | [], d, place, _ => by
    rw [freed_dirs_destroy_order, List.append_nil]
    simp
  | j :: q, d, place, h => by
    rw [at_place_cons] at h
    cases hc : d.sub_dir_list[j]? with
    | none => rw [hc] at h; simp at h
    | some c =>
      rw [hc] at h
      have ih := mem_freed_dirs_of_at_place q c (place ++ [j]) h
      have hsub := freed_dirs_sublist
        (destroy_order_sublist_child place d c j hc)
      have := hsub.subset ih
      simpa using this

/-- A directory is freed after each of its sub directories. -/
theorem child_before_parent :
    ∀ (q : List Nat) (d : Directory) (place : List Nat) (i : Nat),
      (d.at_place (q ++ [i])).isSome →
      [place ++ q ++ [i], place ++ q].Sublist
        (freed_dirs (destroy_order place d))
  | [], d, place, i, h => by
    have hm := mem_freed_dirs_of_at_place [i] d place h
    rw [freed_dirs_destroy_order] at hm ⊢
    have hm' : place ++ [i] ∈
        freed_dirs (destroy_order_list place 0 d.sub_dir_list) := by
      rcases List.mem_append.1 hm with hm | hm
      · exact hm
      · have hl := congrArg List.length (List.mem_singleton.1 hm)
        simp at hl
    rw [List.append_nil]
    exact List.Sublist.append (List.singleton_sublist.2 hm')
      (List.Sublist.refl [place])
  | j :: q, d, place, i, h => by
    rw [List.cons_append, at_place_cons] at h
    cases hc : d.sub_dir_list[j]? with
    | none => rw [hc] at h; simp at h
    | some c =>
      rw [hc] at h
      have ih := child_before_parent q c (place ++ [j]) i h
      have hsub := freed_dirs_sublist
        (destroy_order_sublist_child place d c j hc)
      have := ih.trans hsub
      simpa using this

mutual
/-- Only directories below `d` are freed, and none twice. -/
theorem freed_dirs_exact :
    ∀ (place : List Nat) (d : Directory),
      (∀ x ∈ freed_dirs (destroy_order place d),
        ∃ q, x = place ++ q ∧ (d.at_place q).isSome) ∧
      (freed_dirs (destroy_order place d)).Nodup
  | place, .mk n f s => by
    obtain ⟨hm, hn⟩ := freed_dirs_exact_list place 0 s
    rw [freed_dirs_destroy_order, sub_dir_list_mk]
    constructor
    · intro x hx
      rcases List.mem_append.1 hx with hx | hx
      · obtain ⟨j, c, q, hj, hxe, hq⟩ := hm x hx
        refine ⟨j :: q, by rw [hxe, Nat.zero_add], ?_⟩
        rw [at_place_cons, sub_dir_list_mk, hj]
        exact hq
      · exact ⟨[], by rw [List.mem_singleton.1 hx, List.append_nil], rfl⟩
    · refine List.nodup_append.2 ⟨hn, List.nodup_singleton _, ?_⟩
      intro x hx hp
      obtain ⟨j, c, q, _, hxe, _⟩ := hm x hx
      rw [List.mem_singleton.1 hp] at hxe
      have hl := congrArg List.length hxe
      simp at hl
theorem freed_dirs_exact_list :
    ∀ (place : List Nat) (i : Nat) (l : List Directory),
      (∀ x ∈ freed_dirs (destroy_order_list place i l),
        ∃ j c q, l[j]? = some c ∧ x = place ++ (i + j) :: q ∧
          (c.at_place q).isSome) ∧
      (freed_dirs (destroy_order_list place i l)).Nodup
  | _, _, [] => by
    simp [destroy_order_list, freed_dirs]
  | place, i, c :: cs => by
    obtain ⟨hm1, hn1⟩ := freed_dirs_exact_list place (i + 1) cs
    obtain ⟨hm2, hn2⟩ := freed_dirs_exact (place ++ [i]) c
    rw [destroy_order_list, freed_dirs_append]
    constructor
    · intro x hx
      rcases List.mem_append.1 hx with hx | hx
      · obtain ⟨j, c', q, hj, hxe, hq⟩ := hm1 x hx
        exact ⟨j + 1, c', q, by simpa using hj,
          by rw [hxe, show i + 1 + j = i + (j + 1) by omega], hq⟩
      · obtain ⟨q, hxe, hq⟩ := hm2 x hx
        exact ⟨0, c, q, List.getElem?_cons_zero, by rw [hxe]; simp, hq⟩
    · refine List.nodup_append.2 ⟨hn1, hn2, ?_⟩
      intro x hx1 hx2
      obtain ⟨j, c', q, _, hxe, _⟩ := hm1 x hx1
      obtain ⟨q', hxe', _⟩ := hm2 x hx2
      rw [hxe', List.append_assoc] at hxe
      have := List.append_cancel_left hxe
      simp only [List.singleton_append, List.cons.injEq] at this
      omega
end

theorem at_place_append :
    ∀ (p q : List Nat) (d c : Directory), d.at_place p = some c →
      d.at_place (p ++ q) = c.at_place q
  | [], q, d, c, h => by
    simp only [Directory.at_place, Option.some.injEq] at h
    rw [List.nil_append, h]
  | j :: p, q, d, c, h => by
    rw [at_place_cons] at h
    rw [List.cons_append, at_place_cons]
    cases hc : d.sub_dir_list[j]? with
    | none => rw [hc] at h; simp at h
    | some c1 =>
      rw [hc] at h
      exact at_place_append p q c1 c h

mutual
/-- What is freed is, for each directory freed, its files and then the
directory. -/
theorem destroy_order_blocks (top : Directory) :
    ∀ (place : List Nat) (c : Directory), top.at_place place = some c →
      destroy_order place c =
        (freed_dirs (destroy_order place c)).flatMap (freed_block top)
  | place, .mk n f s, h => by
    have hl := destroy_order_blocks_list top place (.mk n f s) h 0 s
      (fun j c hj => by rw [Nat.zero_add]; exact hj)
    rw [freed_dirs_destroy_order, List.flatMap_append, sub_dir_list_mk, ← hl,
      destroy_order]
    simp [freed_block, h]
theorem destroy_order_blocks_list (top : Directory) :
    ∀ (place : List Nat) (y : Directory), top.at_place place = some y →
      ∀ (i : Nat) (l : List Directory),
      (∀ j c, l[j]? = some c → y.sub_dir_list[i + j]? = some c) →
      destroy_order_list place i l =
        (freed_dirs (destroy_order_list place i l)).flatMap (freed_block top)
  | _, _, _, _, [], _ => by
    simp [destroy_order_list, freed_dirs]
  | place, y, h, i, c :: cs, hl => by
    have h1 := destroy_order_blocks_list top place y h (i + 1) cs
      (fun j c' hj => by
        rw [show i + 1 + j = i + (j + 1) by omega]
        exact hl (j + 1) c' (by simpa using hj))
    have hc : top.at_place (place ++ [i]) = some c := by
      have h0 := hl 0 c List.getElem?_cons_zero
      rw [Nat.add_zero] at h0
      rw [at_place_append place [i] top y h, at_place_cons, h0]
      rfl
    have h2 := destroy_order_blocks top (place ++ [i]) c hc
    rw [destroy_order_list, freed_dirs_append, List.flatMap_append, ← h1, ← h2]
end

theorem freed_files_append (a b : List Freed) :
    freed_files (a ++ b) = freed_files a ++ freed_files b := by
  induction a with
  | nil => rfl
  | cons x rest ih =>
    cases x with
    | file n => simp [freed_files, ih]
    | dir p n => simpa [freed_files] using ih

theorem freed_files_map_file (l : List String) :
    freed_files (l.map Freed.file) = l := by
  induction l with
  | nil => rfl
  | cons x rest ih => simp [freed_files, ih]

/-- The files freed in a sequence of blocks are the file lists of the
directories of the blocks, one after the other. -/
theorem freed_files_blocks (dir : Directory) (ps : List (List Nat)) :
    freed_files (ps.flatMap (freed_block dir)) = ps.flatMap (files_at dir) := by
  induction ps with
  | nil => rfl
  | cons p rest ih =>
    rw [List.flatMap_cons, List.flatMap_cons, freed_files_append, ih]
    congr 1
    unfold freed_block files_at
    cases dir.at_place p with
    | none => rfl
    | some d =>
      simp only
      rw [freed_files_append, freed_files_map_file]
      simp [freed_files]

/-! ## Claims about `remove_contents` -/

/-- C21: `remove_contents` terminates on every directory tree. With
`passes_bound dir` passes of its outer loop (the sum of the depths of the
directories below `dir`) or more allowed, the loop ends, and it ends with the
list of sub directories of `dir` empty; the function then returns, and so does
`rmfs` on a file system whose root is `dir`. -/
theorem remove_contents_terminates (dir : Directory) (fuel : Nat)
    (h : passes_bound dir ≤ fuel) :
    (∃ last freed,
      remove_contents_loop fuel dir (travel_start dir) [] = some (last, freed) ∧
      last.sub_dir_list = [] ∧ last.dir_name = dir.dir_name ∧
      last.file_list = dir.file_list) ∧
    (remove_contents fuel dir).isSome = true ∧
    (∀ files : Filesystem, files.root = dir →
      (rmfs fuel files).isSome = true) := by
  refine ⟨⟨_, _, remove_contents_loop_run dir fuel h, rfl, rfl, rfl⟩, ?_, ?_⟩
  · rw [remove_contents_run dir fuel h]
    rfl
  · intro files hf
    rw [rmfs, hf, remove_contents_run dir fuel h]
    rfl

theorem remove_contents_terminates_witness :
    passes_bound (.mk "d" ["f"] [.mk "a" ["g", "h"] [.mk "x" [] [],
      .mk "y" ["k"] []], .mk "b" [] []]) ≤ 6 ∧
    ((∃ last freed,
      remove_contents_loop 6 (.mk "d" ["f"] [.mk "a" ["g", "h"] [.mk "x" [] [],
        .mk "y" ["k"] []], .mk "b" [] []])
        (travel_start (.mk "d" ["f"] [.mk "a" ["g", "h"] [.mk "x" [] [],
          .mk "y" ["k"] []], .mk "b" [] []])) [] = some (last, freed) ∧
      last.sub_dir_list = [] ∧
      last.dir_name = (Directory.mk "d" ["f"] [.mk "a" ["g", "h"] [.mk "x" [] [],
        .mk "y" ["k"] []], .mk "b" [] []]).dir_name ∧
      last.file_list = (Directory.mk "d" ["f"] [.mk "a" ["g", "h"]
        [.mk "x" [] [], .mk "y" ["k"] []], .mk "b" [] []]).file_list) ∧
    (remove_contents 6 (.mk "d" ["f"] [.mk "a" ["g", "h"] [.mk "x" [] [],
      .mk "y" ["k"] []], .mk "b" [] []])).isSome = true ∧
    (∀ files : Filesystem,
      files.root = .mk "d" ["f"] [.mk "a" ["g", "h"] [.mk "x" [] [],
        .mk "y" ["k"] []], .mk "b" [] []] →
      (rmfs 6 files).isSome = true)) :=
  ⟨by decide, remove_contents_terminates _ 6 (by decide)⟩

/-- C22: `remove_contents` destroys everything exactly once and bottom-up.
With enough passes allowed, what it frees is `destroy_order [] dir`: the
directories freed are, each once, exactly the directories at a place of the
tree of `dir` (`dir` itself included); what is freed is, for each directory
freed in turn, one `Freed.file` for each cell of its file list, in list
order, and then the directory, and nothing else, so that the names of the
files freed are the file lists of the directories freed, one after the
other; every sub directory is freed before the directory holding it; and
`dir` is freed last. -/
theorem remove_contents_bottom_up (dir : Directory) (fuel : Nat)
    (h : passes_bound dir ≤ fuel) :
    ∃ freed, remove_contents fuel dir = some freed ∧
      freed = destroy_order [] dir ∧
      (freed_dirs freed).Nodup ∧
      (∀ place, place ∈ freed_dirs freed ↔ (dir.at_place place).isSome = true) ∧
      freed = (freed_dirs freed).flatMap (freed_block dir) ∧
      freed_files freed = (freed_dirs freed).flatMap (files_at dir) ∧
      (∀ place i, (dir.at_place (place ++ [i])).isSome = true →
        [place ++ [i], place].Sublist (freed_dirs freed)) ∧
      freed.getLast? = some (Freed.dir [] dir.dir_name) := by
  refine ⟨_, remove_contents_run dir fuel h, rfl, (freed_dirs_exact [] dir).2,
    ?_, destroy_order_blocks dir [] dir rfl, ?_, ?_, ?_⟩
  · intro place
    constructor
    · intro hm
      obtain ⟨q, hq, hs⟩ := (freed_dirs_exact [] dir).1 place hm
      rw [List.nil_append] at hq
      rw [hq]
      exact hs
    · intro hs
      have := mem_freed_dirs_of_at_place place dir [] hs
      rwa [List.nil_append] at this
  · have hb := destroy_order_blocks dir [] dir rfl
    have hf := freed_files_blocks dir (freed_dirs (destroy_order [] dir))
    rw [← hb] at hf
    exact hf
  · intro place i hs
    have := child_before_parent place dir [] i hs
    rwa [List.nil_append] at this
  · rw [destroy_order_eq, ← List.append_assoc, List.getLast?_concat]

/-- Witness of C22: a directory `d` with the file `f` and the sub
directories `a` (files `g`, `h`; sub directories `x` and `y`, the latter
with the file `k`) and `b`.  What is freed, in order: `b`, `k`, `y`, `x`,
`g`, `h`, `a`, `f`, `d`. -/
theorem remove_contents_bottom_up_witness :
    passes_bound (.mk "d" ["f"] [.mk "a" ["g", "h"] [.mk "x" [] [],
      .mk "y" ["k"] []], .mk "b" [] []]) ≤ 6 ∧
    remove_contents 6 (.mk "d" ["f"] [.mk "a" ["g", "h"] [.mk "x" [] [],
      .mk "y" ["k"] []], .mk "b" [] []]) =
      some [Freed.dir [1] "b", Freed.file "k", Freed.dir [0, 1] "y",
        Freed.dir [0, 0] "x", Freed.file "g", Freed.file "h",
        Freed.dir [0] "a", Freed.file "f", Freed.dir [] "d"] ∧
    ∃ freed,
      remove_contents 6 (.mk "d" ["f"] [.mk "a" ["g", "h"] [.mk "x" [] [],
        .mk "y" ["k"] []], .mk "b" [] []]) = some freed ∧
      freed = destroy_order [] (.mk "d" ["f"] [.mk "a" ["g", "h"]
        [.mk "x" [] [], .mk "y" ["k"] []], .mk "b" [] []]) ∧
      (freed_dirs freed).Nodup ∧
      (∀ place, place ∈ freed_dirs freed ↔
        ((Directory.mk "d" ["f"] [.mk "a" ["g", "h"] [.mk "x" [] [],
          .mk "y" ["k"] []], .mk "b" [] []]).at_place place).isSome = true) ∧
      freed = (freed_dirs freed).flatMap
        (freed_block (.mk "d" ["f"] [.mk "a" ["g", "h"] [.mk "x" [] [],
          .mk "y" ["k"] []], .mk "b" [] []])) ∧
      freed_files freed = (freed_dirs freed).flatMap
        (files_at (.mk "d" ["f"] [.mk "a" ["g", "h"] [.mk "x" [] [],
          .mk "y" ["k"] []], .mk "b" [] []])) ∧
      (∀ place i,
        ((Directory.mk "d" ["f"] [.mk "a" ["g", "h"] [.mk "x" [] [],
          .mk "y" ["k"] []], .mk "b" [] []]).at_place
            (place ++ [i])).isSome = true →
        [place ++ [i], place].Sublist (freed_dirs freed)) ∧
      freed.getLast? = some (Freed.dir []
        (Directory.mk "d" ["f"] [.mk "a" ["g", "h"] [.mk "x" [] [],
          .mk "y" ["k"] []], .mk "b" [] []]).dir_name) :=
  ⟨by decide, by decide, remove_contents_bottom_up _ 6 (by decide)⟩

end UnixFS
